import Mathlib

/-!
The file libkmod-builtin.c: the `modules.builtin.modinfo` iterator and lookup

A shallow embedding of `libkmod/libkmod-builtin.c`.

* A byte is a natural number; the NUL byte is `0` and the character `'.'` is `46`.
* The mapped file is a `List Nat`.  A pointer into it is an offset, and the memory
  visible from the pointer `mm + off` is `mm.drop off`.
* A `const char *` argument owned by the caller (`modname`, the directory name) is
  the list of its characters; the memory behind it is that list followed by a NUL.
* `off_t`, `size_t` and `int` values are natural numbers: every offset and count the
  code computes is bounded by the size of the file, which is taken to fit those types.
* The C loops are run with a budget of iterations; the entry points hand out a
  budget larger than the number of iterations any input needs, so that the outcome
  `nofuel` never arises from them (`iter_next_ne_nofuel`, `get_strings_ne_nofuel`,
  `get_modinfo_ne_nofuel`).
* A read outside the memory a pointer addresses is the outcome `fault`.
* Properties of NUL-terminated buffers are stated on lists of records: the buffer
  is `encode recs`, and a record boundary is the length of the encoding of a prefix
  of `recs`.  Sequences of calls on an iterator are the relation `Calls`.
-/

namespace Kmod

/-! ## Outcomes -/

/-- Outcome of running a piece of the C code. -/
inductive Outcome (α : Type) where
  /-- normal completion with a value -/
  | ok (a : α)
  /-- an access outside the addressed object -/
  | fault
  /-- the iteration budget of the model was used up -/
  | nofuel
  deriving DecidableEq

/-- Sequencing of outcomes. -/
def Outcome.bind {α β : Type} : Outcome α → (α → Outcome β) → Outcome β
  | .ok a, f => f a
  | .fault, _ => .fault
  | .nofuel, _ => .nofuel

/-! ## The C library functions the file uses -/

/-- The call `strchr(s, c)` on the memory `s`: the distance from `s` to the first
byte equal to `c` found before the terminating NUL, or `none` for a NULL result. -/
def strchr : List Nat → Nat → Outcome (Option Nat)
  | [], _ => .fault
  | b :: s, c =>
    if b = c then .ok (some 0)
    else if b = 0 then .ok none
    else (strchr s c).bind fun r => .ok (r.map (· + 1))

/-- The call `strlen(s)` on the memory `s`. -/
def strlen : List Nat → Outcome Nat
  | [] => .fault
  | b :: s => if b = 0 then .ok 0 else (strlen s).bind fun n => .ok (n + 1)

/-- The call `strncmp(s1, s2, n)`: zero exactly when the two strings agree on their
first `n` bytes or up to a common NUL before that. -/
def strncmp : List Nat → List Nat → Nat → Outcome Int
  | _, _, 0 => .ok 0
  | [], _, _ + 1 => .fault
  | _ :: _, [], _ + 1 => .fault
  | a :: s1, b :: s2, n + 1 =>
    if a ≠ b then .ok ((a : Int) - (b : Int))
    else if a = 0 then .ok 0
    else strncmp s1 s2 n

/-! ## Constants -/

/-- Value of `PATH_MAX` (Linux). -/
def PATH_MAX : Nat := 4096

/-- The string `"modules.builtin.modinfo"`. -/
def MODULES_BUILTIN_MODINFO : List Nat :=
  [109, 111, 100, 117, 108, 101, 115, 46, 98, 117, 105, 108, 116, 105, 110, 46,
   109, 111, 100, 105, 110, 102, 111]

/-- Value of `ENAMETOOLONG` (Linux). -/
def ENAMETOOLONG : Nat := 36
/-- Value of `ENOMEM` (Linux). -/
def ENOMEM : Nat := 12
/-- Value of `ENODATA` (Linux). -/
def ENODATA : Nat := 61
/-- Value of `ENOSYS` (Linux). -/
def ENOSYS : Nat := 38
/-- Size of a pointer, `sizeof(char *)` (LP64). -/
def sizeof_ptr : Nat := 8
/-- Size of `struct kmod_builtin_iter` (LP64: two pointers and two `off_t`). -/
def sizeof_iter : Nat := 32

/-! ## Data model -/

/-- What the code consults through `struct kmod_ctx *` and the C runtime: the
directory name, the file abstraction and the allocator. -/
structure kmod_ctx where
  /-- result of `kmod_get_dirname(ctx)` -/
  dirname : List Nat
  /-- result of `kmod_file_open(ctx, path)`: the contents of the file, or the
  `errno` of the failure -/
  file_open : List Nat → Except Nat (List Nat)
  /-- whether `malloc(n)` succeeds -/
  malloc_ok : Nat → Bool

/-- The type `struct kmod_builtin_iter`; `file` stands for the open file, that is
for `kmod_file_get_contents` and `kmod_file_get_size`. -/
structure kmod_builtin_iter where
  file : List Nat
  pos : Nat
  next : Nat
  deriving DecidableEq

/-- The block `kmod_builtin_get_modinfo` allocates: `table` are the pointer slots
(a pointer is an offset into the string region, `none` is a slot never written),
`strings` are the bytes that follow the slots (`none` is a byte never written). -/
structure modinfo_block where
  /-- number of bytes requested from `malloc` -/
  alloc : Nat
  table : List (Option Nat)
  strings : List (Option Nat)
  deriving DecidableEq

/-! ## kmod_builtin_iter_new -/

/-- The function `kmod_builtin_iter_new`: the new iterator, or the `errno` left
behind with the NULL result. -/
def kmod_builtin_iter_new (ctx : kmod_ctx) : Outcome (Except Nat kmod_builtin_iter) :=
  (strlen (ctx.dirname ++ [0])).bind fun len =>
  (strlen (MODULES_BUILTIN_MODINFO ++ [0])).bind fun namelen =>
  if len + 1 + namelen + 1 ≥ PATH_MAX then .ok (.error ENAMETOOLONG)
  else
    let path := (ctx.dirname.take len ++ 47 :: MODULES_BUILTIN_MODINFO).take (PATH_MAX - 1)
    match ctx.file_open path with
    | .error e => .ok (.error e)
    | .ok mm =>
      if ctx.malloc_ok sizeof_iter then .ok (.ok { file := mm, pos := 0, next := 0 })
      else .ok (.error ENOMEM)

/-! ## kmod_builtin_iter_next -/

/-- The `while` loop of `kmod_builtin_iter_next` (lines 83-100).  Arguments after the
budget: `offset`, `modname` (NULL is `none`) and `modlen`.  The result `none` is the
`return false` of line 88; `some (offset, modname)` are the values with which the
loop is left. -/
def iter_next_loop (mm : List Nat) :
    Nat → Nat → Option Nat → Nat → Outcome (Option (Nat × Option Nat))
  | 0, _, _, _ => .nofuel
  | fuel + 1, offset, modname, modlen =>
    if offset < mm.length then
      (strchr (mm.drop offset) 46).bind fun dot =>
      match dot with
      | none => .ok none
      | some len =>
        match modname with
        | none =>
          (strlen (mm.drop offset)).bind fun l =>
            iter_next_loop mm fuel (offset + (l + 1)) (some offset) len
        | some m =>
          if modlen ≠ len then .ok (some (offset, modname))
          else (strncmp (mm.drop m) (mm.drop offset) len).bind fun c =>
            if c ≠ 0 then .ok (some (offset, modname))
            else (strlen (mm.drop offset)).bind fun l =>
              iter_next_loop mm fuel (offset + (l + 1)) modname modlen
    else .ok (some (offset, modname))

/-- The function `kmod_builtin_iter_next`: the returned `bool` and the iterator
after the call. -/
def kmod_builtin_iter_next (iter : kmod_builtin_iter) : Outcome (Bool × kmod_builtin_iter) :=
  (iter_next_loop iter.file (iter.file.length + 1) iter.next none 0).bind fun r =>
  match r with
  | none => .ok (false, iter)
  | some (_, none) => .ok (false, iter)
  | some (offset, some _) => .ok (true, { iter with next := offset })

/-! ## kmod_builtin_iter_get_strings -/

/-- The `while` loop of `kmod_builtin_iter_get_strings` (lines 126-144).  Arguments
after the budget: `pos`, `start` (NULL is `none`), `count` and `modlen`.  The result
`none` is the `return -1` of line 131; `some (start, count)` are the values with
which the loop is left. -/
def get_strings_loop (mm : List Nat) (next : Nat) :
    Nat → Nat → Option Nat → Nat → Nat → Outcome (Option (Option Nat × Nat))
  | 0, _, _, _, _ => .nofuel
  | fuel + 1, pos, start, count, modlen =>
    if pos < next then
      (strchr (mm.drop pos) 46).bind fun dot =>
      match dot with
      | none => .ok none
      | some len =>
        match start with
        | none =>
          (strlen (mm.drop pos)).bind fun l =>
            get_strings_loop mm next fuel (pos + (l + 1)) (some pos) (count + 1) len
        | some st =>
          if modlen ≠ len then .ok (some (start, count))
          else (strncmp (mm.drop st) (mm.drop pos) len).bind fun c =>
            if c ≠ 0 then .ok (some (start, count))
            else (strlen (mm.drop pos)).bind fun l =>
              get_strings_loop mm next fuel (pos + (l + 1)) start (count + 1) modlen
    else .ok (some (start, count))

/-- The function `kmod_builtin_iter_get_strings`.  The argument `strings` is the
value of `*strings` before the call; the result is the returned `int`, the value of
`*strings` after the call and the iterator after the call. -/
def kmod_builtin_iter_get_strings (iter : kmod_builtin_iter) (strings : Option Nat) :
    Outcome (Int × Option Nat × kmod_builtin_iter) :=
  (get_strings_loop iter.file iter.next (iter.next + 1) iter.pos none 0 0).bind fun r =>
  match r with
  | none => .ok (-1, strings, iter)
  | some (start, count) => .ok ((count : Int), start, { iter with pos := iter.next })

/-! ## kmod_builtin_get_modinfo -/

/-- The first `for` loop of `kmod_builtin_get_modinfo` (lines 175-200).  Arguments
after the budget: `mmoffset`, `count`, `size` and `section` (NULL is `none`).  The
result `none` is the `goto fail` of line 181 with `count = -ENODATA`;
`some (count, size, section)` are the values with which the loop is left. -/
def modinfo_scan_loop (mm modname : List Nat) (modlen : Nat) :
    Nat → Nat → Nat → Nat → Option Nat → Outcome (Option (Nat × Nat × Option Nat))
  | 0, _, _, _, _ => .nofuel
  | fuel + 1, mmoffset, count, size, sect =>
    if mmoffset < mm.length then
      (strchr (mm.drop mmoffset) 46).bind fun dot =>
      match dot with
      | none => .ok none
      | some len =>
        if modlen ≠ len then
          if count ≠ 0 then .ok (some (count, size, sect))
          else (strlen (mm.drop mmoffset)).bind fun l =>
            modinfo_scan_loop mm modname modlen fuel (mmoffset + (l + 1)) count size sect
        else (strncmp (modname ++ [0]) (mm.drop mmoffset) len).bind fun c =>
          if c ≠ 0 then
            if count ≠ 0 then .ok (some (count, size, sect))
            else (strlen (mm.drop mmoffset)).bind fun l =>
              modinfo_scan_loop mm modname modlen fuel (mmoffset + (l + 1)) count size sect
          else
            (strlen (mm.drop (mmoffset + len + 1))).bind fun l =>
              modinfo_scan_loop mm modname modlen fuel (mmoffset + (modlen + 1 + (l + 1)))
                (count + 1) (size + (l + 1)) (if count = 0 then some mmoffset else sect)
    else .ok (some (count, size, sect))

/-- Replace the bytes of `region` from `offset` on by `src`. -/
def write_bytes (region : List (Option Nat)) (offset : Nat) (src : List Nat) :
    List (Option Nat) :=
  region.take offset ++ src.map some ++ region.drop (offset + src.length)

/-- The second `for` loop of `kmod_builtin_get_modinfo` (lines 218-226), reading the
memory `sect` (the pointer `section`) and writing the block.  Arguments after the
budget: `mmoffset`, `offset`, `n` and the block.  A write outside the pointer slots
or outside the string region is a fault. -/
def modinfo_copy_loop (sect : List Nat) (modlen size : Nat) :
    Nat → Nat → Nat → Nat → modinfo_block → Outcome modinfo_block
  | 0, _, _, _, _ => .nofuel
  | fuel + 1, mmoffset, offset, n, blk =>
    if offset < size then
      (strlen (sect.drop (mmoffset + modlen + 1))).bind fun l =>
        if offset + (l + 1) ≤ blk.strings.length ∧ n < blk.table.length then
          modinfo_copy_loop sect modlen size fuel (mmoffset + (modlen + 1 + (l + 1)))
            (offset + (l + 1)) (n + 1)
            { blk with
              strings := write_bytes blk.strings offset
                ((sect.drop (mmoffset + modlen + 1)).take (l + 1))
              table := blk.table.set n (some offset) }
        else .fault
    else .ok blk

/-- The function `kmod_builtin_get_modinfo`: the returned `int` and the block stored
in `*modinfo` (`none` when nothing usable was stored). -/
def kmod_builtin_get_modinfo (ctx : kmod_ctx) (modname : List Nat) :
    Outcome (Int × Option modinfo_block) :=
  (kmod_builtin_iter_new ctx).bind fun it =>
  match it with
  | .error _ => .ok (-1, none)
  | .ok iter =>
    (strlen (modname ++ [0])).bind fun modlen =>
    let mm := iter.file
    (modinfo_scan_loop mm modname modlen (mm.length + 1) 0 0 0 none).bind fun r =>
    match r with
    | none => .ok (-(ENODATA : Int), none)
    | some (count, size, sect) =>
      if count = 0 then .ok (-(ENOSYS : Int), none)
      else if ctx.malloc_ok (size + sizeof_ptr * (count + 1)) = false then
        .ok (-(ENOMEM : Int), none)
      else
        match sect with
        | none => .fault
        | some sec =>
          (modinfo_copy_loop (mm.drop sec) modlen size (size + 1) 0 0 0
            { alloc := size + sizeof_ptr * (count + 1)
              table := List.replicate (count + 1) none
              strings := List.replicate size none }).bind fun blk =>
          .ok ((count : Int), some blk)

/-! ## Callers and reference notions used to state the properties -/

/-- Drive an iterator the way the callers do: `kmod_builtin_iter_next`, then
`kmod_builtin_iter_get_strings`, until the former returns `false`.  The result is
the list of extracted pairs (value of `*strings`, returned count) and the final
iterator. -/
def enumerate_loop :
    Nat → kmod_builtin_iter → Outcome (List (Option Nat × Int) × kmod_builtin_iter)
  | 0, _ => .nofuel
  | fuel + 1, iter =>
    (kmod_builtin_iter_next iter).bind fun r =>
    match r with
    | (false, it1) => .ok ([], it1)
    | (true, it1) =>
      (kmod_builtin_iter_get_strings it1 none).bind fun g =>
      (enumerate_loop fuel g.2.2).bind fun rest =>
      .ok ((g.2.1, g.1) :: rest.1, rest.2)

/-- Full enumeration of a file from a fresh iterator state. -/
def enumerate (iter : kmod_builtin_iter) :
    Outcome (List (Option Nat × Int) × kmod_builtin_iter) :=
  enumerate_loop (iter.file.length + 1) iter

/-- The file made of the given records, each followed by its NUL. -/
def encode : List (List Nat) → List Nat
  | [] => []
  | r :: rs => r ++ 0 :: encode rs

/-- The bytes of a record before its first `'.'`. -/
def prefixOf (r : List Nat) : List Nat := r.takeWhile (· ≠ 46)

/-- The bytes of a record after its first `'.'`. -/
def valueOf (r : List Nat) : List Nat := (r.dropWhile (· ≠ 46)).drop 1

/-- A list of NUL-free records: its encoding is a NUL-terminated buffer. -/
def NulFree (recs : List (List Nat)) : Prop := ∀ r ∈ recs, 0 ∉ r

/-- A well-formed record list: NUL-free records that all contain a `'.'`. -/
def WellFormed (recs : List (List Nat)) : Prop := ∀ r ∈ recs, 0 ∉ r ∧ 46 ∈ r

instance (recs : List (List Nat)) : Decidable (NulFree recs) := by
  unfold NulFree; infer_instance

instance (recs : List (List Nat)) : Decidable (WellFormed recs) := by
  unfold WellFormed; infer_instance

/-- The C strings read one after the other from offset `off` of `mm`, `n` of them:
how a caller walks the group handed out by `kmod_builtin_iter_get_strings`. -/
def strings_at (mm : List Nat) : Nat → Nat → List (List Nat)
  | 0, _ => []
  | n + 1, off =>
    (mm.drop off).takeWhile (· ≠ 0) ::
      strings_at mm n (off + ((mm.drop off).takeWhile (· ≠ 0)).length + 1)

/-- The module name of the group that starts at offset `off`. -/
def name_at (mm : List Nat) (off : Nat) : List Nat := prefixOf (mm.drop off)

/-- The C string a pointer into the string region of a block designates, when all
its bytes up to the NUL were written. -/
def region_string : List (Option Nat) → Option (List Nat)
  | [] => none
  | none :: _ => none
  | some b :: rest => if b = 0 then some [] else (region_string rest).map (b :: ·)

/-- The first `count` value strings of a block, read through its pointer slots. -/
def modinfo_block.values (blk : modinfo_block) (count : Nat) : List (Option (List Nat)) :=
  (blk.table.take count).map fun slot =>
    match slot with
    | none => none
    | some off => region_string (blk.strings.drop off)

/-- Reference grouping: the maximal runs of consecutive records with the same
prefix, in file order. -/
def refGroups : List (List Nat) → List (List (List Nat))
  | [] => []
  | r :: rs =>
    match refGroups rs with
    | (r2 :: g) :: gs =>
      if prefixOf r2 = prefixOf r then (r :: r2 :: g) :: gs else [r] :: (r2 :: g) :: gs
    | _ => [[r]]

/-- Start offsets and lengths of consecutive groups laid out from offset `off`. -/
def refPairs : Nat → List (List (List Nat)) → List (Option Nat × Int)
  | _, [] => []
  | off, g :: gs => (some off, (g.length : Int)) :: refPairs (off + (encode g).length) gs

/-- First maximal run of consecutive records whose prefix is `name`. -/
def firstRun (name : List Nat) (recs : List (List Nat)) : List (List Nat) :=
  (recs.dropWhile (fun r => decide (prefixOf r ≠ name))).takeWhile
    (fun r => decide (prefixOf r = name))

/-- Membership of a record in the group of prefix `p`: it has a `'.'` and the bytes
before it are `p`. -/
def inGroup (p : List Nat) (r : List Nat) : Bool := decide (46 ∈ r) && decide (prefixOf r = p)

/-- The next record to scan has no `'.'`. -/
def blocked : List (List Nat) → Bool
  | [] => false
  | r :: _ => decide (46 ∉ r)

/-- The group at the head of a record list: the first record and the records after
it that have a `'.'` and the same prefix. -/
def headGroup : List (List Nat) → List (List Nat)
  | [] => []
  | r :: rs => (r :: rs).takeWhile (inGroup (prefixOf r))

/-- The records that follow the group at the head of a record list. -/
def afterGroup : List (List Nat) → List (List Nat)
  | [] => []
  | r :: rs => (r :: rs).dropWhile (inGroup (prefixOf r))

/-- Records read by one call of `kmod_builtin_iter_next` on the records `B` that
start at `next`: the run of records with the prefix of the first one, and the
single record that follows this run. -/
def scannedByNext : List (List Nat) → List (List Nat)
  | [] => []
  | r :: rs =>
    (r :: rs).takeWhile (fun x => decide (prefixOf x = prefixOf r)) ++
      ((r :: rs).dropWhile (fun x => decide (prefixOf x = prefixOf r))).take 1

/-- Test that a record has the same prefix as the record `r`. -/
def samePrefix (r : List Nat) : List Nat → Bool := fun x => decide (prefixOf x = prefixOf r)

/-- All records of each module name are contiguous: once the run of records with
the prefix of a record has ended, that prefix does not occur again. -/
def Contiguous : List (List Nat) → Prop
  | [] => True
  | r :: rs => (∀ x ∈ rs.dropWhile (samePrefix r), prefixOf x ≠ prefixOf r) ∧ Contiguous rs

/-- Decision procedure for `Contiguous`. -/
def Contiguous.dec : (B : List (List Nat)) → Decidable (Contiguous B)
  | [] => isTrue trivial
  | r :: rs =>
    match Contiguous.dec rs with
    | isTrue h =>
      if h2 : ∀ x ∈ rs.dropWhile (samePrefix r), prefixOf x ≠ prefixOf r then isTrue ⟨h2, h⟩
      else isFalse fun hc => h2 hc.1
    | isFalse h => isFalse fun hc => h hc.2

instance (B : List (List Nat)) : Decidable (Contiguous B) := Contiguous.dec B

/-- The module names of the groups an enumeration handed out, read in the buffer
at the extracted pointers. -/
def group_names (mm : List Nat) (out : List (Option Nat × Int)) : List (List Nat) :=
  out.filterMap fun e => e.1.map (name_at mm)

/-- A record the lookup of `name` steps over before any match: it has a `'.'` and
its prefix is not `name`. -/
def skipped (name : List Nat) (r : List Nat) : Bool :=
  decide (46 ∈ r) && !decide (prefixOf r = name)

/-- The value strings of a run of records, each followed by its NUL. -/
def valueBytes (G : List (List Nat)) : List Nat := encode (G.map valueOf)

/-- Offsets of the value strings of a run of records laid out from offset `off`. -/
def valueOffsets : Nat → List (List Nat) → List Nat
  | _, [] => []
  | off, r :: G => off :: valueOffsets (off + ((valueOf r).length + 1)) G

/-- Records read by the scan of `kmod_builtin_get_modinfo` for `name`: the records
before the first matching one, the run of matching records, and the single record
that follows this run.  A record matches when it has a `'.'` and the bytes before it
are `name`. -/
def scannedByLookup (name : List Nat) (recs : List (List Nat)) : List (List Nat) :=
  recs.takeWhile (fun r => !inGroup name r) ++
    (recs.dropWhile (fun r => !inGroup name r)).takeWhile (inGroup name) ++
    ((recs.dropWhile (fun r => !inGroup name r)).dropWhile (inGroup name)).take 1

/-- All records of the module `M` are contiguous: after the first run of records
with prefix `M` no record has this prefix. -/
def ModContiguous (M : List Nat) (recs : List (List Nat)) : Prop :=
  ∀ x ∈ ((recs.dropWhile (fun r => decide (prefixOf r ≠ M))).dropWhile
    (fun r => decide (prefixOf r = M))), prefixOf x ≠ M

instance (M : List Nat) (recs : List (List Nat)) : Decidable (ModContiguous M recs) := by
  unfold ModContiguous; infer_instance

/-- The run of matching records found by the scan of `kmod_builtin_get_modinfo`. -/
def lookupRun (name : List Nat) (recs : List (List Nat)) : List (List Nat) :=
  (recs.dropWhile (skipped name)).takeWhile (inGroup name)

/-- The records after the run found by the scan of `kmod_builtin_get_modinfo`. -/
def lookupRest (name : List Nat) (recs : List (List Nat)) : List (List Nat) :=
  (recs.dropWhile (skipped name)).dropWhile (inGroup name)

/-! ## Sequences of calls, block layout -/

/-- A sequence of calls on an iterator: `Calls it k it2` says that `it2` is the
iterator after some calls of `kmod_builtin_iter_next` and
`kmod_builtin_iter_get_strings`, in any order, started on `it`, of which `k` calls of
`kmod_builtin_iter_next` returned true. -/
inductive Calls : kmod_builtin_iter → Nat → kmod_builtin_iter → Prop where
  | done (it : kmod_builtin_iter) : Calls it 0 it
  | advance {it it1 it2 : kmod_builtin_iter} {k : Nat} :
      Calls it k it1 → kmod_builtin_iter_next it1 = .ok (true, it2) → Calls it (k + 1) it2
  | refuse {it it1 it2 : kmod_builtin_iter} {k : Nat} :
      Calls it k it1 → kmod_builtin_iter_next it1 = .ok (false, it2) → Calls it k it2
  | extract {it it1 it2 : kmod_builtin_iter} {k : Nat} {s p : Option Nat} {c : Int} :
      Calls it k it1 → kmod_builtin_iter_get_strings it1 s = .ok (c, p, it2) → Calls it k it2

/-- The iterator states reachable on the file `mm` from the state `pos = next = 0`
that `kmod_builtin_iter_new` sets up. -/
def Reachable (mm : List Nat) (it : kmod_builtin_iter) : Prop := ∃ k, Calls ⟨mm, 0, 0⟩ k it

/-- A record boundary of the buffer `mm`: offset 0 or the offset just after a NUL. -/
def is_boundary (mm : List Nat) (off : Nat) : Prop := off = 0 ∨ (0 < off ∧ mm[off - 1]? = some 0)

instance (mm : List Nat) (off : Nat) : Decidable (is_boundary mm off) := by
  unfold is_boundary; infer_instance

/-- Offsets of C strings laid out one after the other from offset `off`. -/
def stringOffsets : Nat → List (List Nat) → List Nat
  | _, [] => []
  | off, v :: vs => off :: stringOffsets (off + (v.length + 1)) vs

/-- The memory `mm` holds, from offset `m` on, consecutive records made of
`modlen + 1` bytes (a name and its `'.'`) followed by the C strings `vs`. -/
def MatchedRun (mm : List Nat) (modlen : Nat) : Nat → List (List Nat) → Prop
  | _, [] => True
  | m, v :: vs =>
    0 ∉ v ∧ (∃ t, mm.drop (m + modlen + 1) = v ++ 0 :: t) ∧
      MatchedRun mm modlen (m + (modlen + 1 + (v.length + 1))) vs

/-- Byte offset, in the allocated block, of the string region: the bytes after the
pointer slots. -/
def modinfo_block.strings_start (blk : modinfo_block) : Nat := sizeof_ptr * blk.table.length

/-- A context whose directory name has 4071 characters, so that the path of the
file with its NUL takes exactly `PATH_MAX` bytes. -/
def long_dir_ctx : kmod_ctx :=
  { dirname := List.replicate 4071 97, file_open := fun _ => .ok [], malloc_ok := fun _ => true }

/-- The shape of the iterator states met on the NUL-terminated buffer `encode recs`:
`pos` and `next` are the boundaries around a run `G` of records that all have a
`'.'`, after the records `A` and before the records `C`. -/
def Pending (recs : List (List Nat)) (it : kmod_builtin_iter) : Prop :=
  it.file = encode recs ∧
  ∃ A G C, recs = A ++ G ++ C ∧ it.pos = (encode A).length ∧
    it.next = (encode (A ++ G)).length ∧ ∀ r ∈ G, 46 ∈ r

/-! ## Example data -/

/-- The records `foo.license=GPL`, `foo.author=X`, `bar.license=MIT`. -/
def example_records : List (List Nat) :=
  [[102, 111, 111, 46, 108, 105, 99, 101, 110, 115, 101, 61, 71, 80, 76],
   [102, 111, 111, 46, 97, 117, 116, 104, 111, 114, 61, 88],
   [98, 97, 114, 46, 108, 105, 99, 101, 110, 115, 101, 61, 77, 73, 84]]

/-- A context whose directory is `/lib` and whose file has the given contents. -/
def example_ctx (mm : List Nat) : kmod_ctx :=
  { dirname := [47, 108, 105, 98], file_open := fun _ => .ok mm, malloc_ok := fun _ => true }

/-! ## Basic facts -/

@[simp] theorem Outcome.bind_ok {α β : Type} (a : α) (f : α → Outcome β) :
    (Outcome.ok a).bind f = f a := rfl

@[simp] theorem Outcome.bind_fault {α β : Type} (f : α → Outcome β) :
    (Outcome.fault : Outcome α).bind f = .fault := rfl

@[simp] theorem Outcome.bind_nofuel {α β : Type} (f : α → Outcome β) :
    (Outcome.nofuel : Outcome α).bind f = .nofuel := rfl

theorem strlen_record (r t : List Nat) (h : 0 ∉ r) : strlen (r ++ 0 :: t) = .ok r.length := by
  induction r with
  | nil => simp [strlen]
  | cons b r ih =>
    have hb : b ≠ 0 := fun e => h (by simp [e])
    have hr : 0 ∉ r := fun e => h (by simp [e])
    simp [strlen, hb, ih hr]

theorem strchr_record (r t : List Nat) (h : 0 ∉ r) :
    strchr (r ++ 0 :: t) 46 =
      .ok (if 46 ∈ r then some (prefixOf r).length else none) := by
  induction r with
  | nil => simp [strchr]
  | cons b r ih =>
    have hb : b ≠ 0 := fun e => h (by simp [e])
    have hr : 0 ∉ r := fun e => h (by simp [e])
    by_cases hd : b = 46
    · simp [strchr, hd, prefixOf]
    · have hd2 : ¬ (46 = b) := fun e => hd e.symm
      by_cases hm : 46 ∈ r
      · simp [strchr, hd, hd2, hb, ih hr, hm, prefixOf]
      · simp [strchr, hd, hd2, hb, ih hr, hm, prefixOf]

theorem strncmp_prefix (p q x y : List Nat) (hlen : p.length = q.length) (hp : 0 ∉ p) :
    ∃ c, strncmp (p ++ x) (q ++ y) p.length = .ok c ∧ (c = 0 ↔ p = q) := by
  induction p generalizing q with
  | nil =>
    cases q with
    | nil => exact ⟨0, by simp [strncmp]⟩
    | cons b q => simp at hlen
  | cons a p ih =>
    cases q with
    | nil => simp at hlen
    | cons b q =>
      have ha : a ≠ 0 := fun e => hp (by simp [e])
      have hp2 : 0 ∉ p := fun e => hp (by simp [e])
      have hlen2 : p.length = q.length := by simpa using hlen
      by_cases hab : a = b
      · obtain ⟨c, hc, hiff⟩ := ih q hlen2 hp2
        refine ⟨c, ?_, ?_⟩
        · simp [strncmp, hab, hc.symm]
          intro hb; exact absurd (hab.trans hb) ha
        · simp [hab, hiff]
      · refine ⟨(a : Int) - (b : Int), ?_, ?_⟩
        · simp [strncmp, hab]
        · simp [hab]; omega

/-! ## Records and their encoding -/

theorem encode_append (A B : List (List Nat)) : encode (A ++ B) = encode A ++ encode B := by
  induction A with
  | nil => rfl
  | cons r A ih => simp [encode, ih]

theorem length_le_encode (B : List (List Nat)) : B.length ≤ (encode B).length := by
  induction B with
  | nil => simp [encode]
  | cons r B ih => simp [encode]; omega

theorem drop_encode_cons {mm : List Nat} {off : Nat} {r : List Nat} {B : List (List Nat)}
    (h : mm.drop off = encode (r :: B)) : mm.drop (off + (r.length + 1)) = encode B := by
  have h2 : mm.drop (off + (r.length + 1)) = (mm.drop off).drop (r.length + 1) := by
    rw [List.drop_drop]
  rw [h2, h]
  have h3 : encode (r :: B) = (r ++ [0]) ++ encode B := by simp [encode]
  rw [h3]
  have h4 : r.length + 1 = (r ++ [0]).length := by simp
  rw [h4, List.drop_left]

theorem drop_record {mm : List Nat} {off : Nat} {r t : List Nat}
    (h : mm.drop off = r ++ 0 :: t) : mm.drop (off + (r.length + 1)) = t := by
  have h2 : mm.drop (off + (r.length + 1)) = (mm.drop off).drop (r.length + 1) := by
    rw [List.drop_drop]
  rw [h2, h]
  have h3 : r ++ 0 :: t = (r ++ [0]) ++ t := by simp
  rw [h3]
  have h4 : r.length + 1 = (r ++ [0]).length := by simp
  rw [h4, List.drop_left]

theorem lt_length_of_drop_cons {mm : List Nat} {off : Nat} {r : List Nat} {B : List (List Nat)}
    (h : mm.drop off = encode (r :: B)) : off < mm.length := by
  by_contra hc
  have : mm.drop off = [] := List.drop_eq_nil_of_le (by omega)
  rw [this] at h
  simp [encode] at h

theorem length_of_drop_encode {mm : List Nat} {off : Nat} {B : List (List Nat)}
    (hoff : off ≤ mm.length) (h : mm.drop off = encode B) :
    off + (encode B).length = mm.length := by
  have := congrArg List.length h
  simp at this
  omega

theorem record_split (r : List Nat) (h : 46 ∈ r) : r = prefixOf r ++ 46 :: valueOf r := by
  induction r with
  | nil => simp at h
  | cons b r ih =>
    by_cases hb : b = 46
    · simp [prefixOf, valueOf, hb]
    · have hm : 46 ∈ r := by
        rcases List.mem_cons.mp h with e | e
        · exact absurd e.symm hb
        · exact e
      have h1 : prefixOf (b :: r) = b :: prefixOf r := by simp [prefixOf, hb]
      have h2 : valueOf (b :: r) = valueOf r := by simp [valueOf, hb]
      rw [h1, h2, List.cons_append, ← ih hm]

theorem prefixOf_nulfree (r : List Nat) (h : 0 ∉ r) : 0 ∉ prefixOf r := fun hc =>
  h ((List.takeWhile_sublist _).subset hc)

theorem valueOf_nulfree (r : List Nat) (h : 0 ∉ r) : 0 ∉ valueOf r := fun hc =>
  h ((List.dropWhile_sublist _).subset (List.mem_of_mem_drop hc))

theorem prefixOf_nodot (r : List Nat) : 46 ∉ prefixOf r := by
  intro hc
  have := List.mem_takeWhile_imp hc
  simp at this

theorem NulFree.head {r : List Nat} {B : List (List Nat)} (h : NulFree (r :: B)) : 0 ∉ r :=
  h r (by simp)

theorem NulFree.tail {r : List Nat} {B : List (List Nat)} (h : NulFree (r :: B)) : NulFree B :=
  fun x hx => h x (by simp [hx])

theorem WellFormed.nulFree {B : List (List Nat)} (h : WellFormed B) : NulFree B :=
  fun x hx => (h x hx).1

/-! ## The loop of kmod_builtin_iter_next on a NUL-terminated buffer -/

theorem iter_next_loop_group (mm p0 x : List Nat) (m : Nat) (hm : mm.drop m = p0 ++ x)
    (hp0 : 0 ∉ p0) :
    ∀ (B : List (List Nat)) (fuel offset : Nat), NulFree B → mm.drop offset = encode B →
      B.length < fuel →
      iter_next_loop mm fuel offset (some m) p0.length =
        if blocked (B.dropWhile (inGroup p0)) then .ok none
        else .ok (some (offset + (encode (B.takeWhile (inGroup p0))).length, some m)) := by
  intro B
  induction B with
  | nil =>
    intro fuel offset _ hd hf
    cases fuel with
    | zero => omega
    | succ f =>
      have hge : ¬ offset < mm.length := by
        have := List.drop_eq_nil_iff.mp (by simpa [encode] using hd)
        omega
      simp [iter_next_loop, hge, blocked, encode]
  | cons r B ih =>
    intro fuel offset hnf hd hf
    cases fuel with
    | zero => omega
    | succ f =>
      have hlt : offset < mm.length := lt_length_of_drop_cons hd
      have hr0 : 0 ∉ r := hnf.head
      have hd2 : mm.drop offset = r ++ 0 :: encode B := by simpa [encode] using hd
      have hnext := ih f (offset + (r.length + 1)) hnf.tail (drop_encode_cons hd)
        (by simpa using hf)
      unfold iter_next_loop
      simp only [hlt, if_true]
      rw [hd2, strchr_record r _ hr0, ← hd2]
      by_cases hdot : 46 ∈ r
      · simp only [hdot, if_true, Outcome.bind_ok]
        by_cases hlen : p0.length = (prefixOf r).length
        · have hsplit : mm.drop offset = prefixOf r ++ (46 :: valueOf r ++ 0 :: encode B) := by
            rw [hd2]; conv_lhs => rw [record_split r hdot]
            simp
          obtain ⟨c, hc, hiff⟩ := strncmp_prefix p0 (prefixOf r) x
            (46 :: valueOf r ++ 0 :: encode B) hlen hp0
          rw [← hlen]
          simp only [ne_eq, not_true_eq_false, if_false]
          rw [hm, hsplit, hc, ← hsplit]
          simp only [Outcome.bind_ok]
          by_cases hc0 : c = 0
          · have hpq : prefixOf r = p0 := (hiff.mp hc0).symm
            have hin : inGroup p0 r = true := by simp [inGroup, hdot, hpq]
            simp only [hc0, ne_eq, not_true_eq_false, if_false]
            rw [hd2, strlen_record r _ hr0]
            simp only [Outcome.bind_ok]
            rw [hnext]
            simp only [List.dropWhile_cons, List.takeWhile_cons, hin, encode, if_true,
              List.length_append, List.length_cons]
            have e : offset + (r.length + 1) +
                (encode (List.takeWhile (inGroup p0) B)).length =
                offset + (r.length + ((encode (List.takeWhile (inGroup p0) B)).length + 1)) := by
              omega
            rw [e]
          · have hpq : ¬ prefixOf r = p0 := fun e => hc0 (hiff.mpr e.symm)
            have hin : inGroup p0 r = false := by simp [inGroup, hpq]
            simp [hc0, List.dropWhile_cons, List.takeWhile_cons, hin, blocked, hdot, encode]
        · have hpq : ¬ prefixOf r = p0 := fun e => hlen (by rw [e])
          have hin : inGroup p0 r = false := by simp [inGroup, hpq]
          simp [hlen, List.dropWhile_cons, List.takeWhile_cons, hin, blocked, hdot, encode]
      · have hin : inGroup p0 r = false := by simp [inGroup, hdot]
        simp [hdot, List.dropWhile_cons, hin, blocked]

theorem iter_next_spec (iter : kmod_builtin_iter) (B : List (List Nat)) (hnf : NulFree B)
    (hd : iter.file.drop iter.next = encode B) :
    kmod_builtin_iter_next iter =
      if B.isEmpty || blocked (afterGroup B) then .ok (false, iter)
      else .ok (true, { iter with next := iter.next + (encode (headGroup B)).length }) := by
  cases B with
  | nil =>
    have hge : ¬ iter.next < iter.file.length := by
      have := List.drop_eq_nil_iff.mp (by simpa [encode] using hd)
      omega
    simp [kmod_builtin_iter_next, iter_next_loop, hge]
  | cons r B =>
    have hlt : iter.next < iter.file.length := lt_length_of_drop_cons hd
    have hr0 : 0 ∉ r := hnf.head
    have hd2 : iter.file.drop iter.next = r ++ 0 :: encode B := by simpa [encode] using hd
    have hfuel : B.length < iter.file.length := by
      have h1 := length_of_drop_encode (Nat.le_of_lt hlt) hd
      have h2 := length_le_encode B
      simp [encode] at h1
      omega
    unfold kmod_builtin_iter_next iter_next_loop
    simp only [hlt, if_true]
    rw [hd2, strchr_record r _ hr0, ← hd2]
    by_cases hdot : 46 ∈ r
    · have hsplit : iter.file.drop iter.next =
          prefixOf r ++ (46 :: valueOf r ++ 0 :: encode B) := by
        rw [hd2]; conv_lhs => rw [record_split r hdot]
        simp
      have hloop := iter_next_loop_group iter.file (prefixOf r) _ iter.next hsplit
        (prefixOf_nulfree r hr0) B iter.file.length (iter.next + (r.length + 1)) hnf.tail
        (drop_encode_cons hd) hfuel
      have hin : inGroup (prefixOf r) r = true := by simp [inGroup, hdot]
      simp only [hdot, if_true, Outcome.bind_ok]
      rw [hd2, strlen_record r _ hr0]
      simp only [Outcome.bind_ok]
      rw [hloop]
      simp only [afterGroup, headGroup, List.dropWhile_cons, List.takeWhile_cons, hin, if_true,
        List.isEmpty_cons, Bool.false_or, encode, List.length_append, List.length_cons]
      by_cases hb : blocked (List.dropWhile (inGroup (prefixOf r)) B) = true
      · simp [hb]
      · simp only [hb, if_false, Outcome.bind_ok]
        have e : iter.next + (r.length + 1) +
            (encode (List.takeWhile (inGroup (prefixOf r)) B)).length =
            iter.next +
              (r.length + ((encode (List.takeWhile (inGroup (prefixOf r)) B)).length + 1)) := by
          omega
        rw [e]
        simp
    · have hin : inGroup (prefixOf r) r = false := by simp [inGroup, hdot]
      simp [hdot, afterGroup, List.dropWhile_cons, hin, blocked]

/-! ## The loop of kmod_builtin_iter_get_strings on a range of records -/

theorem get_strings_loop_group (mm p0 x : List Nat) (st : Nat) (hm : mm.drop st = p0 ++ x)
    (hp0 : 0 ∉ p0) :
    ∀ (B : List (List Nat)) (t : List Nat) (fuel pos count next : Nat), NulFree B →
      mm.drop pos = encode B ++ t → next = pos + (encode B).length → B.length < fuel →
      get_strings_loop mm next fuel pos (some st) count p0.length =
        if blocked (B.dropWhile (inGroup p0)) then .ok none
        else .ok (some (some st, count + (B.takeWhile (inGroup p0)).length)) := by
  intro B
  induction B with
  | nil =>
    intro t fuel pos count next _ _ hn hf
    cases fuel with
    | zero => omega
    | succ f =>
      have hge : ¬ pos < next := by simp [encode] at hn; omega
      simp [get_strings_loop, hge, blocked]
  | cons r B ih =>
    intro t fuel pos count next hnf hd hn hf
    cases fuel with
    | zero => omega
    | succ f =>
      have hlt : pos < next := by simp [encode] at hn; omega
      have hr0 : 0 ∉ r := hnf.head
      have hd2 : mm.drop pos = r ++ 0 :: (encode B ++ t) := by simpa [encode] using hd
      have hnext := ih t f (pos + (r.length + 1)) (count + 1) next hnf.tail (drop_record hd2)
        (by simp [encode] at hn; omega) (by simpa using hf)
      unfold get_strings_loop
      simp only [hlt, if_true]
      rw [hd2, strchr_record r _ hr0, ← hd2]
      by_cases hdot : 46 ∈ r
      · simp only [hdot, if_true, Outcome.bind_ok]
        by_cases hlen : p0.length = (prefixOf r).length
        · have hsplit : mm.drop pos =
              prefixOf r ++ (46 :: valueOf r ++ 0 :: (encode B ++ t)) := by
            rw [hd2]; conv_lhs => rw [record_split r hdot]
            simp
          obtain ⟨c, hc, hiff⟩ := strncmp_prefix p0 (prefixOf r) x
            (46 :: valueOf r ++ 0 :: (encode B ++ t)) hlen hp0
          rw [← hlen]
          simp only [ne_eq, not_true_eq_false, if_false]
          rw [hm, hsplit, hc, ← hsplit]
          simp only [Outcome.bind_ok]
          by_cases hc0 : c = 0
          · have hpq : prefixOf r = p0 := (hiff.mp hc0).symm
            have hin : inGroup p0 r = true := by simp [inGroup, hdot, hpq]
            simp only [hc0, ne_eq, not_true_eq_false, if_false]
            rw [hd2, strlen_record r _ hr0]
            simp only [Outcome.bind_ok]
            rw [hnext]
            simp only [List.dropWhile_cons, List.takeWhile_cons, hin, if_true, List.length_cons]
            have e : count + 1 + (List.takeWhile (inGroup p0) B).length =
                count + ((List.takeWhile (inGroup p0) B).length + 1) := by omega
            rw [e]
          · have hpq : ¬ prefixOf r = p0 := fun e => hc0 (hiff.mpr e.symm)
            have hin : inGroup p0 r = false := by simp [inGroup, hpq]
            simp [hc0, List.dropWhile_cons, List.takeWhile_cons, hin, blocked, hdot]
        · have hpq : ¬ prefixOf r = p0 := fun e => hlen (by rw [e])
          have hin : inGroup p0 r = false := by simp [inGroup, hpq]
          simp [hlen, List.dropWhile_cons, List.takeWhile_cons, hin, blocked, hdot]
      · have hin : inGroup p0 r = false := by simp [inGroup, hdot]
        simp [hdot, List.dropWhile_cons, hin, blocked]

theorem get_strings_spec (iter : kmod_builtin_iter) (strings : Option Nat)
    (B : List (List Nat)) (t : List Nat) (hnf : NulFree B)
    (hd : iter.file.drop iter.pos = encode B ++ t)
    (hn : iter.next = iter.pos + (encode B).length) :
    kmod_builtin_iter_get_strings iter strings =
      if blocked (afterGroup B) then .ok (-1, strings, iter)
      else .ok (((headGroup B).length : Int), (if B.isEmpty then none else some iter.pos),
        { iter with pos := iter.next }) := by
  cases B with
  | nil =>
    have hge : ¬ iter.pos < iter.next := by simp [encode] at hn; omega
    simp [kmod_builtin_iter_get_strings, get_strings_loop, hge, afterGroup, headGroup, blocked]
  | cons r B =>
    have hlt : iter.pos < iter.next := by simp [encode] at hn; omega
    have hr0 : 0 ∉ r := hnf.head
    have hd2 : iter.file.drop iter.pos = r ++ 0 :: (encode B ++ t) := by
      simpa [encode] using hd
    have hfuel : B.length < iter.next := by
      have h2 := length_le_encode B
      simp [encode] at hn
      omega
    unfold kmod_builtin_iter_get_strings get_strings_loop
    simp only [hlt, if_true]
    rw [hd2, strchr_record r _ hr0, ← hd2]
    by_cases hdot : 46 ∈ r
    · have hsplit : iter.file.drop iter.pos =
          prefixOf r ++ (46 :: valueOf r ++ 0 :: (encode B ++ t)) := by
        rw [hd2]; conv_lhs => rw [record_split r hdot]
        simp
      have hloop := get_strings_loop_group iter.file (prefixOf r) _ iter.pos hsplit
        (prefixOf_nulfree r hr0) B t iter.next (iter.pos + (r.length + 1)) (0 + 1) iter.next
        hnf.tail (drop_record hd2) (by simp [encode] at hn; omega) hfuel
      have hin : inGroup (prefixOf r) r = true := by simp [inGroup, hdot]
      simp only [hdot, if_true, Outcome.bind_ok]
      rw [hd2, strlen_record r _ hr0]
      simp only [Outcome.bind_ok]
      rw [hloop]
      simp only [afterGroup, headGroup, List.dropWhile_cons, List.takeWhile_cons, hin, if_true,
        List.isEmpty_cons, List.length_cons]
      by_cases hb : blocked (List.dropWhile (inGroup (prefixOf r)) B) = true
      · simp [hb]
      · simp only [hb, if_false, Outcome.bind_ok]
        simp
        omega
    · have hin : inGroup (prefixOf r) r = false := by simp [inGroup, hdot]
      simp [hdot, afterGroup, List.dropWhile_cons, hin, blocked]

/-! ## Groups of records -/

theorem headGroup_append_afterGroup (B : List (List Nat)) : headGroup B ++ afterGroup B = B := by
  cases B with
  | nil => rfl
  | cons r rs => simp only [headGroup, afterGroup, List.takeWhile_append_dropWhile]

theorem takeWhile_idem {α : Type} (p : α → Bool) (l : List α) :
    (l.takeWhile p).takeWhile p = l.takeWhile p ∧ (l.takeWhile p).dropWhile p = [] := by
  induction l with
  | nil => simp
  | cons a l ih =>
    by_cases h : p a = true
    · simp [List.takeWhile_cons, List.dropWhile_cons, h, ih.1, ih.2]
    · simp [List.takeWhile_cons, h]

theorem headGroup_headGroup (B : List (List Nat)) :
    headGroup (headGroup B) = headGroup B ∧ afterGroup (headGroup B) = [] := by
  cases B with
  | nil => simp [headGroup, afterGroup]
  | cons r rs =>
    by_cases h : inGroup (prefixOf r) r = true
    · have e : headGroup (r :: rs) = r :: rs.takeWhile (inGroup (prefixOf r)) := by
        simp [headGroup, List.takeWhile_cons, h]
      rw [e]
      simp only [headGroup, afterGroup, List.takeWhile_cons, List.dropWhile_cons, h, if_true,
        (takeWhile_idem (inGroup (prefixOf r)) rs).1, (takeWhile_idem (inGroup (prefixOf r)) rs).2,
        and_self]
    · have e : headGroup (r :: rs) = [] := by simp [headGroup, List.takeWhile_cons, h]
      rw [e]; simp [headGroup, afterGroup]

theorem inGroup_eq_of_unblocked (p : List Nat) (B : List (List Nat))
    (h : blocked (B.dropWhile (inGroup p)) = false) :
    B.takeWhile (inGroup p) = B.takeWhile (fun r => decide (prefixOf r = p)) ∧
    B.dropWhile (inGroup p) = B.dropWhile (fun r => decide (prefixOf r = p)) := by
  induction B with
  | nil => simp
  | cons r B ih =>
    by_cases hin : inGroup p r = true
    · have hp : prefixOf r = p := by
        simp [inGroup] at hin; exact hin.2
      simp only [List.dropWhile_cons, hin, if_true] at h
      simp [List.takeWhile_cons, List.dropWhile_cons, hin, hp, ih h]
    · simp only [List.dropWhile_cons, hin] at h
      have hdot : 46 ∈ r := by simpa [blocked] using h
      have hp : ¬ prefixOf r = p := by
        intro e; apply hin; simp [inGroup, hdot, e]
      simp [List.takeWhile_cons, List.dropWhile_cons, hin, hp]

theorem headGroup_of_dot {r : List Nat} (rs : List (List Nat)) (h : 46 ∈ r) :
    headGroup (r :: rs) = r :: rs.takeWhile (inGroup (prefixOf r)) ∧
    afterGroup (r :: rs) = rs.dropWhile (inGroup (prefixOf r)) := by
  have hin : inGroup (prefixOf r) r = true := by simp [inGroup, h]
  simp [headGroup, afterGroup, List.takeWhile_cons, List.dropWhile_cons, hin]

theorem afterGroup_of_nodot {r : List Nat} (rs : List (List Nat)) (h : 46 ∉ r) :
    headGroup (r :: rs) = [] ∧ afterGroup (r :: rs) = r :: rs := by
  have hin : inGroup (prefixOf r) r = false := by simp [inGroup, h]
  simp [headGroup, afterGroup, List.takeWhile_cons, List.dropWhile_cons, hin]

theorem blocked_iff_scanned (B : List (List Nat)) :
    blocked (afterGroup B) = true ↔ ∃ r ∈ scannedByNext B, 46 ∉ r := by
  cases B with
  | nil => simp [afterGroup, blocked, scannedByNext]
  | cons r0 rs =>
    by_cases hdot : 46 ∈ r0
    · constructor
      · intro hb
        have hsplit := headGroup_append_afterGroup (r0 :: rs)
        cases hR : afterGroup (r0 :: rs) with
        | nil => rw [hR] at hb; simp [blocked] at hb
        | cons r R2 =>
          rw [hR] at hb hsplit
          have hr : 46 ∉ r := by simpa [blocked] using hb
          have hall : ∀ a ∈ headGroup (r0 :: rs),
              (fun x => decide (prefixOf x = prefixOf r0)) a = true := by
            intro a ha
            have := List.mem_takeWhile_imp (by simpa [headGroup] using ha)
            simp [inGroup] at this
            simp [this.2]
          refine ⟨r, ?_, hr⟩
          simp only [scannedByNext]
          rw [← hsplit, List.takeWhile_append_of_pos hall, List.dropWhile_append_of_pos hall]
          by_cases hp : prefixOf r = prefixOf r0
          · simp [List.takeWhile_cons, hp]
          · simp [List.takeWhile_cons, List.dropWhile_cons, hp]
      · rintro ⟨r, hmem, hr⟩
        by_contra hb
        have hb2 : blocked ((r0 :: rs).dropWhile (inGroup (prefixOf r0))) = false := by
          simpa [afterGroup] using hb
        obtain ⟨e1, e2⟩ := inGroup_eq_of_unblocked (prefixOf r0) (r0 :: rs) hb2
        simp only [scannedByNext, ← e1, ← e2] at hmem
        rcases List.mem_append.mp hmem with hm | hm
        · have := List.mem_takeWhile_imp hm
          simp [inGroup] at this
          exact hr this.1
        · cases hR : (r0 :: rs).dropWhile (inGroup (prefixOf r0)) with
          | nil => rw [hR] at hm; simp at hm
          | cons x R2 =>
            rw [hR] at hm hb2
            have hx : r = x := by simpa using hm
            have : 46 ∈ x := by simpa [blocked] using hb2
            exact hr (hx ▸ this)
    · constructor
      · intro _
        exact ⟨r0, by simp [scannedByNext], hdot⟩
      · intro _
        rw [(afterGroup_of_nodot rs hdot).2]
        simp [blocked, hdot]

theorem drop_encode_append (A B : List (List Nat)) :
    (encode (A ++ B)).drop (encode A).length = encode B := by
  rw [encode_append, List.drop_left]

theorem NulFree.headGroup {B : List (List Nat)} (h : NulFree B) : NulFree (headGroup B) := by
  intro x hx
  apply h x
  rw [← headGroup_append_afterGroup B]
  exact List.mem_append_left _ hx

theorem NulFree.afterGroup {B : List (List Nat)} (h : NulFree B) : NulFree (afterGroup B) := by
  intro x hx
  apply h x
  rw [← headGroup_append_afterGroup B]
  exact List.mem_append_right _ hx

theorem iter_next_true_inv (iter : kmod_builtin_iter) {it' : kmod_builtin_iter}
    {B : List (List Nat)}
    (hnf : NulFree B) (hd : iter.file.drop iter.next = encode B)
    (h : kmod_builtin_iter_next iter = .ok (true, it')) :
    (∃ r0 rs, B = r0 :: rs ∧ 46 ∈ r0) ∧ blocked (afterGroup B) = false ∧
      it' = { iter with next := iter.next + (encode (headGroup B)).length } := by
  rw [iter_next_spec iter B hnf hd] at h
  by_cases hc : (B.isEmpty || blocked (afterGroup B)) = true
  · simp [hc] at h
  · simp only [hc, if_false] at h
    have hit : it' = { iter with next := iter.next + (encode (headGroup B)).length } := by
      injection h with h1; injection h1 with _ h2; exact h2.symm
    simp only [Bool.or_eq_true, not_or, Bool.not_eq_true] at hc
    refine ⟨?_, hc.2, hit⟩
    cases B with
    | nil => simp at hc
    | cons r0 rs =>
      refine ⟨r0, rs, rfl, ?_⟩
      by_contra hdot
      have := hc.2
      rw [(afterGroup_of_nodot rs hdot).2] at this
      simp [blocked, hdot] at this

/-! ## Claims about kmod_builtin_iter_next and kmod_builtin_iter_get_strings -/

/-- C7: on a NUL-terminated buffer `encode (A ++ B)` with `next` at the record
boundary between `A` and `B`, a call of `kmod_builtin_iter_next` that returns true
leaves `pos` unchanged and moves `next` to the start of the first record of `B` whose
prefix differs from the prefix of the first record of `B`: that record is the first
one of the bytes from the new `next` on, and when there is no such record the new
`next` is the buffer size. -/
theorem iter_next_true_stops_at_prefix_change (A B : List (List Nat)) (pos : Nat)
    (it' : kmod_builtin_iter) (hB : NulFree B)
    (h : kmod_builtin_iter_next ⟨encode (A ++ B), pos, (encode A).length⟩ = .ok (true, it')) :
    ∃ r0 rs, B = r0 :: rs ∧ it'.file = encode (A ++ B) ∧ it'.pos = pos ∧
      it'.next = (encode A).length +
        (encode (B.takeWhile (fun r => decide (prefixOf r = prefixOf r0)))).length ∧
      it'.file.drop it'.next =
        encode (B.dropWhile (fun r => decide (prefixOf r = prefixOf r0))) ∧
      (B.dropWhile (fun r => decide (prefixOf r = prefixOf r0)) = [] →
        it'.next = (encode (A ++ B)).length) := by
  obtain ⟨⟨r0, rs, hBe, hdot⟩, hnb, hit⟩ :=
    iter_next_true_inv ⟨encode (A ++ B), pos, (encode A).length⟩ hB
      (drop_encode_append A B) h
  subst hBe
  have hnb2 : blocked ((r0 :: rs).dropWhile (inGroup (prefixOf r0))) = false := by
    simpa [afterGroup] using hnb
  obtain ⟨e1, e2⟩ := inGroup_eq_of_unblocked (prefixOf r0) (r0 :: rs) hnb2
  have hhg : headGroup (r0 :: rs) =
      (r0 :: rs).takeWhile (fun r => decide (prefixOf r = prefixOf r0)) := by
    rw [← e1]; rfl
  have hsplit : encode (A ++ r0 :: rs) =
      encode A ++ (encode ((r0 :: rs).takeWhile (fun r => decide (prefixOf r = prefixOf r0))) ++
        encode ((r0 :: rs).dropWhile (fun r => decide (prefixOf r = prefixOf r0)))) := by
    rw [← encode_append, ← encode_append, List.takeWhile_append_dropWhile]
  refine ⟨r0, rs, rfl, ?_, ?_, ?_, ?_, ?_⟩
  · rw [hit]
  · rw [hit]
  · rw [hit, hhg]
  · rw [hit, hhg]
    show List.drop _ (encode (A ++ r0 :: rs)) = _
    rw [hsplit, ← List.append_assoc]
    have hl : (encode A).length +
        (encode ((r0 :: rs).takeWhile (fun r => decide (prefixOf r = prefixOf r0)))).length =
        (encode A ++
          encode ((r0 :: rs).takeWhile (fun r => decide (prefixOf r = prefixOf r0)))).length := by
      simp
    rw [hl, List.drop_left]
  · intro hnil
    rw [hit, hhg]
    show _ = (encode (A ++ r0 :: rs)).length
    rw [hsplit, hnil]
    simp [encode]

set_option maxRecDepth 100000 in
/-- Witness of C7 on the example file: from `next = 0` the call returns true with
`next = 29`, the start of the record `bar.license=MIT`. -/
theorem iter_next_true_stops_at_prefix_change_witness :
    ∃ r0 rs, example_records = r0 :: rs ∧
      (⟨encode example_records, 0, 29⟩ : kmod_builtin_iter).file =
        encode ([] ++ example_records) ∧
      (⟨encode example_records, 0, 29⟩ : kmod_builtin_iter).pos = 0 ∧
      (⟨encode example_records, 0, 29⟩ : kmod_builtin_iter).next = (encode []).length +
        (encode (example_records.takeWhile
          (fun r => decide (prefixOf r = prefixOf r0)))).length ∧
      (⟨encode example_records, 0, 29⟩ : kmod_builtin_iter).file.drop
          (⟨encode example_records, 0, 29⟩ : kmod_builtin_iter).next =
        encode (example_records.dropWhile (fun r => decide (prefixOf r = prefixOf r0))) ∧
      (example_records.dropWhile (fun r => decide (prefixOf r = prefixOf r0)) = [] →
        (⟨encode example_records, 0, 29⟩ : kmod_builtin_iter).next =
          (encode ([] ++ example_records)).length) :=
  iter_next_true_stops_at_prefix_change [] example_records 0 ⟨encode example_records, 0, 29⟩
    (by decide) (by decide)

/-- C8: on a NUL-terminated buffer `encode (A ++ B)` with `next` at the record
boundary between `A` and `B`, `kmod_builtin_iter_next` returns, and it returns false
exactly when `next` is not below the buffer size or one of the records it scans (the
group that starts at `next` and the single record after it) has no `'.'`; when it
returns false the iterator is left unchanged. -/
theorem iter_next_false_iff (A B : List (List Nat)) (pos : Nat) (hB : NulFree B) :
    ∃ b it', kmod_builtin_iter_next ⟨encode (A ++ B), pos, (encode A).length⟩ = .ok (b, it') ∧
      (b = false ↔
        ((encode (A ++ B)).length ≤ (encode A).length ∨ ∃ r ∈ scannedByNext B, 46 ∉ r)) ∧
      (b = false → it' = ⟨encode (A ++ B), pos, (encode A).length⟩) := by
  have hspec := iter_next_spec ⟨encode (A ++ B), pos, (encode A).length⟩ B hB
    (drop_encode_append A B)
  have hsize : (encode (A ++ B)).length ≤ (encode A).length ↔ B = [] := by
    rw [encode_append, List.length_append]
    cases B with
    | nil => simp [encode]
    | cons r rs => simp [encode]
  by_cases hc : (B.isEmpty || blocked (afterGroup B)) = true
  · rw [if_pos hc] at hspec
    refine ⟨false, _, hspec, ?_, fun _ => rfl⟩
    simp only [true_iff]
    rcases Bool.or_eq_true _ _ ▸ hc with h1 | h2
    · left; exact hsize.mpr (by simpa using h1)
    · right; exact (blocked_iff_scanned B).mp h2
  · rw [if_neg hc] at hspec
    refine ⟨true, _, hspec, ?_, fun h => by simp at h⟩
    simp only [Bool.or_eq_true, not_or, Bool.not_eq_true] at hc
    constructor
    · intro h; simp at h
    · rintro (h1 | h2)
      · have := hsize.mp h1
        rw [this] at hc; simp at hc
      · have := (blocked_iff_scanned B).mpr h2
        rw [this] at hc; simp at hc

set_option maxRecDepth 100000 in
/-- Witness of C8: in the file `a.b`, `xyz` the group `a` is followed by a record
without `'.'`, and the call from offset 0 returns false with the iterator unchanged. -/
theorem iter_next_false_iff_witness :
    NulFree [[97, 46, 98], [120, 121, 122]] ∧
    kmod_builtin_iter_next ⟨encode ([] ++ [[97, 46, 98], [120, 121, 122]]), 0, (encode []).length⟩ =
      .ok (false, ⟨encode ([] ++ [[97, 46, 98], [120, 121, 122]]), 0, (encode []).length⟩) ∧
    ∃ b it', kmod_builtin_iter_next
        ⟨encode ([] ++ [[97, 46, 98], [120, 121, 122]]), 0, (encode []).length⟩ = .ok (b, it') ∧
      (b = false ↔
        ((encode ([] ++ [[97, 46, 98], [120, 121, 122]])).length ≤ (encode []).length ∨
          ∃ r ∈ scannedByNext [[97, 46, 98], [120, 121, 122]], 46 ∉ r)) ∧
      (b = false →
        it' = ⟨encode ([] ++ [[97, 46, 98], [120, 121, 122]]), 0, (encode []).length⟩) :=
  ⟨by decide, by decide, iter_next_false_iff [] [[97, 46, 98], [120, 121, 122]] 0 (by decide)⟩

/-- C9: on a NUL-terminated buffer, when `kmod_builtin_iter_next` returns true from a
state with `pos = next = p` at a record boundary, the following
`kmod_builtin_iter_get_strings` returns: it stores the pointer to offset `p`,
returns the number of records that make up the bytes `[p, next)`, which is at least
one, sets `pos` to `next` and leaves `next` unchanged. -/
theorem get_strings_after_next (A B : List (List Nat)) (it' : kmod_builtin_iter)
    (strings : Option Nat) (hB : NulFree B)
    (h : kmod_builtin_iter_next ⟨encode (A ++ B), (encode A).length, (encode A).length⟩ =
      .ok (true, it')) :
    ∃ G, NulFree G ∧ 1 ≤ G.length ∧
      (it'.file.drop (encode A).length).take (it'.next - (encode A).length) = encode G ∧
      kmod_builtin_iter_get_strings it' strings =
        .ok ((G.length : Int), some (encode A).length, { it' with pos := it'.next }) := by
  obtain ⟨⟨r0, rs, hBe, hdot⟩, hnb, hit⟩ :=
    iter_next_true_inv ⟨encode (A ++ B), (encode A).length, (encode A).length⟩ hB
      (drop_encode_append A B) h
  have hdrop : (encode (A ++ B)).drop (encode A).length =
      encode (headGroup B) ++ encode (afterGroup B) := by
    rw [drop_encode_append, ← encode_append, headGroup_append_afterGroup]
  have hne : headGroup B ≠ [] := by
    rw [hBe, (headGroup_of_dot rs hdot).1]; simp
  refine ⟨headGroup B, hB.headGroup, ?_, ?_, ?_⟩
  · cases hg : headGroup B with
    | nil => exact absurd hg hne
    | cons x xs => simp
  · rw [hit]
    show List.take _ (List.drop _ (encode (A ++ B))) = _
    rw [hdrop]
    simp
  · have hspec := get_strings_spec it' strings (headGroup B) (encode (afterGroup B)) hB.headGroup
      (by rw [hit]; exact hdrop) (by rw [hit])
    rw [hspec, (headGroup_headGroup B).1, (headGroup_headGroup B).2]
    have hemp : (headGroup B).isEmpty = false := by
      cases hg : headGroup B with
      | nil => exact absurd hg hne
      | cons x xs => rfl
    simp only [blocked, hemp]
    rw [hit]
    simp

set_option maxRecDepth 100000 in
/-- Witness of C9 on the example file: after the first advance, the extraction
returns the pointer to offset 0 and the count 2. -/
theorem get_strings_after_next_witness :
    ∃ G, NulFree G ∧ 1 ≤ G.length ∧
      ((⟨encode example_records, 0, 29⟩ : kmod_builtin_iter).file.drop (encode []).length).take
        ((⟨encode example_records, 0, 29⟩ : kmod_builtin_iter).next - (encode []).length) =
        encode G ∧
      kmod_builtin_iter_get_strings ⟨encode example_records, 0, 29⟩ none =
        .ok ((G.length : Int), some (encode []).length,
          { (⟨encode example_records, 0, 29⟩ : kmod_builtin_iter) with
            pos := (⟨encode example_records, 0, 29⟩ : kmod_builtin_iter).next }) :=
  get_strings_after_next [] example_records ⟨encode example_records, 0, 29⟩ none
    (by decide) (by decide)

/-! ## The reference grouping -/

theorem refGroups_cons (r : List Nat) (rs : List (List Nat)) :
    refGroups (r :: rs) =
      (r :: rs.takeWhile (samePrefix r)) :: refGroups (rs.dropWhile (samePrefix r)) := by
  induction rs generalizing r with
  | nil => simp [refGroups]
  | cons r2 rs ih =>
    have h2 := ih r2
    show (match refGroups (r2 :: rs) with
      | (r2 :: g) :: gs =>
        if prefixOf r2 = prefixOf r then (r :: r2 :: g) :: gs else [r] :: (r2 :: g) :: gs
      | _ => [[r]]) = _
    rw [h2]
    by_cases hp : prefixOf r2 = prefixOf r
    · have hs : samePrefix r = samePrefix r2 := by
        funext x; simp [samePrefix, hp]
      have hin : samePrefix r2 r2 = true := by simp [samePrefix]
      simp only [hp, if_true, hs, List.takeWhile_cons, List.dropWhile_cons, hin]
    · have hin : samePrefix r r2 = false := by simp [samePrefix, hp]
      simp only [hp, if_false, List.takeWhile_cons, List.dropWhile_cons, hin,
        Bool.false_eq_true]
      rw [h2]

theorem group_induction (P : List (List Nat) → Prop) (h0 : P [])
    (hstep : ∀ r rs, P (rs.dropWhile (samePrefix r)) → P (r :: rs)) : ∀ B, P B := by
  intro B
  generalize hn : B.length = n
  induction n using Nat.strong_induction_on generalizing B with
  | _ n ih =>
    cases B with
    | nil => exact h0
    | cons r rs =>
      apply hstep
      have hle : (rs.dropWhile (samePrefix r)).length ≤ rs.length :=
        (List.dropWhile_sublist _).length_le
      exact ih _ (by simp at hn; omega) _ rfl

theorem unblocked_of_dots (R : List (List Nat)) (h : ∀ r ∈ R, 46 ∈ r) : blocked R = false := by
  cases R with
  | nil => rfl
  | cons r R => simp [blocked, h r (by simp)]

theorem WellFormed.dots {B : List (List Nat)} (h : WellFormed B) : ∀ r ∈ B, 46 ∈ r :=
  fun r hr => (h r hr).2

theorem WellFormed.rest {r : List Nat} {B : List (List Nat)} (h : WellFormed (r :: B)) :
    WellFormed B := fun x hx => h x (by simp [hx])

theorem WellFormed.dropWhile {B : List (List Nat)} (h : WellFormed B)
    (p : List Nat → Bool) : WellFormed (B.dropWhile p) :=
  fun x hx => h x ((List.dropWhile_sublist p).subset hx)

theorem groups_of_wellFormed (r : List Nat) (rs : List (List Nat)) (h : WellFormed (r :: rs)) :
    headGroup (r :: rs) = r :: rs.takeWhile (samePrefix r) ∧
    afterGroup (r :: rs) = rs.dropWhile (samePrefix r) := by
  have hdot : 46 ∈ r := (h r (by simp)).2
  have hb : blocked (rs.dropWhile (inGroup (prefixOf r))) = false :=
    unblocked_of_dots _ ((h.rest.dropWhile _).dots)
  obtain ⟨e1, e2⟩ := inGroup_eq_of_unblocked (prefixOf r) rs hb
  rw [(headGroup_of_dot rs hdot).1, (headGroup_of_dot rs hdot).2, e1, e2]
  exact ⟨rfl, rfl⟩

theorem refGroups_nonempty (B : List (List Nat)) : ∀ g ∈ refGroups B, g ≠ [] := by
  refine group_induction (fun B => ∀ g ∈ refGroups B, g ≠ []) (by simp [refGroups]) ?_ B
  intro r rs ih g hg
  rw [refGroups_cons] at hg
  rcases List.mem_cons.mp hg with e | e
  · rw [e]; simp
  · exact ih g e

theorem refGroups_length_sum (B : List (List Nat)) :
    ((refGroups B).map List.length).sum = B.length := by
  refine group_induction (fun B => ((refGroups B).map List.length).sum = B.length)
    (by simp [refGroups]) ?_ B
  intro r rs ih
  rw [refGroups_cons]
  simp only [List.map_cons, List.sum_cons, List.length_cons, ih]
  have := congrArg List.length (List.takeWhile_append_dropWhile (samePrefix r) rs)
  rw [List.length_append] at this
  omega

theorem refPairs_count_sum (off : Nat) (gs : List (List (List Nat))) :
    ((refPairs off gs).map Prod.snd).sum = (((gs.map List.length).sum : Nat) : Int) := by
  induction gs generalizing off with
  | nil => simp [refPairs]
  | cons g gs ih => simp [refPairs, ih]

/-! ## Enumeration of a well-formed buffer -/

theorem enumerate_loop_wellFormed :
    ∀ (fuel : Nat) (B : List (List Nat)) (mm : List Nat) (p : Nat), WellFormed B →
      mm.drop p = encode B → B.length < fuel →
      enumerate_loop fuel ⟨mm, p, p⟩ =
        .ok (refPairs p (refGroups B),
          ⟨mm, p + (encode B).length, p + (encode B).length⟩) := by
  intro fuel
  induction fuel with
  | zero => intro B mm p _ _ hf; omega
  | succ f ih =>
    intro B mm p hwf hd hf
    have hnext := iter_next_spec ⟨mm, p, p⟩ B hwf.nulFree hd
    cases B with
    | nil =>
      simp only [List.isEmpty_nil, Bool.true_or, if_true] at hnext
      simp [enumerate_loop, hnext, refGroups, refPairs, encode]
    | cons r rs =>
      obtain ⟨hg, ha⟩ := groups_of_wellFormed r rs hwf
      have hwa : WellFormed (rs.dropWhile (samePrefix r)) := hwf.rest.dropWhile _
      have hnb : blocked (afterGroup (r :: rs)) = false := by
        rw [ha]; exact unblocked_of_dots _ hwa.dots
      simp only [List.isEmpty_cons, Bool.false_or, hnb, Bool.false_eq_true, if_false] at hnext
      have hsplit : mm.drop p = encode (headGroup (r :: rs)) ++ encode (afterGroup (r :: rs)) := by
        rw [hd, ← encode_append, headGroup_append_afterGroup]
      have hget := get_strings_spec
        ⟨mm, p, p + (encode (headGroup (r :: rs))).length⟩ none
        (headGroup (r :: rs)) (encode (afterGroup (r :: rs))) hwf.nulFree.headGroup hsplit rfl
      rw [(headGroup_headGroup (r :: rs)).1, (headGroup_headGroup (r :: rs)).2] at hget
      have hemp : (headGroup (r :: rs)).isEmpty = false := by rw [hg]; rfl
      simp only [blocked, Bool.false_eq_true, if_false, hemp] at hget
      have hdrop : mm.drop (p + (encode (headGroup (r :: rs))).length) =
          encode (rs.dropWhile (samePrefix r)) := by
        rw [← ha, ← List.drop_drop, hsplit, List.drop_left]
      have hlen : (rs.dropWhile (samePrefix r)).length < f := by
        have : (rs.dropWhile (samePrefix r)).length ≤ rs.length :=
          (List.dropWhile_sublist _).length_le
        simp at hf; omega
      have hrec := ih (rs.dropWhile (samePrefix r)) mm
        (p + (encode (headGroup (r :: rs))).length) hwa hdrop hlen
      have htot : p + (encode (headGroup (r :: rs))).length +
          (encode (rs.dropWhile (samePrefix r))).length = p + (encode (r :: rs)).length := by
        have := congrArg List.length (congrArg encode (headGroup_append_afterGroup (r :: rs)))
        rw [encode_append, List.length_append, ha] at this
        omega
      unfold enumerate_loop
      rw [hnext]
      simp only [Outcome.bind_ok]
      rw [hget]
      simp only [Outcome.bind_ok]
      rw [hrec, refGroups_cons, htot]
      simp only [Outcome.bind_ok, refPairs]
      rw [← hg]

/-- C1: on a well-formed buffer, repeating `kmod_builtin_iter_next` and
`kmod_builtin_iter_get_strings` from `pos = next = 0` until the former returns
false yields the reference grouping into maximal runs of records with the same
prefix: the k-th extraction gives the start offset and the length of the k-th run,
the counts sum to the number of records, and the enumeration ends with `next` equal
to the buffer size. -/
theorem enumerate_reference_groups (recs : List (List Nat)) (hwf : WellFormed recs) :
    ∃ out fin, enumerate ⟨encode recs, 0, 0⟩ = .ok (out, fin) ∧
      out = refPairs 0 (refGroups recs) ∧
      (out.map Prod.snd).sum = (recs.length : Int) ∧
      fin.next = (encode recs).length := by
  have h := enumerate_loop_wellFormed ((encode recs).length + 1) recs (encode recs) 0 hwf
    (by simp) (by have := length_le_encode recs; omega)
  refine ⟨_, _, h, rfl, ?_, by simp⟩
  rw [refPairs_count_sum, refGroups_length_sum]

set_option maxRecDepth 100000 in
/-- Witness of C1: the example file yields offset 0 with count 2, then offset 29 with
count 1. -/
theorem enumerate_reference_groups_witness :
    WellFormed example_records ∧
    refPairs 0 (refGroups example_records) = [(some 0, 2), (some 29, 1)] ∧
    ∃ out fin, enumerate ⟨encode example_records, 0, 0⟩ = .ok (out, fin) ∧
      out = refPairs 0 (refGroups example_records) ∧
      (out.map Prod.snd).sum = (example_records.length : Int) ∧
      fin.next = (encode example_records).length :=
  ⟨by decide, by decide, enumerate_reference_groups example_records (by decide)⟩

/-! ## Claim C6: a record without a dot and the end of the buffer -/

set_option maxRecDepth 100000 in
/-- C6, counterexample: in the file `a.b`, `xyz` the call from offset 4 reaches the
record `xyz`, which has no `'.'`; it returns false and leaves `pos` and `next` as they
were, which is the return value and the state of the call from offset 4 at the end of
the file `a.b`.  The enumeration of the file `a.b`, `c.d`, `xyz` hands out the group
`a` and stops, as the enumeration of the file `a.b` does. -/
theorem iter_next_malformed_unflagged :
    kmod_builtin_iter_next ⟨encode [[97, 46, 98], [120, 121, 122]], 4, 4⟩ =
      .ok (false, ⟨encode [[97, 46, 98], [120, 121, 122]], 4, 4⟩) ∧
    kmod_builtin_iter_next ⟨encode [[97, 46, 98]], 4, 4⟩ =
      .ok (false, ⟨encode [[97, 46, 98]], 4, 4⟩) ∧
    enumerate ⟨encode [[97, 46, 98], [99, 46, 100], [120, 121, 122]], 0, 0⟩ =
      .ok ([(some 0, 1)], ⟨encode [[97, 46, 98], [99, 46, 100], [120, 121, 122]], 4, 4⟩) ∧
    enumerate ⟨encode [[97, 46, 98]], 0, 0⟩ = .ok ([(some 0, 1)], ⟨encode [[97, 46, 98]], 4, 4⟩) := by
  decide

/-- C6, amended: when one of the records scanned by `kmod_builtin_iter_next` from a
record boundary of a NUL-terminated buffer has no `'.'`, the call returns false and
leaves `pos` and `next` unchanged, as it does at the end of the buffer; the only
difference is that `next` is still below the buffer size. -/
theorem iter_next_malformed_returns_false (A B : List (List Nat)) (pos : Nat) (hB : NulFree B)
    (hbad : ∃ r ∈ scannedByNext B, 46 ∉ r) :
    kmod_builtin_iter_next ⟨encode (A ++ B), pos, (encode A).length⟩ =
      .ok (false, ⟨encode (A ++ B), pos, (encode A).length⟩) ∧
    (encode A).length < (encode (A ++ B)).length := by
  have hspec := iter_next_spec ⟨encode (A ++ B), pos, (encode A).length⟩ B hB
    (drop_encode_append A B)
  have hb := (blocked_iff_scanned B).mpr hbad
  rw [hb] at hspec
  simp only [Bool.or_true, if_true] at hspec
  refine ⟨hspec, ?_⟩
  cases B with
  | nil => simp [scannedByNext] at hbad
  | cons r rs => rw [encode_append]; simp [encode]

/-- Witness of the amended C6 on the file `a.b`, `xyz` at offset 4. -/
theorem iter_next_malformed_returns_false_witness :
    kmod_builtin_iter_next
        ⟨encode ([[97, 46, 98]] ++ [[120, 121, 122]]), 4, (encode [[97, 46, 98]]).length⟩ =
      .ok (false,
        ⟨encode ([[97, 46, 98]] ++ [[120, 121, 122]]), 4, (encode [[97, 46, 98]]).length⟩) ∧
    (encode [[97, 46, 98]]).length < (encode ([[97, 46, 98]] ++ [[120, 121, 122]])).length :=
  iter_next_malformed_returns_false [[97, 46, 98]] [[120, 121, 122]] 4 (by decide)
    ⟨[120, 121, 122], by decide, by decide⟩

/-! ## Names of the enumerated groups -/

theorem prefixOf_append_of_dot (r t : List Nat) (h : 46 ∈ r) : prefixOf (r ++ t) = prefixOf r := by
  induction r with
  | nil => simp at h
  | cons b r ih =>
    by_cases hb : b = 46
    · simp [prefixOf, hb]
    · have hm : 46 ∈ r := by
        rcases List.mem_cons.mp h with e | e
        · exact absurd e.symm hb
        · exact e
      have h1 : prefixOf (b :: (r ++ t)) = b :: prefixOf (r ++ t) := by simp [prefixOf, hb]
      have h2 : prefixOf (b :: r) = b :: prefixOf r := by simp [prefixOf, hb]
      rw [List.cons_append, h1, h2, ih hm]

theorem count_one_of_nodup {α : Type} [BEq α] [LawfulBEq α] {a : α} {l : List α}
    (hn : l.Nodup) (hm : a ∈ l) : l.count a = 1 := by
  induction l with
  | nil => simp at hm
  | cons b l ih =>
    obtain ⟨hb, hl⟩ := List.nodup_cons.mp hn
    rcases List.mem_cons.mp hm with e | e
    · subst e
      simp [List.count_cons, List.count_eq_zero_of_not_mem hb]
    · have hne : ¬ (b = a) := fun h => hb (h ▸ e)
      simp [List.count_cons, ih hl e, hne]

theorem Contiguous.afterRun {B : List (List Nat)} (h : Contiguous B) (q : List Nat → Bool) :
    Contiguous (B.dropWhile q) := by
  induction B with
  | nil => simpa using h
  | cons a l ih =>
    by_cases hq : q a = true
    · simp only [List.dropWhile_cons, hq, if_true]
      exact ih h.2
    · simp only [List.dropWhile_cons, hq]
      exact h

theorem group_names_wellFormed (B : List (List Nat)) :
    ∀ (mm : List Nat) (p : Nat), WellFormed B → mm.drop p = encode B → Contiguous B →
      (group_names mm (refPairs p (refGroups B))).Nodup ∧
      (∀ r ∈ B, prefixOf r ∈ group_names mm (refPairs p (refGroups B))) ∧
      (∀ n ∈ group_names mm (refPairs p (refGroups B)), ∃ r ∈ B, prefixOf r = n) := by
  refine group_induction (fun B => ∀ (mm : List Nat) (p : Nat), WellFormed B →
      mm.drop p = encode B → Contiguous B →
      (group_names mm (refPairs p (refGroups B))).Nodup ∧
      (∀ r ∈ B, prefixOf r ∈ group_names mm (refPairs p (refGroups B))) ∧
      (∀ n ∈ group_names mm (refPairs p (refGroups B)), ∃ r ∈ B, prefixOf r = n)) ?_ ?_ B
  · intro mm p _ _ _
    simp [refGroups, refPairs, group_names]
  · intro r rs ih mm p hwf hd hc
    have hdot : 46 ∈ r := (hwf r (by simp)).2
    have hwa : WellFormed (rs.dropWhile (samePrefix r)) := hwf.rest.dropWhile _
    have hsplit : encode (r :: rs) =
        encode (r :: rs.takeWhile (samePrefix r)) ++ encode (rs.dropWhile (samePrefix r)) := by
      rw [← encode_append, List.cons_append, List.takeWhile_append_dropWhile]
    have hdrop : mm.drop (p + (encode (r :: rs.takeWhile (samePrefix r))).length) =
        encode (rs.dropWhile (samePrefix r)) := by
      rw [← List.drop_drop, hd, hsplit, List.drop_left]
    obtain ⟨ih1, ih2, ih3⟩ := ih mm (p + (encode (r :: rs.takeWhile (samePrefix r))).length)
      hwa hdrop (hc.2.afterRun _)
    have hname : name_at mm p = prefixOf r := by
      simp only [name_at, hd, encode]
      exact prefixOf_append_of_dot r _ hdot
    have hnames : group_names mm (refPairs p (refGroups (r :: rs))) =
        prefixOf r :: group_names mm
          (refPairs (p + (encode (r :: rs.takeWhile (samePrefix r))).length)
            (refGroups (rs.dropWhile (samePrefix r)))) := by
      rw [refGroups_cons]
      simp [refPairs, group_names, hname]
    rw [hnames]
    refine ⟨?_, ?_, ?_⟩
    · refine List.nodup_cons.mpr ⟨?_, ih1⟩
      intro hmem
      obtain ⟨x, hx, hpx⟩ := ih3 _ hmem
      exact hc.1 x hx hpx
    · intro x hx
      rcases List.mem_cons.mp hx with e | e
      · rw [e]; simp
      · rw [← List.takeWhile_append_dropWhile (samePrefix r) rs] at e
        rcases List.mem_append.mp e with e1 | e2
        · have := List.mem_takeWhile_imp e1
          simp only [samePrefix, decide_eq_true_eq] at this
          rw [this]; simp
        · exact List.mem_cons_of_mem _ (ih2 x e2)
    · intro n hn
      rcases List.mem_cons.mp hn with e | e
      · exact ⟨r, by simp, e.symm⟩
      · obtain ⟨x, hx, hpx⟩ := ih3 n e
        exact ⟨x, List.mem_cons_of_mem _ ((List.dropWhile_sublist _).subset hx), hpx⟩

/-- C10: when the records of each module name are contiguous in a well-formed
buffer, the module names of the groups handed out by a full enumeration are
pairwise distinct, every prefix of a record of the buffer is handed out exactly
once, and every name handed out is the prefix of a record. -/
theorem enumerate_names_distinct (recs : List (List Nat)) (hwf : WellFormed recs)
    (hc : Contiguous recs) :
    ∃ out fin, enumerate ⟨encode recs, 0, 0⟩ = .ok (out, fin) ∧
      (group_names (encode recs) out).Nodup ∧
      (∀ r ∈ recs, (group_names (encode recs) out).count (prefixOf r) = 1) ∧
      (∀ n ∈ group_names (encode recs) out, ∃ r ∈ recs, prefixOf r = n) := by
  have h := enumerate_loop_wellFormed ((encode recs).length + 1) recs (encode recs) 0 hwf
    (by simp) (by have := length_le_encode recs; omega)
  obtain ⟨h1, h2, h3⟩ := group_names_wellFormed recs (encode recs) 0 hwf (by simp) hc
  refine ⟨_, _, h, h1, ?_, h3⟩
  intro r hr
  exact count_one_of_nodup h1 (h2 r hr)

set_option maxRecDepth 100000 in
/-- Witness of C10: the example file hands out the names `foo` and `bar`. -/
theorem enumerate_names_distinct_witness :
    WellFormed example_records ∧ Contiguous example_records ∧
    ∃ out fin, enumerate ⟨encode example_records, 0, 0⟩ = .ok (out, fin) ∧
      (group_names (encode example_records) out).Nodup ∧
      (∀ r ∈ example_records,
        (group_names (encode example_records) out).count (prefixOf r) = 1) ∧
      (∀ n ∈ group_names (encode example_records) out,
        ∃ r ∈ example_records, prefixOf r = n) :=
  ⟨by decide, by decide, enumerate_names_distinct example_records (by decide) (by decide)⟩

/-! ## The scan loop of kmod_builtin_get_modinfo -/

theorem record_length (r : List Nat) (h : 46 ∈ r) :
    r.length = (prefixOf r).length + 1 + (valueOf r).length := by
  have := congrArg List.length (record_split r h)
  simp at this
  omega

theorem drop_to_value {mm : List Nat} {off : Nat} {r t : List Nat} (hdot : 46 ∈ r)
    (h : mm.drop off = r ++ 0 :: t) :
    mm.drop (off + (prefixOf r).length + 1) = valueOf r ++ 0 :: t := by
  have h2 : mm.drop (off + (prefixOf r).length + 1) =
      (mm.drop off).drop ((prefixOf r).length + 1) := by
    rw [List.drop_drop, Nat.add_assoc]
  have hr : r ++ 0 :: t = (prefixOf r ++ [46]) ++ (valueOf r ++ 0 :: t) := by
    have := record_split r hdot
    calc r ++ 0 :: t = (prefixOf r ++ 46 :: valueOf r) ++ 0 :: t := by rw [← this]
      _ = (prefixOf r ++ [46]) ++ (valueOf r ++ 0 :: t) := by simp
  have h4 : (prefixOf r).length + 1 = (prefixOf r ++ [46]).length := by simp
  rw [h2, h, hr, h4, List.drop_left]

theorem modinfo_scan_matched (mm name : List Nat) (hname : 0 ∉ name) :
    ∀ (B : List (List Nat)) (fuel off count size : Nat) (sect : Option Nat), NulFree B →
      mm.drop off = encode B → B.length < fuel → count ≠ 0 →
      modinfo_scan_loop mm name name.length fuel off count size sect =
        if blocked (B.dropWhile (inGroup name)) then .ok none
        else .ok (some (count + (B.takeWhile (inGroup name)).length,
          size + (valueBytes (B.takeWhile (inGroup name))).length, sect)) := by
  intro B
  induction B with
  | nil =>
    intro fuel off count size sect _ hd hf _
    cases fuel with
    | zero => omega
    | succ f =>
      have hge : ¬ off < mm.length := by
        have := List.drop_eq_nil_iff.mp (by simpa [encode] using hd)
        omega
      simp [modinfo_scan_loop, hge, blocked, valueBytes, encode]
  | cons r B ih =>
    intro fuel off count size sect hnf hd hf hcount
    cases fuel with
    | zero => omega
    | succ f =>
      have hlt : off < mm.length := lt_length_of_drop_cons hd
      have hr0 : 0 ∉ r := hnf.head
      have hd2 : mm.drop off = r ++ 0 :: encode B := by simpa [encode] using hd
      unfold modinfo_scan_loop
      simp only [hlt, if_true]
      rw [hd2, strchr_record r _ hr0, ← hd2]
      by_cases hdot : 46 ∈ r
      · simp only [hdot, if_true, Outcome.bind_ok]
        by_cases hlen : name.length = (prefixOf r).length
        · have hsplit : mm.drop off = prefixOf r ++ (46 :: valueOf r ++ 0 :: encode B) := by
            rw [hd2]; conv_lhs => rw [record_split r hdot]
            simp
          obtain ⟨c, hc, hiff⟩ := strncmp_prefix name (prefixOf r) [0]
            (46 :: valueOf r ++ 0 :: encode B) hlen hname
          rw [← hlen]
          simp only [ne_eq, not_true_eq_false, if_false]
          rw [hsplit, hc, ← hsplit]
          simp only [Outcome.bind_ok]
          by_cases hc0 : c = 0
          · have hpq : prefixOf r = name := (hiff.mp hc0).symm
            have hin : inGroup name r = true := by simp [inGroup, hdot, hpq]
            have hval : mm.drop (off + name.length + 1) = valueOf r ++ 0 :: encode B := by
              rw [hlen]; exact drop_to_value hdot hd2
            have hoff : off + (name.length + 1 + ((valueOf r).length + 1)) =
                off + (r.length + 1) := by
              rw [record_length r hdot, hlen]; omega
            have hnext := ih f (off + (r.length + 1)) (count + 1)
              (size + ((valueOf r).length + 1)) sect hnf.tail
              (drop_encode_cons hd) (by simpa using hf) (by omega)
            simp only [hc0, ne_eq, not_true_eq_false, if_false, hcount]
            rw [hval, strlen_record _ _ (valueOf_nulfree r hr0)]
            simp only [Outcome.bind_ok]
            rw [hoff, hnext]
            simp only [List.dropWhile_cons, List.takeWhile_cons, hin, if_true, valueBytes,
              List.map_cons, encode, List.length_cons, List.length_append]
            have e1 : count + 1 + (List.takeWhile (inGroup name) B).length =
                count + ((List.takeWhile (inGroup name) B).length + 1) := by omega
            have e2 : size + ((valueOf r).length + 1) +
                (encode (List.map valueOf (List.takeWhile (inGroup name) B))).length =
                size + ((valueOf r).length +
                  ((encode (List.map valueOf (List.takeWhile (inGroup name) B))).length + 1)) := by
              omega
            rw [e1, e2]
          · have hpq : ¬ prefixOf r = name := fun e => hc0 (hiff.mpr e.symm)
            have hin : inGroup name r = false := by simp [inGroup, hpq]
            simp [hc0, hcount, List.dropWhile_cons, List.takeWhile_cons, hin, blocked, hdot,
              valueBytes, encode]
        · have hpq : ¬ prefixOf r = name := fun e => hlen (by rw [e])
          have hin : inGroup name r = false := by simp [inGroup, hpq]
          simp [hlen, hcount, List.dropWhile_cons, List.takeWhile_cons, hin, blocked, hdot,
            valueBytes, encode]
      · have hin : inGroup name r = false := by simp [inGroup, hdot]
        simp [hdot, List.dropWhile_cons, hin, blocked]

theorem modinfo_scan_unmatched (mm name : List Nat) (hname : 0 ∉ name) :
    ∀ (B : List (List Nat)) (fuel off : Nat), NulFree B →
      mm.drop off = encode B → B.length < fuel →
      modinfo_scan_loop mm name name.length fuel off 0 0 none =
        if blocked ((B.dropWhile (skipped name)).dropWhile (inGroup name)) then .ok none
        else .ok (some (((B.dropWhile (skipped name)).takeWhile (inGroup name)).length,
          (valueBytes ((B.dropWhile (skipped name)).takeWhile (inGroup name))).length,
          if ((B.dropWhile (skipped name)).takeWhile (inGroup name)).isEmpty then none
          else some (off + (encode (B.takeWhile (skipped name))).length))) := by
  intro B
  induction B with
  | nil =>
    intro fuel off _ hd hf
    cases fuel with
    | zero => omega
    | succ f =>
      have hge : ¬ off < mm.length := by
        have := List.drop_eq_nil_iff.mp (by simpa [encode] using hd)
        omega
      simp [modinfo_scan_loop, hge, blocked, valueBytes, encode]
  | cons r B ih =>
    intro fuel off hnf hd hf
    cases fuel with
    | zero => omega
    | succ f =>
      have hlt : off < mm.length := lt_length_of_drop_cons hd
      have hr0 : 0 ∉ r := hnf.head
      have hd2 : mm.drop off = r ++ 0 :: encode B := by simpa [encode] using hd
      have hskipnext := ih f (off + (r.length + 1)) hnf.tail (drop_encode_cons hd)
        (by simpa using hf)
      unfold modinfo_scan_loop
      simp only [hlt, if_true]
      rw [hd2, strchr_record r _ hr0, ← hd2]
      by_cases hdot : 46 ∈ r
      · simp only [hdot, if_true, Outcome.bind_ok]
        by_cases hlen : name.length = (prefixOf r).length
        · have hsplit : mm.drop off = prefixOf r ++ (46 :: valueOf r ++ 0 :: encode B) := by
            rw [hd2]; conv_lhs => rw [record_split r hdot]
            simp
          obtain ⟨c, hc, hiff⟩ := strncmp_prefix name (prefixOf r) [0]
            (46 :: valueOf r ++ 0 :: encode B) hlen hname
          rw [← hlen]
          simp only [ne_eq, not_true_eq_false, if_false]
          rw [hsplit, hc, ← hsplit]
          simp only [Outcome.bind_ok]
          by_cases hc0 : c = 0
          · have hpq : prefixOf r = name := (hiff.mp hc0).symm
            have hin : inGroup name r = true := by simp [inGroup, hdot, hpq]
            have hsk : skipped name r = false := by simp [skipped, hpq]
            have hval : mm.drop (off + name.length + 1) = valueOf r ++ 0 :: encode B := by
              rw [hlen]; exact drop_to_value hdot hd2
            have hoff : off + (name.length + 1 + ((valueOf r).length + 1)) =
                off + (r.length + 1) := by
              rw [record_length r hdot, hlen]; omega
            have hnext := modinfo_scan_matched mm name hname B f (off + (r.length + 1)) (0 + 1)
              (0 + ((valueOf r).length + 1)) (some off) hnf.tail
              (drop_encode_cons hd) (by simpa using hf) (by omega)
            simp only [hc0, ne_eq, not_true_eq_false, if_false, if_true]
            rw [hval, strlen_record _ _ (valueOf_nulfree r hr0)]
            simp only [Outcome.bind_ok]
            rw [hoff, hnext]
            simp only [List.dropWhile_cons, List.takeWhile_cons, hin, hsk, if_true, valueBytes,
              List.map_cons, encode, List.length_cons, List.length_append, List.isEmpty_cons,
              Bool.false_eq_true, if_false, List.length_nil, Nat.add_zero]
            have e1 : 0 + 1 + (List.takeWhile (inGroup name) B).length =
                (List.takeWhile (inGroup name) B).length + 1 := by omega
            have e2 : 0 + ((valueOf r).length + 1) +
                (encode (List.map valueOf (List.takeWhile (inGroup name) B))).length =
                (valueOf r).length +
                  ((encode (List.map valueOf (List.takeWhile (inGroup name) B))).length + 1) := by
              omega
            rw [e1, e2]
          · have hpq : ¬ prefixOf r = name := fun e => hc0 (hiff.mpr e.symm)
            have hsk : skipped name r = true := by simp [skipped, hdot, hpq]
            simp only [hc0, ne_eq, not_false_eq_true, if_true, not_true_eq_false, if_false]
            rw [hd2, strlen_record r _ hr0]
            simp only [Outcome.bind_ok]
            rw [hskipnext]
            simp only [List.dropWhile_cons, List.takeWhile_cons, hsk, if_true, encode,
              List.length_append, List.length_cons]
            have e : off + (r.length + 1) + (encode (List.takeWhile (skipped name) B)).length =
                off + (r.length + ((encode (List.takeWhile (skipped name) B)).length + 1)) := by
              omega
            rw [e]
        · have hpq : ¬ prefixOf r = name := fun e => hlen (by rw [e])
          have hsk : skipped name r = true := by simp [skipped, hdot, hpq]
          simp only [hlen, ne_eq, not_false_eq_true, if_true, not_true_eq_false, if_false]
          rw [hd2, strlen_record r _ hr0]
          simp only [Outcome.bind_ok]
          rw [hskipnext]
          simp only [List.dropWhile_cons, List.takeWhile_cons, hsk, if_true, encode,
            List.length_append, List.length_cons]
          have e : off + (r.length + 1) + (encode (List.takeWhile (skipped name) B)).length =
              off + (r.length + ((encode (List.takeWhile (skipped name) B)).length + 1)) := by
            omega
          rw [e]
      · have hin : inGroup name r = false := by simp [inGroup, hdot]
        have hsk : skipped name r = false := by simp [skipped, hdot]
        simp [hdot, List.dropWhile_cons, hin, hsk, blocked]

/-! ## The copy loop of kmod_builtin_get_modinfo -/

theorem write_bytes_fresh (done src : List Nat) (k : Nat) :
    write_bytes (done.map some ++ List.replicate (src.length + k) none) done.length src =
      (done ++ src).map some ++ List.replicate k none := by
  have h1 : List.take done.length (done.map some ++ List.replicate (src.length + k) none) =
      done.map some := by
    have : done.length = (done.map some).length := by simp
    rw [this, List.take_left]
  have h2 : List.drop (done.length + src.length)
      (done.map some ++ List.replicate (src.length + k) (none : Option Nat)) =
      List.replicate k none := by
    have : done.length = (done.map some).length := by simp
    rw [← List.drop_drop, this, List.drop_left]
    simp
  unfold write_bytes
  rw [h1, h2]
  simp

theorem table_set_fresh (T : List Nat) (off j : Nat) :
    (T.map some ++ List.replicate (j + 1) (none : Option Nat)).set T.length (some off) =
      (T ++ [off]).map some ++ List.replicate j none := by
  induction T with
  | nil => simp [List.replicate_succ]
  | cons a T ih => simpa using ih

theorem modinfo_copy_run (sect name : List Nat) :
    ∀ (G : List (List Nat)) (t : List Nat) (fuel mmoffset offset n size : Nat)
      (blk : modinfo_block) (done T : List Nat) (k : Nat),
      (∀ r ∈ G, inGroup name r = true) → NulFree G → sect.drop mmoffset = encode G ++ t →
      size = offset + (valueBytes G).length →
      blk.strings = done.map some ++ List.replicate (valueBytes G).length none →
      done.length = offset →
      blk.table = T.map some ++ List.replicate (G.length + k) none → T.length = n →
      G.length < fuel →
      modinfo_copy_loop sect name.length size fuel mmoffset offset n blk =
        .ok { alloc := blk.alloc
              table := (T ++ valueOffsets offset G).map some ++ List.replicate k none
              strings := (done ++ valueBytes G).map some } := by
  intro G
  induction G with
  | nil =>
    intro t fuel mmoffset offset n size blk done T k _ _ _ hsize hstr _ htab _ hf
    cases fuel with
    | zero => omega
    | succ f =>
      have hge : ¬ offset < size := by simp [valueBytes, encode] at hsize; omega
      cases blk with
      | mk alloc table strings =>
        simp only [valueBytes, List.map_nil, encode, List.length_nil, List.replicate_zero,
          List.append_nil, Nat.zero_add] at hstr htab
        simp [modinfo_copy_loop, hge, valueOffsets, valueBytes, encode, hstr, htab]
  | cons r G ih =>
    intro t fuel mmoffset offset n size blk done T k hin hnf hd hsize hstr hdone htab hT hf
    cases fuel with
    | zero => omega
    | succ f =>
      have hr : inGroup name r = true := hin r (by simp)
      have hdot : 46 ∈ r := by simp [inGroup] at hr; exact hr.1
      have hpre : prefixOf r = name := by simp [inGroup] at hr; exact hr.2
      have hr0 : 0 ∉ r := hnf.head
      have hd2 : sect.drop mmoffset = r ++ 0 :: (encode G ++ t) := by simpa [encode] using hd
      have hvb : valueBytes (r :: G) = (valueOf r ++ [0]) ++ valueBytes G := by
        simp [valueBytes, encode]
      have hvl : (valueBytes (r :: G)).length =
          (valueOf r ++ [0]).length + (valueBytes G).length := by
        rw [hvb, List.length_append]
      have hlt : offset < size := by rw [hsize, hvl]; simp
      have hval : sect.drop (mmoffset + name.length + 1) = valueOf r ++ 0 :: (encode G ++ t) := by
        rw [← hpre]; exact drop_to_value hdot hd2
      have hoff : mmoffset + (name.length + 1 + ((valueOf r).length + 1)) =
          mmoffset + (r.length + 1) := by
        rw [record_length r hdot, hpre]; omega
      have htake : (valueOf r ++ 0 :: (encode G ++ t)).take ((valueOf r).length + 1) =
          valueOf r ++ [0] := by
        have e1 : valueOf r ++ 0 :: (encode G ++ t) = (valueOf r ++ [0]) ++ (encode G ++ t) := by
          simp
        have e2 : (valueOf r).length + 1 = (valueOf r ++ [0]).length := by simp
        rw [e1, e2, List.take_left]
      have hstr2 : blk.strings = done.map some ++
          List.replicate ((valueOf r ++ [0]).length + (valueBytes G).length) none := by
        rw [hstr, hvl]
      have hbound : offset + ((valueOf r).length + 1) ≤ blk.strings.length ∧
          n < blk.table.length := by
        rw [hstr2, htab]; simp; omega
      have hw : write_bytes blk.strings offset (valueOf r ++ [0]) =
          (done ++ (valueOf r ++ [0])).map some ++ List.replicate (valueBytes G).length none := by
        rw [hstr2, ← hdone]; exact write_bytes_fresh _ _ _
      have hs : blk.table.set n (some offset) =
          (T ++ [offset]).map some ++ List.replicate (G.length + k) none := by
        rw [htab, ← hT]
        have e : (r :: G).length + k = (G.length + k) + 1 := by simp; omega
        rw [e]; exact table_set_fresh _ _ _
      have hnext := ih t f (mmoffset + (r.length + 1)) (offset + ((valueOf r).length + 1)) (n + 1)
        size
        { alloc := blk.alloc
          table := blk.table.set n (some offset)
          strings := write_bytes blk.strings offset (valueOf r ++ [0]) }
        (done ++ (valueOf r ++ [0])) (T ++ [offset]) k
        (fun x hx => hin x (by simp [hx])) hnf.tail (drop_record hd2)
        (by rw [hsize, hvl]; simp; omega) hw (by simp [hdone]) hs (by simp [hT])
        (by simpa using hf)
      unfold modinfo_copy_loop
      simp only [hlt, if_true]
      rw [hval, strlen_record _ _ (valueOf_nulfree r hr0)]
      simp only [Outcome.bind_ok, hbound, and_self, if_true]
      rw [htake, hoff, hnext]
      simp [valueOffsets, hvb]

/-! ## kmod_builtin_get_modinfo on a NUL-terminated buffer -/

theorem region_string_value (v rest : List Nat) (h : 0 ∉ v) :
    region_string ((v ++ 0 :: rest).map some) = some v := by
  induction v with
  | nil => simp [region_string]
  | cons b v ih =>
    have hb : b ≠ 0 := fun e => h (by simp [e])
    have hv : 0 ∉ v := fun e => h (by simp [e])
    have := ih hv
    simp only [List.map_append, List.map_cons] at this
    simp [region_string, hb, this]

theorem valueOffsets_length (off : Nat) (G : List (List Nat)) :
    (valueOffsets off G).length = G.length := by
  induction G generalizing off with
  | nil => rfl
  | cons r G ih => simp [valueOffsets, ih]

theorem block_values (G : List (List Nat)) (hnf : NulFree G) :
    ∀ done : List Nat,
      (valueOffsets done.length G).map
        (fun off => region_string (((done ++ valueBytes G).map some).drop off)) =
      G.map (fun r => some (valueOf r)) := by
  induction G with
  | nil => intro done; simp [valueOffsets]
  | cons r G ih =>
    intro done
    have hvb : valueBytes (r :: G) = valueOf r ++ 0 :: valueBytes G := by
      simp [valueBytes, encode]
    have hhead : region_string (((done ++ valueBytes (r :: G)).map some).drop done.length) =
        some (valueOf r) := by
      have e : done.length = (done.map some).length := by simp
      rw [List.map_append, e, List.drop_left, hvb]
      exact region_string_value _ _ (valueOf_nulfree r hnf.head)
    have htail := ih hnf.tail (done ++ (valueOf r ++ [0]))
    have e1 : (done ++ (valueOf r ++ [0])).length = done.length + ((valueOf r).length + 1) := by
      simp
    have e2 : done ++ (valueOf r ++ [0]) ++ valueBytes G = done ++ valueBytes (r :: G) := by
      rw [hvb]; simp
    rw [e1, e2] at htail
    simp only [valueOffsets, List.map_cons, hhead, htail]

theorem get_modinfo_spec (ctx : kmod_ctx) (name : List Nat) (recs : List (List Nat))
    (iter : kmod_builtin_iter) (hnf : NulFree recs) (hname : 0 ∉ name)
    (hnew : kmod_builtin_iter_new ctx = .ok (.ok iter)) (hfile : iter.file = encode recs) :
    kmod_builtin_get_modinfo ctx name =
      if blocked (lookupRest name recs) then .ok (-(ENODATA : Int), none)
      else if (lookupRun name recs).isEmpty then .ok (-(ENOSYS : Int), none)
      else if ctx.malloc_ok ((valueBytes (lookupRun name recs)).length +
          sizeof_ptr * ((lookupRun name recs).length + 1)) = false then
        .ok (-(ENOMEM : Int), none)
      else .ok (((lookupRun name recs).length : Int),
        some { alloc := (valueBytes (lookupRun name recs)).length +
                 sizeof_ptr * ((lookupRun name recs).length + 1)
               table := (valueOffsets 0 (lookupRun name recs)).map some ++ [none]
               strings := (valueBytes (lookupRun name recs)).map some }) := by
  have hlen : strlen (name ++ [0]) = .ok name.length := strlen_record name [] hname
  have hscan := modinfo_scan_unmatched (encode recs) name hname recs ((encode recs).length + 1) 0
    hnf (by simp) (by have := length_le_encode recs; omega)
  have hsub : ∀ x ∈ (recs.dropWhile (skipped name)).takeWhile (inGroup name), x ∈ recs :=
    fun x hx => (List.dropWhile_sublist _).subset ((List.takeWhile_sublist _).subset hx)
  have hdrop : (encode recs).drop (0 + (encode (recs.takeWhile (skipped name))).length) =
      encode ((recs.dropWhile (skipped name)).takeWhile (inGroup name)) ++
        encode ((recs.dropWhile (skipped name)).dropWhile (inGroup name)) := by
    have h1 := drop_encode_append (recs.takeWhile (skipped name)) (recs.dropWhile (skipped name))
    rw [List.takeWhile_append_dropWhile] at h1
    rw [Nat.zero_add, ← encode_append, List.takeWhile_append_dropWhile, h1]
  have hcopy := modinfo_copy_run
    ((encode recs).drop (0 + (encode (recs.takeWhile (skipped name))).length)) name
    ((recs.dropWhile (skipped name)).takeWhile (inGroup name))
    (encode ((recs.dropWhile (skipped name)).dropWhile (inGroup name)))
    ((valueBytes ((recs.dropWhile (skipped name)).takeWhile (inGroup name))).length + 1)
    0 0 0 (valueBytes ((recs.dropWhile (skipped name)).takeWhile (inGroup name))).length
    { alloc := (valueBytes ((recs.dropWhile (skipped name)).takeWhile
          (inGroup name))).length + sizeof_ptr *
          (((recs.dropWhile (skipped name)).takeWhile (inGroup name)).length + 1)
      table := List.replicate
        (((recs.dropWhile (skipped name)).takeWhile (inGroup name)).length + 1) none
      strings := List.replicate
        (valueBytes ((recs.dropWhile (skipped name)).takeWhile (inGroup name))).length
        none }
    [] [] 1
    (fun r hr => List.mem_takeWhile_imp hr)
    (fun x hx => hnf x (hsub x hx))
    (by simpa using hdrop) (by simp) (by simp) rfl (by simp) rfl
    (by
      have := length_le_encode
        (((recs.dropWhile (skipped name)).takeWhile (inGroup name)).map valueOf)
      simp only [List.length_map] at this
      simp only [valueBytes]
      omega)
  unfold kmod_builtin_get_modinfo
  rw [hnew]
  simp only [Outcome.bind_ok, hlen, hfile]
  rw [hscan]
  simp only [lookupRun, lookupRest]
  generalize (recs.dropWhile (skipped name)).takeWhile (inGroup name) = Gs at hcopy ⊢
  by_cases hb : blocked ((recs.dropWhile (skipped name)).dropWhile (inGroup name)) = true
  · rw [if_pos hb, if_pos hb]; rfl
  · rw [if_neg hb, if_neg hb]
    simp only [Outcome.bind_ok]
    cases Gs with
    | nil => simp
    | cons g G =>
      have hcount : ¬ ((g :: G).length = 0) := by simp
      rw [if_neg hcount]
      simp only [List.isEmpty_cons, Bool.false_eq_true, if_false]
      by_cases hm : ctx.malloc_ok
          ((valueBytes (g :: G)).length + sizeof_ptr * ((g :: G).length + 1)) = false
      · rw [if_pos hm, if_pos hm]
      · rw [if_neg hm, if_neg hm]
        rw [hcopy]
        simp

theorem takeWhile_dropWhile_congr {α : Type} (p q : α → Bool) (l : List α)
    (h : ∀ x ∈ l, p x = q x) :
    l.takeWhile p = l.takeWhile q ∧ l.dropWhile p = l.dropWhile q := by
  induction l with
  | nil => simp
  | cons a l ih =>
    have ha : p a = q a := h a (by simp)
    obtain ⟨i1, i2⟩ := ih (fun x hx => h x (by simp [hx]))
    simp only [List.takeWhile_cons, List.dropWhile_cons, ha, i1, i2, and_self]

theorem dropWhile_head_false {α : Type} (p : α → Bool) :
    ∀ (l : List α) (s : α) (S : List α), l.dropWhile p = s :: S → p s = false := by
  intro l
  induction l with
  | nil => intro s S h; simp at h
  | cons a l ih =>
    intro s S h
    by_cases ha : p a = true
    · simp only [List.dropWhile_cons, ha, if_true] at h
      exact ih s S h
    · simp only [List.dropWhile_cons, ha] at h
      have : a = s := by injection h
      rw [← this]; simpa using ha

theorem lookupRun_wellFormed (name : List Nat) (recs : List (List Nat)) (hwf : WellFormed recs) :
    lookupRun name recs = firstRun name recs ∧ blocked (lookupRest name recs) = false := by
  have h1 := takeWhile_dropWhile_congr (skipped name) (fun r => decide (prefixOf r ≠ name)) recs
    (fun x hx => by simp [skipped, (hwf x hx).2])
  have hw2 : WellFormed (recs.dropWhile (skipped name)) := hwf.dropWhile _
  have h2 := takeWhile_dropWhile_congr (inGroup name) (fun r => decide (prefixOf r = name))
    (recs.dropWhile (skipped name)) (fun x hx => by simp [inGroup, (hw2 x hx).2])
  refine ⟨?_, ?_⟩
  · simp only [lookupRun, firstRun]
    rw [h2.1, h1.2]
  · exact unblocked_of_dots _ ((hw2.dropWhile _).dots)

theorem valueOf_eq_drop (name r : List Nat) (h : inGroup name r = true) :
    valueOf r = r.drop (name.length + 1) := by
  simp only [inGroup, Bool.and_eq_true, decide_eq_true_eq] at h
  have hs := record_split r h.1
  have e1 : prefixOf r ++ 46 :: valueOf r = (prefixOf r ++ [46]) ++ valueOf r := by simp
  have e2 : name.length + 1 = (prefixOf r ++ [46]).length := by simp [h.2]
  calc valueOf r = ((prefixOf r ++ [46]) ++ valueOf r).drop (prefixOf r ++ [46]).length := by
        rw [List.drop_left]
    _ = r.drop (name.length + 1) := by rw [← e1, ← hs, e2]

theorem lookupRun_inGroup (name : List Nat) (recs : List (List Nat)) :
    ∀ r ∈ lookupRun name recs, inGroup name r = true :=
  fun _ hr => List.mem_takeWhile_imp hr

theorem lookupRun_nulFree (name : List Nat) {recs : List (List Nat)} (h : NulFree recs) :
    NulFree (lookupRun name recs) :=
  fun x hx => h x ((List.dropWhile_sublist _).subset ((List.takeWhile_sublist _).subset hx))

theorem block_values_run (name : List Nat) (recs : List (List Nat)) (hnf : NulFree recs)
    (alloc : Nat) :
    modinfo_block.values
        { alloc := alloc
          table := (valueOffsets 0 (lookupRun name recs)).map some ++ [none]
          strings := (valueBytes (lookupRun name recs)).map some }
        (lookupRun name recs).length =
      (lookupRun name recs).map (fun r => some (r.drop (name.length + 1))) := by
  have hv := block_values (lookupRun name recs) (lookupRun_nulFree name hnf) []
  simp only [List.length_nil, List.nil_append] at hv
  have ht : ((valueOffsets 0 (lookupRun name recs)).map some ++ [none]).take
      (lookupRun name recs).length = (valueOffsets 0 (lookupRun name recs)).map some := by
    have e : (lookupRun name recs).length =
        ((valueOffsets 0 (lookupRun name recs)).map some).length := by
      simp [valueOffsets_length]
    rw [e, List.take_left]
  simp only [modinfo_block.values, ht, List.map_map]
  have hv2 : (valueOffsets 0 (lookupRun name recs)).map
      ((fun slot : Option Nat => match slot with
        | none => none
        | some off => region_string (((valueBytes (lookupRun name recs)).map some).drop off)) ∘
        some) = (lookupRun name recs).map (fun r => some (valueOf r)) := by
    rw [← hv]; rfl
  rw [hv2]
  apply List.map_congr_left
  intro r hr
  rw [valueOf_eq_drop name r (lookupRun_inGroup name recs r hr)]

theorem Outcome.bind_eq_ok {α β : Type} {x : Outcome α} {f : α → Outcome β} {b : β}
    (h : x.bind f = .ok b) : ∃ a, x = .ok a ∧ f a = .ok b := by
  cases x with
  | ok a => exact ⟨a, rfl, h⟩
  | fault => simp at h
  | nofuel => simp at h

theorem get_modinfo_nonzero (ctx : kmod_ctx) (name : List Nat) (ret : Int)
    (blk : Option modinfo_block) (h : kmod_builtin_get_modinfo ctx name = .ok (ret, blk)) :
    ret ≠ 0 ∧ (0 ≤ ret → 1 ≤ ret ∧ blk.isSome = true) ∧ (ret < 0 → blk = none) := by
  unfold kmod_builtin_get_modinfo at h
  obtain ⟨it, _, h⟩ := Outcome.bind_eq_ok h
  cases it with
  | error e =>
    simp only [Outcome.ok.injEq, Prod.mk.injEq] at h
    rw [← h.1, ← h.2]; simp
  | ok iter =>
    simp only at h
    obtain ⟨modlen, _, h⟩ := Outcome.bind_eq_ok h
    obtain ⟨r, _, h⟩ := Outcome.bind_eq_ok h
    cases r with
    | none =>
      simp only [Outcome.ok.injEq, Prod.mk.injEq] at h
      rw [← h.1, ← h.2]; simp [ENODATA]
    | some v =>
      obtain ⟨count, size, sect⟩ := v
      simp only at h
      by_cases hc : count = 0
      · rw [if_pos hc] at h
        simp only [Outcome.ok.injEq, Prod.mk.injEq] at h
        rw [← h.1, ← h.2]; simp [ENOSYS]
      · rw [if_neg hc] at h
        by_cases hm : ctx.malloc_ok (size + sizeof_ptr * (count + 1)) = false
        · rw [if_pos hm] at h
          simp only [Outcome.ok.injEq, Prod.mk.injEq] at h
          rw [← h.1, ← h.2]; simp [ENOMEM]
        · rw [if_neg hm] at h
          cases sect with
          | none => simp at h
          | some sec =>
            simp only at h
            obtain ⟨b, _, h⟩ := Outcome.bind_eq_ok h
            simp only [Outcome.ok.injEq, Prod.mk.injEq] at h
            rw [← h.1, ← h.2]
            simp
            omega

theorem blocked_lookupRest_iff (name : List Nat) (recs : List (List Nat)) :
    blocked (lookupRest name recs) = true ↔ ∃ r ∈ scannedByLookup name recs, 46 ∉ r := by
  have hK : ∀ a ∈ recs.takeWhile (skipped name), (fun r => !inGroup name r) a = true := by
    intro a ha
    have := List.mem_takeWhile_imp ha
    simp only [skipped, Bool.and_eq_true, decide_eq_true_eq, Bool.not_eq_true',
      decide_eq_false_iff_not] at this
    simp [inGroup, this.2]
  have hKdot : ∀ a ∈ recs.takeWhile (skipped name), 46 ∈ a := by
    intro a ha
    have := List.mem_takeWhile_imp ha
    simp only [skipped, Bool.and_eq_true, decide_eq_true_eq] at this
    exact this.1
  have hGdot : ∀ (l : List (List Nat)), ∀ a ∈ l.takeWhile (inGroup name), 46 ∈ a := by
    intro l a ha
    have := List.mem_takeWhile_imp ha
    simp only [inGroup, Bool.and_eq_true, decide_eq_true_eq] at this
    exact this.1
  have hsc : scannedByLookup name recs =
      recs.takeWhile (skipped name) ++
        (recs.dropWhile (skipped name)).takeWhile (fun r => !inGroup name r) ++
        ((recs.dropWhile (skipped name)).dropWhile (fun r => !inGroup name r)).takeWhile
          (inGroup name) ++
        (((recs.dropWhile (skipped name)).dropWhile (fun r => !inGroup name r)).dropWhile
          (inGroup name)).take 1 := by
    simp only [scannedByLookup]
    conv_lhs => rw [← List.takeWhile_append_dropWhile (skipped name) recs]
    rw [List.takeWhile_append_of_pos hK, List.dropWhile_append_of_pos hK]
  rw [hsc]
  simp only [lookupRest]
  cases hS : recs.dropWhile (skipped name) with
  | nil =>
    simp only [List.takeWhile_nil, List.dropWhile_nil, List.take_nil, List.append_nil, blocked]
    constructor
    · intro h; simp at h
    · rintro ⟨r, hr, hdot⟩
      exact absurd (hKdot r hr) hdot
  | cons s S =>
    have hsk : skipped name s = false := dropWhile_head_false _ _ _ _ hS
    by_cases hdot : 46 ∈ s
    · have hin : inGroup name s = true := by
        simp only [skipped, hdot, decide_True, Bool.true_and, Bool.not_eq_false',
          decide_eq_true_eq] at hsk
        simp [inGroup, hdot, hsk]
      simp only [List.takeWhile_cons, List.dropWhile_cons, hin, Bool.not_true,
        Bool.false_eq_true, if_false, if_true, List.append_nil]
      constructor
      · intro hb
        cases hR : S.dropWhile (inGroup name) with
        | nil => rw [hR] at hb; simp [blocked] at hb
        | cons x R =>
          rw [hR] at hb
          refine ⟨x, by simp, by simpa [blocked] using hb⟩
      · rintro ⟨r, hr, hrd⟩
        rcases List.mem_append.mp hr with h1 | h3
        · rcases List.mem_append.mp h1 with h1 | h2
          · exact absurd (hKdot r h1) hrd
          · rcases List.mem_cons.mp h2 with e | e
            · exact absurd (e ▸ hdot) hrd
            · exact absurd (hGdot S r e) hrd
        · cases hR : S.dropWhile (inGroup name) with
          | nil => rw [hR] at h3; simp at h3
          | cons x R =>
            rw [hR] at h3
            have : r = x := by simpa using h3
            simp [blocked, ← this, hrd]
    · have hin : inGroup name s = false := by simp [inGroup, hdot]
      simp only [List.dropWhile_cons, hin, Bool.false_eq_true, if_false, blocked, hdot,
        not_false_eq_true, decide_True, true_iff]
      refine ⟨s, ?_, hdot⟩
      simp [List.takeWhile_cons, hin]

/-! ## The iteration budgets are never used up -/

theorem Outcome.bind_ne_nofuel {α β : Type} {x : Outcome α} {f : α → Outcome β}
    (hx : x ≠ .nofuel) (hf : ∀ a, f a ≠ .nofuel) : x.bind f ≠ .nofuel := by
  cases x with
  | ok a => exact hf a
  | fault => simp
  | nofuel => exact absurd rfl hx

theorem strchr_ne_nofuel (s : List Nat) (c : Nat) : strchr s c ≠ .nofuel := by
  induction s with
  | nil => simp [strchr]
  | cons b s ih =>
    unfold strchr
    split
    · simp
    · split
      · simp
      · exact Outcome.bind_ne_nofuel ih (fun _ => by simp)

theorem strlen_ne_nofuel (s : List Nat) : strlen s ≠ .nofuel := by
  induction s with
  | nil => simp [strlen]
  | cons b s ih =>
    unfold strlen
    split
    · simp
    · exact Outcome.bind_ne_nofuel ih (fun _ => by simp)

theorem strncmp_ne_nofuel (n : Nat) : ∀ (a b : List Nat), strncmp a b n ≠ .nofuel := by
  induction n with
  | zero => intro a b; simp [strncmp]
  | succ n ih =>
    intro a b
    cases a with
    | nil => simp [strncmp]
    | cons x a =>
      cases b with
      | nil => simp [strncmp]
      | cons y b =>
        unfold strncmp
        split
        · simp
        · split
          · simp
          · exact ih a b

theorem iter_next_loop_ne_nofuel (mm : List Nat) :
    ∀ (fuel offset : Nat) (modname : Option Nat) (modlen : Nat), mm.length - offset < fuel →
      iter_next_loop mm fuel offset modname modlen ≠ .nofuel := by
  intro fuel
  induction fuel with
  | zero => intro _ _ _ h; omega
  | succ f ih =>
    intro offset modname modlen hf
    unfold iter_next_loop
    split
    · refine Outcome.bind_ne_nofuel (strchr_ne_nofuel _ _) (fun dot => ?_)
      cases dot with
      | none => simp
      | some len =>
        cases modname with
        | none =>
          exact Outcome.bind_ne_nofuel (strlen_ne_nofuel _) (fun l => ih _ _ _ (by omega))
        | some m =>
          simp only
          split
          · simp
          · refine Outcome.bind_ne_nofuel (strncmp_ne_nofuel _ _ _) (fun c => ?_)
            split
            · simp
            · exact Outcome.bind_ne_nofuel (strlen_ne_nofuel _) (fun l => ih _ _ _ (by omega))
    · simp

theorem iter_next_ne_nofuel (iter : kmod_builtin_iter) :
    kmod_builtin_iter_next iter ≠ .nofuel := by
  unfold kmod_builtin_iter_next
  refine Outcome.bind_ne_nofuel (iter_next_loop_ne_nofuel _ _ _ _ _ (by omega)) (fun r => ?_)
  split <;> simp

theorem get_strings_loop_ne_nofuel (mm : List Nat) (next : Nat) :
    ∀ (fuel pos : Nat) (start : Option Nat) (count modlen : Nat), next - pos < fuel →
      get_strings_loop mm next fuel pos start count modlen ≠ .nofuel := by
  intro fuel
  induction fuel with
  | zero => intro _ _ _ _ h; omega
  | succ f ih =>
    intro pos start count modlen hf
    unfold get_strings_loop
    split
    · refine Outcome.bind_ne_nofuel (strchr_ne_nofuel _ _) (fun dot => ?_)
      cases dot with
      | none => simp
      | some len =>
        cases start with
        | none =>
          exact Outcome.bind_ne_nofuel (strlen_ne_nofuel _) (fun l => ih _ _ _ _ (by omega))
        | some st =>
          simp only
          split
          · simp
          · refine Outcome.bind_ne_nofuel (strncmp_ne_nofuel _ _ _) (fun c => ?_)
            split
            · simp
            · exact Outcome.bind_ne_nofuel (strlen_ne_nofuel _)
                (fun l => ih _ _ _ _ (by omega))
    · simp

theorem get_strings_ne_nofuel (iter : kmod_builtin_iter) (strings : Option Nat) :
    kmod_builtin_iter_get_strings iter strings ≠ .nofuel := by
  unfold kmod_builtin_iter_get_strings
  refine Outcome.bind_ne_nofuel (get_strings_loop_ne_nofuel _ _ _ _ _ _ _ (by omega))
    (fun r => ?_)
  split <;> simp

theorem modinfo_scan_loop_ne_nofuel (mm modname : List Nat) (modlen : Nat) :
    ∀ (fuel mmoffset count size : Nat) (sect : Option Nat), mm.length - mmoffset < fuel →
      modinfo_scan_loop mm modname modlen fuel mmoffset count size sect ≠ .nofuel := by
  intro fuel
  induction fuel with
  | zero => intro _ _ _ _ h; omega
  | succ f ih =>
    intro mmoffset count size sect hf
    unfold modinfo_scan_loop
    split
    · rename_i hlt
      refine Outcome.bind_ne_nofuel (strchr_ne_nofuel _ _) (fun dot => ?_)
      cases dot with
      | none => simp
      | some len =>
        simp only
        split
        · split
          · simp
          · exact Outcome.bind_ne_nofuel (strlen_ne_nofuel _)
              (fun l => ih _ _ _ _ (by omega))
        · refine Outcome.bind_ne_nofuel (strncmp_ne_nofuel _ _ _) (fun c => ?_)
          split
          · split
            · simp
            · exact Outcome.bind_ne_nofuel (strlen_ne_nofuel _)
                (fun l => ih _ _ _ _ (by omega))
          · exact Outcome.bind_ne_nofuel (strlen_ne_nofuel _)
              (fun l => ih _ _ _ _ (by omega))
    · simp

theorem modinfo_copy_loop_ne_nofuel (sect : List Nat) (modlen size : Nat) :
    ∀ (fuel mmoffset offset n : Nat) (blk : modinfo_block), size - offset < fuel →
      modinfo_copy_loop sect modlen size fuel mmoffset offset n blk ≠ .nofuel := by
  intro fuel
  induction fuel with
  | zero => intro _ _ _ _ h; omega
  | succ f ih =>
    intro mmoffset offset n blk hf
    unfold modinfo_copy_loop
    split
    · refine Outcome.bind_ne_nofuel (strlen_ne_nofuel _) (fun l => ?_)
      split
      · exact ih _ _ _ _ (by omega)
      · simp
    · simp

theorem iter_new_ne_nofuel (ctx : kmod_ctx) : kmod_builtin_iter_new ctx ≠ .nofuel := by
  unfold kmod_builtin_iter_new
  refine Outcome.bind_ne_nofuel (strlen_ne_nofuel _) (fun len => ?_)
  refine Outcome.bind_ne_nofuel (strlen_ne_nofuel _) (fun namelen => ?_)
  split
  · simp
  · simp only
    split
    · simp
    · split <;> simp

theorem get_modinfo_ne_nofuel (ctx : kmod_ctx) (name : List Nat) :
    kmod_builtin_get_modinfo ctx name ≠ .nofuel := by
  unfold kmod_builtin_get_modinfo
  refine Outcome.bind_ne_nofuel (iter_new_ne_nofuel ctx) (fun it => ?_)
  cases it with
  | error e => simp
  | ok iter =>
    simp only
    refine Outcome.bind_ne_nofuel (strlen_ne_nofuel _) (fun modlen => ?_)
    refine Outcome.bind_ne_nofuel
      (modinfo_scan_loop_ne_nofuel _ _ _ _ _ _ _ _ (by omega)) (fun r => ?_)
    cases r with
    | none => simp
    | some v =>
      obtain ⟨count, size, sect⟩ := v
      simp only
      split
      · simp
      · split
        · simp
        · cases sect with
          | none => simp
          | some sec =>
            simp only
            exact Outcome.bind_ne_nofuel
              (modinfo_copy_loop_ne_nofuel _ _ _ _ _ _ _ _ (by omega)) (fun _ => by simp)

/-! ## Claims about kmod_builtin_get_modinfo -/

/-- C2: on a well-formed buffer, `kmod_builtin_get_modinfo` returns; when the result
is not negative it is the length of the first maximal run of records whose prefix is
the module name, and the value strings of the block are, in file order, the records
of that run without their first `name.length + 1` bytes (the name and the `'.'`);
the lookup succeeds when this run is not empty and the allocation succeeds. -/
theorem lookup_first_run (ctx : kmod_ctx) (name : List Nat) (recs : List (List Nat))
    (hwf : WellFormed recs) (hname : 0 ∉ name)
    (hnew : kmod_builtin_iter_new ctx = .ok (.ok ⟨encode recs, 0, 0⟩)) :
    ∃ ret blk, kmod_builtin_get_modinfo ctx name = .ok (ret, blk) ∧
      (0 ≤ ret → ret = ((firstRun name recs).length : Int) ∧
        ∃ b, blk = some b ∧ b.values (firstRun name recs).length =
          (firstRun name recs).map (fun r => some (r.drop (name.length + 1)))) ∧
      (firstRun name recs ≠ [] → (∀ n, ctx.malloc_ok n = true) → 0 ≤ ret) := by
  have hspec := get_modinfo_spec ctx name recs ⟨encode recs, 0, 0⟩ hwf.nulFree hname hnew rfl
  obtain ⟨hrun, hnb⟩ := lookupRun_wellFormed name recs hwf
  have hval := block_values_run name recs hwf.nulFree
    ((valueBytes (lookupRun name recs)).length + sizeof_ptr * ((lookupRun name recs).length + 1))
  rw [hrun] at hspec hval
  rw [hnb] at hspec
  simp only [Bool.false_eq_true, if_false] at hspec
  by_cases he : (firstRun name recs).isEmpty = true
  · rw [if_pos he] at hspec
    refine ⟨_, _, hspec, fun h => by simp [ENOSYS] at h, fun h => ?_⟩
    exact absurd (List.isEmpty_iff.mp he) h
  · rw [if_neg he] at hspec
    by_cases hm : ctx.malloc_ok ((valueBytes (firstRun name recs)).length +
        sizeof_ptr * ((firstRun name recs).length + 1)) = false
    · rw [if_pos hm] at hspec
      refine ⟨_, _, hspec, fun h => by simp [ENOMEM] at h, fun _ h => ?_⟩
      rw [h] at hm; simp at hm
    · rw [if_neg hm] at hspec
      exact ⟨_, _, hspec, fun _ => ⟨rfl, _, rfl, hval⟩, fun _ _ => by simp⟩

set_option maxRecDepth 100000 in
/-- Witness of C2: on the example file the lookup of `bar` returns the count 1 and
the single value `license=MIT`. -/
theorem lookup_first_run_witness :
    (∃ b, kmod_builtin_get_modinfo (example_ctx (encode example_records)) [98, 97, 114] =
        .ok (1, some b) ∧
      b.values 1 = [some [108, 105, 99, 101, 110, 115, 101, 61, 77, 73, 84]]) ∧
    ∃ ret blk, kmod_builtin_get_modinfo (example_ctx (encode example_records)) [98, 97, 114] =
        .ok (ret, blk) ∧
      (0 ≤ ret → ret = ((firstRun [98, 97, 114] example_records).length : Int) ∧
        ∃ b, blk = some b ∧ b.values (firstRun [98, 97, 114] example_records).length =
          (firstRun [98, 97, 114] example_records).map
            (fun r => some (r.drop (([98, 97, 114] : List Nat).length + 1)))) ∧
      (firstRun [98, 97, 114] example_records ≠ [] →
        (∀ n, (example_ctx (encode example_records)).malloc_ok n = true) → 0 ≤ ret) :=
  ⟨⟨{ alloc := 28, table := [some 0, none],
       strings := [108, 105, 99, 101, 110, 115, 101, 61, 77, 73, 84, 0].map some },
     by decide, by decide⟩,
    lookup_first_run (example_ctx (encode example_records)) [98, 97, 114] example_records
      (by decide) (by decide) rfl⟩

/-- C4: on a well-formed buffer (the empty one included) in which no record has the
prefix `name`, `kmod_builtin_get_modinfo` returns `-ENOSYS` and stores no block; and
whatever the context and the name, the loops of the call end within their budget and
the call never returns 0: a result that is not negative is a count of at least one. -/
theorem lookup_not_found (ctx : kmod_ctx) (name : List Nat) (recs : List (List Nat))
    (hwf : WellFormed recs) (hname : 0 ∉ name)
    (hnew : kmod_builtin_iter_new ctx = .ok (.ok ⟨encode recs, 0, 0⟩))
    (hnone : ∀ r ∈ recs, prefixOf r ≠ name) :
    kmod_builtin_get_modinfo ctx name = .ok (-(ENOSYS : Int), none) ∧
    ∀ (ctx2 : kmod_ctx) (name2 : List Nat),
      kmod_builtin_get_modinfo ctx2 name2 ≠ .nofuel ∧
      ∀ (ret : Int) (blk : Option modinfo_block),
        kmod_builtin_get_modinfo ctx2 name2 = .ok (ret, blk) →
          ret ≠ 0 ∧ (0 ≤ ret → 1 ≤ ret) := by
  refine ⟨?_, ?_⟩
  · have hspec := get_modinfo_spec ctx name recs ⟨encode recs, 0, 0⟩ hwf.nulFree hname hnew rfl
    obtain ⟨hrun, hnb⟩ := lookupRun_wellFormed name recs hwf
    have hempty : firstRun name recs = [] := by
      have hd : recs.dropWhile (fun r => decide (prefixOf r ≠ name)) = [] := by
        rw [List.dropWhile_eq_nil_iff]
        intro x hx
        simpa using hnone x hx
      simp only [firstRun, hd, List.takeWhile_nil]
    rw [hnb, hrun, hempty] at hspec
    simpa using hspec
  · intro ctx2 name2
    refine ⟨get_modinfo_ne_nofuel ctx2 name2, ?_⟩
    intro ret blk h
    obtain ⟨h1, h2, _⟩ := get_modinfo_nonzero ctx2 name2 ret blk h
    exact ⟨h1, fun h0 => (h2 h0).1⟩

set_option maxRecDepth 100000 in
/-- Witness of C4: the lookup of `baz` in the example file returns `-ENOSYS`. -/
theorem lookup_not_found_witness :
    kmod_builtin_get_modinfo (example_ctx (encode example_records)) [98, 97, 122] =
      .ok (-(ENOSYS : Int), none) ∧
    ∀ (ctx2 : kmod_ctx) (name2 : List Nat),
      kmod_builtin_get_modinfo ctx2 name2 ≠ .nofuel ∧
      ∀ (ret : Int) (blk : Option modinfo_block),
        kmod_builtin_get_modinfo ctx2 name2 = .ok (ret, blk) →
          ret ≠ 0 ∧ (0 ≤ ret → 1 ≤ ret) :=
  lookup_not_found (example_ctx (encode example_records)) [98, 97, 122] example_records
    (by decide) (by decide) rfl (by decide)

/-- C5: on a NUL-terminated buffer, `kmod_builtin_get_modinfo` returns, and it returns
`-ENODATA` exactly when one of the records its scan reads (the records before the
first matching one, the matched run and the single record after that run) has no
`'.'`; no block is stored in that case. -/
theorem lookup_enodata_iff (ctx : kmod_ctx) (name : List Nat) (recs : List (List Nat))
    (hnf : NulFree recs) (hname : 0 ∉ name)
    (hnew : kmod_builtin_iter_new ctx = .ok (.ok ⟨encode recs, 0, 0⟩)) :
    ∃ ret blk, kmod_builtin_get_modinfo ctx name = .ok (ret, blk) ∧
      (ret = -(ENODATA : Int) ↔ ∃ r ∈ scannedByLookup name recs, 46 ∉ r) ∧
      (ret = -(ENODATA : Int) → blk = none) := by
  have hspec := get_modinfo_spec ctx name recs ⟨encode recs, 0, 0⟩ hnf hname hnew rfl
  have hiff := blocked_lookupRest_iff name recs
  by_cases hb : blocked (lookupRest name recs) = true
  · rw [if_pos hb] at hspec
    exact ⟨_, _, hspec, ⟨fun _ => hiff.mp hb, fun _ => rfl⟩, fun _ => rfl⟩
  · rw [if_neg hb] at hspec
    have hno : ¬ ∃ r ∈ scannedByLookup name recs, 46 ∉ r := fun h => hb (hiff.mpr h)
    by_cases he : (lookupRun name recs).isEmpty = true
    · rw [if_pos he] at hspec
      refine ⟨_, _, hspec, ⟨fun h => ?_, fun h => absurd h hno⟩, fun _ => rfl⟩
      simp [ENOSYS, ENODATA] at h
    · rw [if_neg he] at hspec
      by_cases hm : ctx.malloc_ok ((valueBytes (lookupRun name recs)).length +
          sizeof_ptr * ((lookupRun name recs).length + 1)) = false
      · rw [if_pos hm] at hspec
        refine ⟨_, _, hspec, ⟨fun h => ?_, fun h => absurd h hno⟩, fun _ => rfl⟩
        simp [ENOMEM, ENODATA] at h
      · rw [if_neg hm] at hspec
        refine ⟨_, _, hspec, ⟨fun h => ?_, fun h => absurd h hno⟩, fun h => ?_⟩
        · simp [ENODATA] at h
        · simp [ENODATA] at h

set_option maxRecDepth 100000 in
/-- Witness of C5: in the file `a.b`, `xyz` the record after the run of `a` has no
`'.'` and the lookup of `a` returns `-ENODATA`; in the file `xyz`, `a.b` the record
before the run has no `'.'` and the lookup of `a` returns `-ENODATA` as well. -/
theorem lookup_enodata_iff_witness :
    kmod_builtin_get_modinfo (example_ctx (encode [[97, 46, 98], [120, 121, 122]])) [97] =
      .ok (-(ENODATA : Int), none) ∧
    kmod_builtin_get_modinfo (example_ctx (encode [[120, 121, 122], [97, 46, 98]])) [97] =
      .ok (-(ENODATA : Int), none) ∧
    ∃ ret blk,
      kmod_builtin_get_modinfo (example_ctx (encode [[97, 46, 98], [120, 121, 122]])) [97] =
        .ok (ret, blk) ∧
      (ret = -(ENODATA : Int) ↔
        ∃ r ∈ scannedByLookup [97] [[97, 46, 98], [120, 121, 122]], 46 ∉ r) ∧
      (ret = -(ENODATA : Int) → blk = none) :=
  ⟨by decide, by decide,
    lookup_enodata_iff (example_ctx (encode [[97, 46, 98], [120, 121, 122]])) [97]
      [[97, 46, 98], [120, 121, 122]] (by decide) (by decide) rfl⟩

/-! ## The lookup and the iterator on the same module -/

theorem takeWhile_record (r x : List Nat) (h : 0 ∉ r) :
    (r ++ 0 :: x).takeWhile (· ≠ 0) = r := by
  induction r with
  | nil => simp
  | cons b r ih =>
    have hb : b ≠ 0 := fun e => h (by simp [e])
    have hr : 0 ∉ r := fun e => h (by simp [e])
    have := ih hr
    simp only [List.cons_append, List.takeWhile_cons, hb, ne_eq, not_false_eq_true, decide_True,
      if_true, this]

theorem strings_at_encode (mm : List Nat) :
    ∀ (G : List (List Nat)) (t : List Nat) (p : Nat), NulFree G → mm.drop p = encode G ++ t →
      strings_at mm G.length p = G := by
  intro G
  induction G with
  | nil => intro t p _ _; rfl
  | cons r G ih =>
    intro t p hnf hd
    have hd2 : mm.drop p = r ++ 0 :: (encode G ++ t) := by simpa [encode] using hd
    have htw : (mm.drop p).takeWhile (· ≠ 0) = r := by
      rw [hd2]; exact takeWhile_record r _ hnf.head
    have hnext := ih t (p + (r.length + 1)) hnf.tail (drop_record hd2)
    simp only [List.length_cons, strings_at, htw]
    rw [Nat.add_assoc, hnext]

theorem group_names_mem (B : List (List Nat)) :
    ∀ (mm : List Nat) (p : Nat), WellFormed B → mm.drop p = encode B →
      (∀ r ∈ B, ∃ off cnt, (some off, cnt) ∈ refPairs p (refGroups B) ∧
        name_at mm off = prefixOf r) ∧
      (∀ off cnt, (some off, cnt) ∈ refPairs p (refGroups B) →
        ∃ r ∈ B, name_at mm off = prefixOf r) := by
  refine group_induction (fun B => ∀ (mm : List Nat) (p : Nat), WellFormed B →
      mm.drop p = encode B →
      (∀ r ∈ B, ∃ off cnt, (some off, cnt) ∈ refPairs p (refGroups B) ∧
        name_at mm off = prefixOf r) ∧
      (∀ off cnt, (some off, cnt) ∈ refPairs p (refGroups B) →
        ∃ r ∈ B, name_at mm off = prefixOf r)) ?_ ?_ B
  · intro mm p _ _
    simp [refGroups, refPairs]
  · intro r rs ih mm p hwf hd
    have hdot : 46 ∈ r := (hwf r (by simp)).2
    have hwa : WellFormed (rs.dropWhile (samePrefix r)) := hwf.rest.dropWhile _
    have hsplit : encode (r :: rs) =
        encode (r :: rs.takeWhile (samePrefix r)) ++ encode (rs.dropWhile (samePrefix r)) := by
      rw [← encode_append, List.cons_append, List.takeWhile_append_dropWhile]
    have hdrop : mm.drop (p + (encode (r :: rs.takeWhile (samePrefix r))).length) =
        encode (rs.dropWhile (samePrefix r)) := by
      rw [← List.drop_drop, hd, hsplit, List.drop_left]
    obtain ⟨ih1, ih2⟩ := ih mm (p + (encode (r :: rs.takeWhile (samePrefix r))).length) hwa hdrop
    have hname : name_at mm p = prefixOf r := by
      simp only [name_at, hd, encode]
      exact prefixOf_append_of_dot r _ hdot
    rw [refGroups_cons]
    simp only [refPairs]
    refine ⟨?_, ?_⟩
    · intro x hx
      rcases List.mem_cons.mp hx with e | e
      · exact ⟨p, _, List.mem_cons_self _ _, by rw [e]; exact hname⟩
      · rw [← List.takeWhile_append_dropWhile (samePrefix r) rs] at e
        rcases List.mem_append.mp e with e1 | e2
        · have := List.mem_takeWhile_imp e1
          simp only [samePrefix, decide_eq_true_eq] at this
          exact ⟨p, _, List.mem_cons_self _ _, by rw [this]; exact hname⟩
        · obtain ⟨off, cnt, hm, hn⟩ := ih1 x e2
          exact ⟨off, cnt, List.mem_cons_of_mem _ hm, hn⟩
    · intro off cnt hm
      rcases List.mem_cons.mp hm with e | e
      · have : off = p := by
          have := congrArg Prod.fst e
          simpa using this
        exact ⟨r, by simp, by rw [this]; exact hname⟩
      · obtain ⟨x, hx, hn⟩ := ih2 off cnt e
        exact ⟨x, List.mem_cons_of_mem _ ((List.dropWhile_sublist _).subset hx), hn⟩

theorem refPairs_named_entry (M : List Nat) (B : List (List Nat)) :
    ∀ (mm : List Nat) (p : Nat), WellFormed B → mm.drop p = encode B → ModContiguous M B →
      ∀ off cnt, (some off, cnt) ∈ refPairs p (refGroups B) → name_at mm off = M →
        cnt = ((firstRun M B).length : Int) ∧ firstRun M B ≠ [] ∧
        strings_at mm (firstRun M B).length off = firstRun M B := by
  refine group_induction (fun B => ∀ (mm : List Nat) (p : Nat), WellFormed B →
      mm.drop p = encode B → ModContiguous M B →
      ∀ off cnt, (some off, cnt) ∈ refPairs p (refGroups B) → name_at mm off = M →
        cnt = ((firstRun M B).length : Int) ∧ firstRun M B ≠ [] ∧
        strings_at mm (firstRun M B).length off = firstRun M B) ?_ ?_ B
  · intro mm p _ _ _ off cnt hm
    simp [refGroups, refPairs] at hm
  · intro r rs ih mm p hwf hd hc off cnt hm hn
    have hdot : 46 ∈ r := (hwf r (by simp)).2
    have hwa : WellFormed (rs.dropWhile (samePrefix r)) := hwf.rest.dropWhile _
    have hsplit : encode (r :: rs) =
        encode (r :: rs.takeWhile (samePrefix r)) ++ encode (rs.dropWhile (samePrefix r)) := by
      rw [← encode_append, List.cons_append, List.takeWhile_append_dropWhile]
    have hdrop : mm.drop (p + (encode (r :: rs.takeWhile (samePrefix r))).length) =
        encode (rs.dropWhile (samePrefix r)) := by
      rw [← List.drop_drop, hd, hsplit, List.drop_left]
    have hname : name_at mm p = prefixOf r := by
      simp only [name_at, hd, encode]
      exact prefixOf_append_of_dot r _ hdot
    rw [refGroups_cons] at hm
    simp only [refPairs, List.mem_cons] at hm
    by_cases hp : prefixOf r = M
    · have hsame : (fun x : List Nat => decide (prefixOf x = M)) = samePrefix r := by
        funext x; simp [samePrefix, hp]
      have hrr : samePrefix r r = true := by simp [samePrefix]
      have hfirst : firstRun M (r :: rs) = r :: rs.takeWhile (samePrefix r) := by
        simp only [firstRun, List.dropWhile_cons, hp, ne_eq, not_true_eq_false, decide_False,
          Bool.false_eq_true, if_false, List.takeWhile_cons, decide_True, if_true, hsame, hrr]
      rcases hm with e | e
      · have e1 : off = p := by
          have := congrArg Prod.fst e
          simpa using this
        have e2 : cnt = ((r :: rs.takeWhile (samePrefix r)).length : Int) := by
          have := congrArg Prod.snd e
          simpa using this
        rw [hfirst, e1]
        refine ⟨e2, by simp, ?_⟩
        exact strings_at_encode mm _ (encode (rs.dropWhile (samePrefix r))) p
          (fun x hx => (hwf x (by
            rcases List.mem_cons.mp hx with h | h
            · simp [h]
            · exact List.mem_cons_of_mem _ ((List.takeWhile_sublist _).subset h))).1)
          (by rw [hd, hsplit])
      · exfalso
        obtain ⟨x, hx, hxn⟩ := (group_names_mem (rs.dropWhile (samePrefix r)) mm
          (p + (encode (r :: rs.takeWhile (samePrefix r))).length) hwa hdrop).2 off cnt e
        have hxM : prefixOf x = M := by rw [← hxn, hn]
        apply hc x ?_ hxM
        simp only [List.dropWhile_cons, hp, ne_eq, not_true_eq_false, decide_False,
          Bool.false_eq_true, if_false, decide_True, if_true, hsame, hrr]
        exact hx
    · have hT : ∀ a ∈ rs.takeWhile (samePrefix r),
          (fun x : List Nat => decide (prefixOf x ≠ M)) a = true := by
        intro a ha
        have := List.mem_takeWhile_imp ha
        simp only [samePrefix, decide_eq_true_eq] at this
        simp [this, hp]
      have hdw : (r :: rs).dropWhile (fun x => decide (prefixOf x ≠ M)) =
          (rs.dropWhile (samePrefix r)).dropWhile (fun x => decide (prefixOf x ≠ M)) := by
        have h1 : (r :: rs).dropWhile (fun x => decide (prefixOf x ≠ M)) =
            rs.dropWhile (fun x => decide (prefixOf x ≠ M)) := by
          simp [List.dropWhile_cons, hp]
        rw [h1]
        conv_lhs => rw [← List.takeWhile_append_dropWhile (samePrefix r) rs]
        rw [List.dropWhile_append_of_pos hT]
      have hfirst : firstRun M (r :: rs) = firstRun M (rs.dropWhile (samePrefix r)) := by
        simp only [firstRun, hdw]
      have hc2 : ModContiguous M (rs.dropWhile (samePrefix r)) := by
        intro x hx
        apply hc x
        rw [hdw]; exact hx
      rcases hm with e | e
      · exfalso
        have e1 : off = p := by
          have := congrArg Prod.fst e
          simpa using this
        rw [e1, hname] at hn
        exact hp hn
      · rw [hfirst]
        exact ih mm _ hwa hdrop hc2 off cnt e hn

/-- C3: on a well-formed buffer in which the records of the module `M` are
contiguous, the lookup of `M` and the iterator agree: for the group named `M` handed
out by the enumeration (there is one when `M` is the prefix of a record), the lookup
returns the count of that group, and its value strings are the records of that
group, read from the extracted pointer, without their `M.` prefix, in the same
order. -/
theorem lookup_agrees_with_iterator (ctx : kmod_ctx) (M : List Nat) (recs : List (List Nat))
    (hwf : WellFormed recs) (hM : 0 ∉ M) (hc : ModContiguous M recs)
    (hnew : kmod_builtin_iter_new ctx = .ok (.ok ⟨encode recs, 0, 0⟩))
    (hmalloc : ∀ n, ctx.malloc_ok n = true) :
    ∃ out fin, enumerate ⟨encode recs, 0, 0⟩ = .ok (out, fin) ∧
      ((∃ r ∈ recs, prefixOf r = M) →
        ∃ off cnt, (some off, cnt) ∈ out ∧ name_at (encode recs) off = M) ∧
      ∀ off cnt, (some off, cnt) ∈ out → name_at (encode recs) off = M →
        ∃ b, kmod_builtin_get_modinfo ctx M = .ok (cnt, some b) ∧
          b.values cnt.toNat =
            (strings_at (encode recs) cnt.toNat off).map
              (fun s => some (s.drop (M.length + 1))) := by
  have h := enumerate_loop_wellFormed ((encode recs).length + 1) recs (encode recs) 0 hwf
    (by simp) (by have := length_le_encode recs; omega)
  refine ⟨_, _, h, ?_, ?_⟩
  · rintro ⟨r, hr, hp⟩
    obtain ⟨off, cnt, hm, hn⟩ := (group_names_mem recs (encode recs) 0 hwf (by simp)).1 r hr
    exact ⟨off, cnt, hm, by rw [hn, hp]⟩
  · intro off cnt hm hn
    obtain ⟨hcnt, hne, hstr⟩ := refPairs_named_entry M recs (encode recs) 0 hwf (by simp) hc
      off cnt hm hn
    have hspec := get_modinfo_spec ctx M recs ⟨encode recs, 0, 0⟩ hwf.nulFree hM hnew rfl
    obtain ⟨hrun, hnb⟩ := lookupRun_wellFormed M recs hwf
    have hval := block_values_run M recs hwf.nulFree
      ((valueBytes (lookupRun M recs)).length + sizeof_ptr * ((lookupRun M recs).length + 1))
    rw [hrun] at hspec hval
    have he : ¬ (firstRun M recs).isEmpty = true := by
      intro h0; exact hne (List.isEmpty_iff.mp h0)
    have hm2 : ¬ ctx.malloc_ok ((valueBytes (firstRun M recs)).length +
        sizeof_ptr * ((firstRun M recs).length + 1)) = false := by
      rw [hmalloc]; simp
    rw [hnb] at hspec
    rw [if_neg (by simp), if_neg he, if_neg hm2] at hspec
    refine ⟨_, by rw [hspec, hcnt], ?_⟩
    rw [hcnt]
    simp only [Int.toNat_ofNat]
    rw [hval, hstr]

set_option maxRecDepth 100000 in
/-- Witness of C3 on the example file and the module `foo`. -/
theorem lookup_agrees_with_iterator_witness :
    ∃ out fin, enumerate ⟨encode example_records, 0, 0⟩ = .ok (out, fin) ∧
      ((∃ r ∈ example_records, prefixOf r = [102, 111, 111]) →
        ∃ off cnt, (some off, cnt) ∈ out ∧
          name_at (encode example_records) off = [102, 111, 111]) ∧
      ∀ off cnt, (some off, cnt) ∈ out →
        name_at (encode example_records) off = [102, 111, 111] →
        ∃ b, kmod_builtin_get_modinfo (example_ctx (encode example_records)) [102, 111, 111] =
            .ok (cnt, some b) ∧
          b.values cnt.toNat =
            (strings_at (encode example_records) cnt.toNat off).map
              (fun s => some (s.drop (([102, 111, 111] : List Nat).length + 1))) :=
  lookup_agrees_with_iterator (example_ctx (encode example_records)) [102, 111, 111]
    example_records (by decide) (by decide) (by decide) rfl (fun _ => rfl)

/-! ## Extraction without a pending group, and repeated extraction -/

theorem get_strings_idle (mm : List Nat) (p : Nat) (s : Option Nat) :
    kmod_builtin_iter_get_strings ⟨mm, p, p⟩ s = .ok (0, none, ⟨mm, p, p⟩) := by
  simp [kmod_builtin_iter_get_strings, get_strings_loop]

theorem extract_after_advance (A B : List (List Nat)) (it' : kmod_builtin_iter)
    (strings : Option Nat) (hB : NulFree B)
    (h : kmod_builtin_iter_next ⟨encode (A ++ B), (encode A).length, (encode A).length⟩ =
      .ok (true, it')) :
    1 ≤ (headGroup B).length ∧
      it' = ⟨encode (A ++ B), (encode A).length,
        (encode A).length + (encode (headGroup B)).length⟩ ∧
      kmod_builtin_iter_get_strings it' strings =
        .ok (((headGroup B).length : Int), some (encode A).length,
          ⟨encode (A ++ B), (encode A).length + (encode (headGroup B)).length,
            (encode A).length + (encode (headGroup B)).length⟩) := by
  obtain ⟨⟨r0, rs, hBe, hdot⟩, hnb, hit⟩ :=
    iter_next_true_inv ⟨encode (A ++ B), (encode A).length, (encode A).length⟩ hB
      (drop_encode_append A B) h
  have hdrop : (encode (A ++ B)).drop (encode A).length =
      encode (headGroup B) ++ encode (afterGroup B) := by
    rw [drop_encode_append, ← encode_append, headGroup_append_afterGroup]
  have hne : headGroup B ≠ [] := by
    rw [hBe, (headGroup_of_dot rs hdot).1]; simp
  have hpos : 1 ≤ (headGroup B).length := by
    cases hg : headGroup B with
    | nil => exact absurd hg hne
    | cons x xs => simp
  refine ⟨hpos, hit, ?_⟩
  have hspec := get_strings_spec it' strings (headGroup B) (encode (afterGroup B)) hB.headGroup
    (by rw [hit]; exact hdrop) (by rw [hit])
  rw [hspec, (headGroup_headGroup B).1, (headGroup_headGroup B).2]
  have hemp : (headGroup B).isEmpty = false := by
    cases hg : headGroup B with
    | nil => exact absurd hg hne
    | cons x xs => rfl
  simp only [blocked, hemp]
  rw [hit]
  simp

/-- C19: when `kmod_builtin_iter_get_strings` is called with `pos = next`, on any
buffer, it returns the count 0, stores a null pointer and leaves `pos` and `next` as
they were.  So after one advance on a NUL-terminated buffer the first extraction
returns the group (count at least one, pointer to `pos`), and a second extraction
right after it returns count 0 and the null pointer. -/
theorem get_strings_no_pending (A B : List (List Nat)) (it' : kmod_builtin_iter)
    (s1 s2 : Option Nat) (hB : NulFree B)
    (h : kmod_builtin_iter_next ⟨encode (A ++ B), (encode A).length, (encode A).length⟩ =
      .ok (true, it')) :
    (∀ (mm : List Nat) (p : Nat) (s : Option Nat),
      kmod_builtin_iter_get_strings ⟨mm, p, p⟩ s = .ok (0, none, ⟨mm, p, p⟩)) ∧
    ∃ c it1, kmod_builtin_iter_get_strings it' s1 = .ok (c, some (encode A).length, it1) ∧
      1 ≤ c ∧ kmod_builtin_iter_get_strings it1 s2 = .ok (0, none, it1) := by
  refine ⟨get_strings_idle, ?_⟩
  obtain ⟨hpos, _, hget⟩ := extract_after_advance A B it' s1 hB h
  refine ⟨_, _, hget, by exact_mod_cast hpos, get_strings_idle _ _ _⟩

set_option maxRecDepth 100000 in
/-- Witness of C19 on the example file: after the first advance the extraction
returns the count 2 and the next one returns 0. -/
theorem get_strings_no_pending_witness :
    (∀ (mm : List Nat) (p : Nat) (s : Option Nat),
      kmod_builtin_iter_get_strings ⟨mm, p, p⟩ s = .ok (0, none, ⟨mm, p, p⟩)) ∧
    ∃ c it1, kmod_builtin_iter_get_strings ⟨encode example_records, 0, 29⟩ none =
        .ok (c, some (encode []).length, it1) ∧
      1 ≤ c ∧ kmod_builtin_iter_get_strings it1 none = .ok (0, none, it1) :=
  get_strings_no_pending [] example_records ⟨encode example_records, 0, 29⟩ none none
    (by decide) (by decide)

/-! ## Determinism of the extraction -/

/-- C13: the extraction is a function of the buffer and of `pos` and `next` only.
When a call returns, it has changed nothing but `pos`; run again on the same buffer
with the same `pos` and `next`, whatever the caller's `*strings` was, it returns the
same count and the same iterator, and, when the count is not the error `-1`, stores
the same pointer (hence designates the same records). -/
theorem get_strings_deterministic (iter : kmod_builtin_iter) (s1 s2 : Option Nat) (c : Int)
    (p : Option Nat) (it1 : kmod_builtin_iter)
    (h : kmod_builtin_iter_get_strings iter s1 = .ok (c, p, it1)) :
    it1.file = iter.file ∧ it1.next = iter.next ∧
    ∃ p2, kmod_builtin_iter_get_strings { it1 with pos := iter.pos } s2 = .ok (c, p2, it1) ∧
      (c ≠ -1 → p2 = p ∧
        strings_at it1.file c.toNat (p2.getD 0) = strings_at iter.file c.toNat (p.getD 0)) := by
  cases iter with
  | mk file pos next =>
    unfold kmod_builtin_iter_get_strings at h
    obtain ⟨r, hr, h⟩ := Outcome.bind_eq_ok h
    cases r with
    | none =>
      simp only [Outcome.ok.injEq, Prod.mk.injEq] at h
      obtain ⟨hc, _, hit⟩ := h
      subst hit
      refine ⟨rfl, rfl, s2, ?_, fun hne => absurd hc.symm hne⟩
      simp only [kmod_builtin_iter_get_strings]
      simp only at hr
      rw [hr, ← hc]
      rfl
    | some v =>
      obtain ⟨start, count⟩ := v
      simp only [Outcome.ok.injEq, Prod.mk.injEq] at h
      obtain ⟨hc, hp, hit⟩ := h
      subst hit
      refine ⟨rfl, rfl, p, ?_, fun _ => ⟨rfl, rfl⟩⟩
      simp only [kmod_builtin_iter_get_strings]
      simp only at hr
      rw [hr, ← hc, ← hp]
      rfl

set_option maxRecDepth 100000 in
/-- Witness of C13 on the example file with `pos = 0` and `next = 29`. -/
theorem get_strings_deterministic_witness :
    (⟨encode example_records, 29, 29⟩ : kmod_builtin_iter).file =
      (⟨encode example_records, 0, 29⟩ : kmod_builtin_iter).file ∧
    (⟨encode example_records, 29, 29⟩ : kmod_builtin_iter).next =
      (⟨encode example_records, 0, 29⟩ : kmod_builtin_iter).next ∧
    ∃ p2, kmod_builtin_iter_get_strings
        { (⟨encode example_records, 29, 29⟩ : kmod_builtin_iter) with
          pos := (⟨encode example_records, 0, 29⟩ : kmod_builtin_iter).pos } (some 7) =
        .ok (2, p2, ⟨encode example_records, 29, 29⟩) ∧
      ((2 : Int) ≠ -1 → p2 = some 0 ∧
        strings_at (⟨encode example_records, 29, 29⟩ : kmod_builtin_iter).file
            (2 : Int).toNat (p2.getD 0) =
          strings_at (⟨encode example_records, 0, 29⟩ : kmod_builtin_iter).file
            (2 : Int).toNat ((some 0 : Option Nat).getD 0)) :=
  get_strings_deterministic ⟨encode example_records, 0, 29⟩ none (some 7) 2 (some 0)
    ⟨encode example_records, 29, 29⟩ (by decide)

/-! ## Lookup of a name that contains a dot -/

theorem lookupRun_dotted (name : List Nat) (recs : List (List Nat)) (hdot : 46 ∈ name) :
    lookupRun name recs = [] := by
  have hfalse : ∀ r, inGroup name r = false := by
    intro r
    have : ¬ prefixOf r = name := fun e => prefixOf_nodot r (e ▸ hdot)
    simp [inGroup, this]
  unfold lookupRun
  cases recs.dropWhile (skipped name) with
  | nil => rfl
  | cons r rs => simp [List.takeWhile_cons, hfalse r]

/-- C20: on a NUL-terminated buffer, the lookup of a module name that contains a
`'.'` never succeeds: it returns `-ENOSYS` or `-ENODATA`, and stores no block. -/
theorem lookup_dotted_name (ctx : kmod_ctx) (name : List Nat) (recs : List (List Nat))
    (hnf : NulFree recs) (hname : 0 ∉ name) (hdot : 46 ∈ name)
    (hnew : kmod_builtin_iter_new ctx = .ok (.ok ⟨encode recs, 0, 0⟩)) :
    kmod_builtin_get_modinfo ctx name = .ok (-(ENOSYS : Int), none) ∨
    kmod_builtin_get_modinfo ctx name = .ok (-(ENODATA : Int), none) := by
  have hspec := get_modinfo_spec ctx name recs ⟨encode recs, 0, 0⟩ hnf hname hnew rfl
  rw [lookupRun_dotted name recs hdot] at hspec
  by_cases hb : blocked (lookupRest name recs) = true
  · rw [if_pos hb] at hspec
    exact Or.inr hspec
  · rw [if_neg hb] at hspec
    exact Or.inl (by simpa using hspec)

set_option maxRecDepth 100000 in
/-- Witness of C20: the lookup of `foo.license` in the example file returns
`-ENOSYS`. -/
theorem lookup_dotted_name_witness :
    kmod_builtin_get_modinfo (example_ctx (encode example_records))
        [102, 111, 111, 46, 108, 105, 99, 101, 110, 115, 101] = .ok (-(ENOSYS : Int), none) ∧
    (kmod_builtin_get_modinfo (example_ctx (encode example_records))
        [102, 111, 111, 46, 108, 105, 99, 101, 110, 115, 101] = .ok (-(ENOSYS : Int), none) ∨
      kmod_builtin_get_modinfo (example_ctx (encode example_records))
        [102, 111, 111, 46, 108, 105, 99, 101, 110, 115, 101] = .ok (-(ENODATA : Int), none)) :=
  ⟨by decide,
    lookup_dotted_name (example_ctx (encode example_records))
      [102, 111, 111, 46, 108, 105, 99, 101, 110, 115, 101] example_records
      (by decide) (by decide) (by decide) rfl⟩

/-! ## The path check of kmod_builtin_iter_new -/

theorem strlen_name : strlen (MODULES_BUILTIN_MODINFO ++ [0]) = .ok 23 :=
  strlen_record MODULES_BUILTIN_MODINFO [] (by decide)

theorem iter_new_spec (ctx : kmod_ctx) (hdir : 0 ∉ ctx.dirname) :
    kmod_builtin_iter_new ctx =
      if ctx.dirname.length + 1 + 23 + 1 ≥ PATH_MAX then .ok (.error ENAMETOOLONG)
      else
        match ctx.file_open (ctx.dirname ++ 47 :: MODULES_BUILTIN_MODINFO) with
        | .error e => .ok (.error e)
        | .ok mm =>
          if ctx.malloc_ok sizeof_iter then .ok (.ok { file := mm, pos := 0, next := 0 })
          else .ok (.error ENOMEM) := by
  have hlen : strlen (ctx.dirname ++ [0]) = .ok ctx.dirname.length :=
    strlen_record ctx.dirname [] hdir
  unfold kmod_builtin_iter_new
  rw [hlen, strlen_name]
  simp only [Outcome.bind_ok]
  by_cases hc : ctx.dirname.length + 1 + 23 + 1 ≥ PATH_MAX
  · rw [if_pos hc, if_pos hc]
  · rw [if_neg hc, if_neg hc]
    have hfit : (ctx.dirname ++ 47 :: MODULES_BUILTIN_MODINFO).length ≤ PATH_MAX - 1 := by
      simp only [List.length_append, List.length_cons, MODULES_BUILTIN_MODINFO, List.length_nil,
        PATH_MAX] at hc ⊢
      omega
    rw [List.take_length, List.take_of_length_le hfit]

/-- C16, counterexample: for a directory name of 4071 characters the path
`<dir>/modules.builtin.modinfo` has 4095 characters and fits, with its NUL, in
`PATH_MAX = 4096` bytes, yet `kmod_builtin_iter_new` fails with `ENAMETOOLONG`. -/
theorem iter_new_rejects_exact_fit :
    long_dir_ctx.dirname.length + 1 + MODULES_BUILTIN_MODINFO.length + 1 ≤ PATH_MAX ∧
    kmod_builtin_iter_new long_dir_ctx = .ok (.error ENAMETOOLONG) := by
  have hd : long_dir_ctx.dirname = List.replicate 4071 97 := rfl
  have hl : long_dir_ctx.dirname.length = 4071 := by
    rw [hd]; exact List.length_replicate _ _
  have hdir : 0 ∉ long_dir_ctx.dirname := by
    intro h
    rw [hd] at h
    have := List.eq_of_mem_replicate h
    omega
  have hn : MODULES_BUILTIN_MODINFO.length = 23 := rfl
  refine ⟨by rw [hl, hn]; unfold PATH_MAX; omega, ?_⟩
  rw [iter_new_spec long_dir_ctx hdir, if_pos (by rw [hl]; unfold PATH_MAX; omega)]

/-- C16, amended: `kmod_builtin_iter_new` fails with `ENAMETOOLONG`, whatever opening
the file would give, exactly when `strlen(dir) + 1 + 23 + 1 >= PATH_MAX`, which
includes every path longer than `PATH_MAX`; when `strlen(dir) + 1 + 23 + 1 <
PATH_MAX` the check passes, the file is opened under the whole path
`<dir>/modules.builtin.modinfo`, which with its NUL takes less than `PATH_MAX` bytes,
and the result is the error of the opening, `ENOMEM`, or the new iterator with
`pos = next = 0`. -/
theorem iter_new_path_check (ctx : kmod_ctx) (hdir : 0 ∉ ctx.dirname) :
    (ctx.dirname.length + 1 + 23 + 1 ≥ PATH_MAX →
      kmod_builtin_iter_new ctx = .ok (.error ENAMETOOLONG)) ∧
    (ctx.dirname.length + 1 + 23 + 1 < PATH_MAX →
      (ctx.dirname ++ 47 :: MODULES_BUILTIN_MODINFO).length + 1 < PATH_MAX ∧
      kmod_builtin_iter_new ctx =
        match ctx.file_open (ctx.dirname ++ 47 :: MODULES_BUILTIN_MODINFO) with
        | .error e => .ok (.error e)
        | .ok mm =>
          if ctx.malloc_ok sizeof_iter then .ok (.ok { file := mm, pos := 0, next := 0 })
          else .ok (.error ENOMEM)) := by
  have hspec := iter_new_spec ctx hdir
  refine ⟨fun hc => ?_, fun hc => ⟨?_, ?_⟩⟩
  · rw [hspec, if_pos hc]
  · simp only [List.length_append, List.length_cons, MODULES_BUILTIN_MODINFO, List.length_nil]
    omega
  · rw [hspec, if_neg (by omega)]

/-- Witness of the amended C16 on the example context, whose directory is `/lib`. -/
theorem iter_new_path_check_witness :
    ((example_ctx []).dirname.length + 1 + 23 + 1 ≥ PATH_MAX →
      kmod_builtin_iter_new (example_ctx []) = .ok (.error ENAMETOOLONG)) ∧
    ((example_ctx []).dirname.length + 1 + 23 + 1 < PATH_MAX →
      ((example_ctx []).dirname ++ 47 :: MODULES_BUILTIN_MODINFO).length + 1 < PATH_MAX ∧
      kmod_builtin_iter_new (example_ctx []) =
        match (example_ctx []).file_open
          ((example_ctx []).dirname ++ 47 :: MODULES_BUILTIN_MODINFO) with
        | .error e => .ok (.error e)
        | .ok mm =>
          if (example_ctx []).malloc_ok sizeof_iter then
            .ok (.ok { file := mm, pos := 0, next := 0 })
          else .ok (.error ENOMEM)) :=
  iter_new_path_check (example_ctx []) (by decide)

/-! ## Iterator states on a NUL-terminated buffer -/

theorem headGroup_dots (B : List (List Nat)) : ∀ r ∈ headGroup B, 46 ∈ r := by
  intro r hr
  cases B with
  | nil => simp [headGroup] at hr
  | cons b bs =>
    have := List.mem_takeWhile_imp (by simpa [headGroup] using hr)
    simp only [inGroup, Bool.and_eq_true, decide_eq_true_eq] at this
    exact this.1

theorem encode_length_ge_two {G : List (List Nat)} (hne : G ≠ []) (hdot : ∀ r ∈ G, 46 ∈ r) :
    2 ≤ (encode G).length := by
  cases G with
  | nil => exact absurd rfl hne
  | cons r rs =>
    have h46 : 46 ∈ r := hdot r (by simp)
    have : 1 ≤ r.length := List.length_pos_of_mem h46
    simp [encode]
    omega

theorem iter_next_false_same {it it2 : kmod_builtin_iter}
    (h : kmod_builtin_iter_next it = .ok (false, it2)) : it2 = it := by
  unfold kmod_builtin_iter_next at h
  obtain ⟨r, _, h⟩ := Outcome.bind_eq_ok h
  split at h
  · simp only [Outcome.ok.injEq, Prod.mk.injEq] at h; exact h.2.symm
  · simp only [Outcome.ok.injEq, Prod.mk.injEq] at h; exact h.2.symm
  · simp at h

theorem get_strings_keeps {it it2 : kmod_builtin_iter} {s p : Option Nat} {c : Int}
    (h : kmod_builtin_iter_get_strings it s = .ok (c, p, it2)) :
    it2.file = it.file ∧ it2.next = it.next ∧ (it2.pos = it.pos ∨ it2.pos = it.next) := by
  unfold kmod_builtin_iter_get_strings at h
  obtain ⟨r, _, h⟩ := Outcome.bind_eq_ok h
  cases r with
  | none =>
    simp only [Outcome.ok.injEq, Prod.mk.injEq] at h
    rw [← h.2.2]; exact ⟨rfl, rfl, Or.inl rfl⟩
  | some v =>
    simp only [Outcome.ok.injEq, Prod.mk.injEq] at h
    rw [← h.2.2]; exact ⟨rfl, rfl, Or.inr rfl⟩

theorem pending_init (recs : List (List Nat)) : Pending recs ⟨encode recs, 0, 0⟩ :=
  ⟨rfl, [], [], recs, by simp, by simp [encode], by simp [encode], by simp⟩

theorem pending_next {recs : List (List Nat)} {it it2 : kmod_builtin_iter} {b : Bool}
    (hnf : NulFree recs) (hp : Pending recs it)
    (h : kmod_builtin_iter_next it = .ok (b, it2)) :
    Pending recs it2 ∧ it2.pos = it.pos ∧
      (b = false → it2 = it) ∧ (b = true → it.next + 2 ≤ it2.next) := by
  obtain ⟨hfile, A, G, C, hrecs, hpos, hnext, hdots⟩ := hp
  have hC : NulFree C := fun x hx => hnf x (by rw [hrecs]; simp [hx])
  have hdrop : it.file.drop it.next = encode C := by
    rw [hfile, hnext, hrecs]; exact drop_encode_append (A ++ G) C
  cases b with
  | false =>
    have := iter_next_false_same h
    subst this
    exact ⟨⟨hfile, A, G, C, hrecs, hpos, hnext, hdots⟩, rfl, fun _ => rfl, fun hb => by simp at hb⟩
  | true =>
    obtain ⟨⟨r0, rs, hCe, hdot⟩, _, hit⟩ := iter_next_true_inv it hC hdrop h
    have hne : headGroup C ≠ [] := by
      rw [hCe, (headGroup_of_dot rs hdot).1]; simp
    have h2 := encode_length_ge_two hne (headGroup_dots C)
    subst hit
    refine ⟨⟨hfile, A, G ++ headGroup C, afterGroup C, ?_, hpos, ?_, ?_⟩, rfl,
      fun hb => by simp at hb, fun _ => ?_⟩
    · rw [hrecs]
      conv_lhs => rw [← headGroup_append_afterGroup C]
      simp
    · show it.next + (encode (headGroup C)).length = _
      rw [hnext, ← List.append_assoc, encode_append (A ++ G), List.length_append]
    · intro r hr
      rcases List.mem_append.mp hr with h1 | h1
      · exact hdots r h1
      · exact headGroup_dots C r h1
    · show it.next + 2 ≤ it.next + (encode (headGroup C)).length
      omega

theorem pending_extract {recs : List (List Nat)} {it : kmod_builtin_iter}
    (hnf : NulFree recs) (hp : Pending recs it) (s : Option Nat) :
    Pending recs { it with pos := it.next } ∧ it.pos ≤ it.next ∧
    ∃ c p, kmod_builtin_iter_get_strings it s = .ok (c, p, { it with pos := it.next }) ∧
      0 ≤ c ∧ (p = none ∨ p = some it.pos) ∧
      ∃ G, NulFree G ∧ (∀ r ∈ G, 46 ∈ r) ∧
        (it.file.drop it.pos).take (it.next - it.pos) = encode G := by
  obtain ⟨hfile, A, G, C, hrecs, hpos, hnext, hdots⟩ := hp
  have hG : NulFree G := fun x hx => hnf x (by rw [hrecs]; simp [hx])
  have hdrop : it.file.drop it.pos = encode G ++ encode C := by
    rw [hfile, hpos, hrecs, List.append_assoc, drop_encode_append, encode_append]
  have hn : it.next = it.pos + (encode G).length := by
    rw [hnext, hpos, encode_append, List.length_append]
  have hspec := get_strings_spec it s G (encode C) hG hdrop hn
  have hnb : blocked (afterGroup G) = false := by
    apply unblocked_of_dots
    intro r hr
    apply hdots r
    rw [← headGroup_append_afterGroup G]
    exact List.mem_append_right _ hr
  rw [hnb] at hspec
  simp only [Bool.false_eq_true, if_false] at hspec
  refine ⟨⟨hfile, A ++ G, [], C, by simp [hrecs], hnext, by simp [hnext], by simp⟩,
    by omega, _, _, hspec, by simp, ?_, G, hG, hdots, ?_⟩
  · cases G with
    | nil => left; rfl
    | cons g gs => right; rfl
  · rw [hdrop, hn]
    simp

theorem calls_pending {recs : List (List Nat)} (hnf : NulFree recs) {it it2 : kmod_builtin_iter}
    {k : Nat} (hc : Calls it k it2) (hp : Pending recs it) :
    Pending recs it2 ∧ it.pos ≤ it2.pos ∧ it.next + 2 * k ≤ it2.next := by
  induction hc with
  | done => exact ⟨hp, Nat.le_refl _, by omega⟩
  | advance _ hstep ih =>
    obtain ⟨ihp, ihpos, ihnext⟩ := ih
    obtain ⟨hp2, hpos2, _, hadv⟩ := pending_next hnf ihp hstep
    have := hadv rfl
    exact ⟨hp2, by omega, by omega⟩
  | refuse _ hstep ih =>
    obtain ⟨ihp, ihpos, ihnext⟩ := ih
    have := iter_next_false_same hstep
    subst this
    exact ⟨ihp, ihpos, ihnext⟩
  | @extract it1 it3 _ s p c _ hstep ih =>
    obtain ⟨ihp, ihpos, ihnext⟩ := ih
    obtain ⟨hp2, hle, c2, p2, hget, _⟩ := pending_extract hnf ihp s
    rw [hget] at hstep
    have hit : it3 = { it1 with pos := it1.next } := by
      injection hstep with h1
      injection h1 with _ h2
      injection h2 with _ h3
      exact h3.symm
    subst hit
    exact ⟨hp2, by show it.pos ≤ it1.next; omega, ihnext⟩

theorem getElem_after_append (X Y : List Nat) : (X ++ 0 :: Y)[X.length]? = some 0 := by
  induction X with
  | nil => simp
  | cons a X ih => simpa using ih

theorem encode_ends_with_nul (A : List (List Nat)) (hne : A ≠ []) :
    ∃ X, encode A = X ++ [0] := by
  induction A with
  | nil => exact absurd rfl hne
  | cons r rs ih =>
    cases rs with
    | nil => exact ⟨r, by simp [encode]⟩
    | cons r2 rs2 =>
      obtain ⟨X, hX⟩ := ih (by simp)
      exact ⟨r ++ 0 :: X, by
        show r ++ 0 :: encode (r2 :: rs2) = _
        rw [hX]; simp⟩

theorem boundary_encode (A B : List (List Nat)) :
    is_boundary (encode (A ++ B)) (encode A).length := by
  cases A with
  | nil => left; rfl
  | cons r rs =>
    obtain ⟨X, hX⟩ := encode_ends_with_nul (r :: rs) (by simp)
    right
    rw [encode_append, hX]
    refine ⟨by simp, ?_⟩
    have e : (X ++ [0]).length - 1 = X.length := by simp
    have e2 : X ++ [0] ++ encode B = X ++ 0 :: encode B := by simp
    rw [e, e2]
    exact getElem_after_append X _

theorem pending_bounds {recs : List (List Nat)} {it : kmod_builtin_iter} (hp : Pending recs it) :
    it.pos ≤ it.next ∧ it.next ≤ it.file.length ∧
      is_boundary it.file it.pos ∧ is_boundary it.file it.next := by
  obtain ⟨hfile, A, G, C, hrecs, hpos, hnext, _⟩ := hp
  rw [hfile, hpos, hnext, hrecs]
  refine ⟨?_, ?_, ?_, ?_⟩
  · rw [encode_append]; simp
  · rw [encode_append (A ++ G)]; simp
  · rw [List.append_assoc]; exact boundary_encode A (G ++ C)
  · exact boundary_encode (A ++ G) C

theorem drop_encode_any (recs : List (List Nat)) (hnf : NulFree recs) :
    ∀ n, ∃ B, NulFree B ∧ (encode recs).drop n = encode B := by
  induction recs with
  | nil => intro n; exact ⟨[], by intro x hx; simp at hx, by simp [encode]⟩
  | cons r rs ih =>
    intro n
    by_cases hn : n ≤ r.length
    · refine ⟨r.drop n :: rs, ?_, ?_⟩
      · intro x hx
        rcases List.mem_cons.mp hx with e | e
        · rw [e]; exact fun h0 => hnf.head (List.mem_of_mem_drop h0)
        · exact hnf.tail x e
      · show List.drop n (r ++ 0 :: encode rs) = r.drop n ++ 0 :: encode rs
        rw [List.drop_append_of_le_length hn]
    · obtain ⟨B, hB, hd⟩ := ih hnf.tail (n - (r.length + 1))
      refine ⟨B, hB, ?_⟩
      generalize hm : n - (r.length + 1) = m at hd
      have hn2 : n = (r ++ [0]).length + m := by simp; omega
      have e2 : encode (r :: rs) = (r ++ [0]) ++ encode rs := by simp [encode]
      rw [e2, hn2, List.drop_append]
      exact hd

theorem headGroup_length_le (B : List (List Nat)) :
    (encode (headGroup B)).length ≤ (encode B).length := by
  have := congrArg (fun l => (encode l).length) (headGroup_append_afterGroup B)
  simp only [encode_append, List.length_append] at this
  omega

theorem iter_next_any_state (recs : List (List Nat)) (hnf : NulFree recs) (pos next : Nat) :
    ∃ b it', kmod_builtin_iter_next ⟨encode recs, pos, next⟩ = .ok (b, it') ∧
      it'.file = encode recs ∧ it'.pos = pos ∧ (b = false → it'.next = next) ∧
      (b = true → next + 2 ≤ it'.next ∧ it'.next ≤ (encode recs).length) := by
  obtain ⟨B, hB, hd⟩ := drop_encode_any recs hnf next
  have hspec := iter_next_spec ⟨encode recs, pos, next⟩ B hB hd
  by_cases hc : (B.isEmpty || blocked (afterGroup B)) = true
  · rw [if_pos hc] at hspec
    exact ⟨false, _, hspec, rfl, rfl, fun _ => rfl, fun h => by simp at h⟩
  · rw [if_neg hc] at hspec
    obtain ⟨⟨r0, rs, hBe, hdot⟩, _, _⟩ :=
      iter_next_true_inv ⟨encode recs, pos, next⟩ hB hd hspec
    have hne : headGroup B ≠ [] := by
      rw [hBe, (headGroup_of_dot rs hdot).1]; simp
    have h2 := encode_length_ge_two hne (headGroup_dots B)
    have h3 := headGroup_length_le B
    have h4 : next + (encode B).length = (encode recs).length := by
      have hlt : next < (encode recs).length := by
        by_contra hge
        have : (encode recs).drop next = [] := List.drop_eq_nil_of_le (by omega)
        rw [this, hBe] at hd
        simp [encode] at hd
      exact length_of_drop_encode (Nat.le_of_lt hlt) hd
    refine ⟨true, _, hspec, rfl, rfl, fun h => by simp at h, fun _ => ⟨?_, ?_⟩⟩
    · show next + 2 ≤ next + (encode (headGroup B)).length
      omega
    · show next + (encode (headGroup B)).length ≤ (encode recs).length
      omega

theorem calls_any_state {recs : List (List Nat)} (hnf : NulFree recs)
    {it it2 : kmod_builtin_iter} {k : Nat} (hc : Calls it k it2) (hfile : it.file = encode recs) :
    it2.file = encode recs ∧ it.next + 2 * k ≤ it2.next ∧
      (0 < k → it2.next ≤ (encode recs).length) := by
  induction hc with
  | done => exact ⟨hfile, by omega, fun h => by omega⟩
  | @advance it1 it3 k _ hstep ih =>
    obtain ⟨ihf, ihn, _⟩ := ih
    cases it1 with
    | mk f1 p1 n1 =>
      simp only at ihf ihn
      subst ihf
      obtain ⟨b, it', hn, hf', _, _, hadv⟩ := iter_next_any_state recs hnf p1 n1
      rw [hn] at hstep
      have hb : b = true := by injection hstep with h1; injection h1
      have hi : it' = it3 := by injection hstep with h1; injection h1
      subst hb hi
      obtain ⟨ha1, ha2⟩ := hadv rfl
      exact ⟨hf', by omega, fun _ => ha2⟩
  | refuse _ hstep ih =>
    have := iter_next_false_same hstep
    subst this
    exact ih
  | extract _ hstep ih =>
    obtain ⟨ihf, ihn, ihk⟩ := ih
    obtain ⟨h1, h2, _⟩ := get_strings_keeps hstep
    exact ⟨by rw [h1, ihf], by rw [h2]; exact ihn, fun hk => by rw [h2]; exact ihk hk⟩

theorem enumerate_loop_nulFree :
    ∀ (fuel : Nat) (B : List (List Nat)) (mm : List Nat) (p : Nat), NulFree B →
      mm.drop p = encode B → B.length < fuel →
      ∃ out fin, enumerate_loop fuel ⟨mm, p, p⟩ = .ok (out, fin) ∧ out.length ≤ B.length := by
  intro fuel
  induction fuel with
  | zero => intro B mm p _ _ hf; omega
  | succ f ih =>
    intro B mm p hnf hd hf
    have hnext := iter_next_spec ⟨mm, p, p⟩ B hnf hd
    by_cases hc : (B.isEmpty || blocked (afterGroup B)) = true
    · rw [if_pos hc] at hnext
      refine ⟨[], ⟨mm, p, p⟩, ?_, by simp⟩
      simp [enumerate_loop, hnext]
    · rw [if_neg hc] at hnext
      obtain ⟨⟨r0, rs, hBe, hdot⟩, _, _⟩ := iter_next_true_inv ⟨mm, p, p⟩ hnf hd hnext
      have hne : headGroup B ≠ [] := by
        rw [hBe, (headGroup_of_dot rs hdot).1]; simp
      have hsplit : mm.drop p = encode (headGroup B) ++ encode (afterGroup B) := by
        rw [hd, ← encode_append, headGroup_append_afterGroup]
      have hget := get_strings_spec ⟨mm, p, p + (encode (headGroup B)).length⟩ none
        (headGroup B) (encode (afterGroup B)) hnf.headGroup hsplit rfl
      rw [(headGroup_headGroup B).1, (headGroup_headGroup B).2] at hget
      simp only [blocked, Bool.false_eq_true, if_false] at hget
      have hdrop : mm.drop (p + (encode (headGroup B)).length) = encode (afterGroup B) := by
        rw [← List.drop_drop, hsplit, List.drop_left]
      have hlens : (headGroup B).length + (afterGroup B).length = B.length := by
        have := congrArg List.length (headGroup_append_afterGroup B)
        rw [List.length_append] at this
        exact this
      have hpos : 1 ≤ (headGroup B).length := by
        cases hg : headGroup B with
        | nil => exact absurd hg hne
        | cons x xs => simp
      obtain ⟨out, fin, hrec, hle⟩ := ih (afterGroup B) mm (p + (encode (headGroup B)).length)
        hnf.afterGroup hdrop (by omega)
      refine ⟨((if (headGroup B).isEmpty = true then none else some p),
        ((headGroup B).length : Int)) :: out, fin, ?_, by simp; omega⟩
      unfold enumerate_loop
      rw [hnext]
      simp only [Outcome.bind_ok]
      rw [hget]
      simp only [Outcome.bind_ok]
      rw [hrec]
      rfl

/-! ## Claims about the reachable iterator states -/

/-- C14: on a NUL-terminated buffer, in every iterator state reached from
`pos = next = 0` by calls of `kmod_builtin_iter_next` and
`kmod_builtin_iter_get_strings` in any order, the bytes `[pos, next)` are records that
all have a `'.'`, and `kmod_builtin_iter_get_strings` returns a count that is not
negative: it never returns `-1`. -/
theorem reachable_extract_never_fails (recs : List (List Nat)) (it : kmod_builtin_iter)
    (s : Option Nat) (hnf : NulFree recs) (hr : Reachable (encode recs) it) :
    (∃ c p it2, kmod_builtin_iter_get_strings it s = .ok (c, p, it2) ∧ c ≠ -1 ∧ 0 ≤ c) ∧
    ∃ G, NulFree G ∧ (∀ r ∈ G, 46 ∈ r) ∧
      (it.file.drop it.pos).take (it.next - it.pos) = encode G := by
  obtain ⟨k, hk⟩ := hr
  obtain ⟨hp, _, _⟩ := calls_pending hnf hk (pending_init recs)
  obtain ⟨_, _, c, p, hget, hc, _, hG⟩ := pending_extract hnf hp s
  exact ⟨⟨c, p, _, hget, by omega, hc⟩, hG⟩

set_option maxRecDepth 100000 in
/-- Witness of C14: on the example file the state reached by one advance is
`pos = 0`, `next = 29`, and the extraction there returns a count that is not `-1`. -/
theorem reachable_extract_never_fails_witness :
    (∃ c p it2, kmod_builtin_iter_get_strings ⟨encode example_records, 0, 29⟩ none =
        .ok (c, p, it2) ∧ c ≠ -1 ∧ 0 ≤ c) ∧
    ∃ G, NulFree G ∧ (∀ r ∈ G, 46 ∈ r) ∧
      ((⟨encode example_records, 0, 29⟩ : kmod_builtin_iter).file.drop
          (⟨encode example_records, 0, 29⟩ : kmod_builtin_iter).pos).take
        ((⟨encode example_records, 0, 29⟩ : kmod_builtin_iter).next -
          (⟨encode example_records, 0, 29⟩ : kmod_builtin_iter).pos) =
        encode G :=
  reachable_extract_never_fails example_records ⟨encode example_records, 0, 29⟩ none
    (by decide)
    ⟨1, Calls.advance (Calls.done _)
      (by decide : kmod_builtin_iter_next ⟨encode example_records, 0, 0⟩ =
        .ok (true, ⟨encode example_records, 0, 29⟩))⟩

/-- C17: on a NUL-terminated buffer, every iterator state reached from
`pos = next = 0` by calls of `kmod_builtin_iter_next` and
`kmod_builtin_iter_get_strings` has `pos <= next <= buffer size`, and `pos` and `next`
are record boundaries. -/
theorem reachable_bounds (recs : List (List Nat)) (it : kmod_builtin_iter)
    (hnf : NulFree recs) (hr : Reachable (encode recs) it) :
    it.file = encode recs ∧ it.pos ≤ it.next ∧ it.next ≤ (encode recs).length ∧
      is_boundary (encode recs) it.pos ∧ is_boundary (encode recs) it.next := by
  obtain ⟨k, hk⟩ := hr
  obtain ⟨hp, _, _⟩ := calls_pending hnf hk (pending_init recs)
  obtain ⟨h1, h2, h3, h4⟩ := pending_bounds hp
  rw [hp.1] at h2 h3 h4
  exact ⟨hp.1, h1, h2, h3, h4⟩

set_option maxRecDepth 100000 in
/-- Witness of C17: on the example file, an advance, an extraction and a second
advance lead to `pos = 29`, `next = 45`. -/
theorem reachable_bounds_witness :
    (⟨encode example_records, 29, 45⟩ : kmod_builtin_iter).file = encode example_records ∧
    (⟨encode example_records, 29, 45⟩ : kmod_builtin_iter).pos ≤
      (⟨encode example_records, 29, 45⟩ : kmod_builtin_iter).next ∧
    (⟨encode example_records, 29, 45⟩ : kmod_builtin_iter).next ≤
      (encode example_records).length ∧
    is_boundary (encode example_records)
      (⟨encode example_records, 29, 45⟩ : kmod_builtin_iter).pos ∧
    is_boundary (encode example_records)
      (⟨encode example_records, 29, 45⟩ : kmod_builtin_iter).next :=
  reachable_bounds example_records ⟨encode example_records, 29, 45⟩ (by decide)
    ⟨2, Calls.advance
      (Calls.extract
        (Calls.advance (Calls.done _)
          (by decide : kmod_builtin_iter_next ⟨encode example_records, 0, 0⟩ =
            .ok (true, ⟨encode example_records, 0, 29⟩)))
        (by decide : kmod_builtin_iter_get_strings ⟨encode example_records, 0, 29⟩ none =
          .ok (2, some 0, ⟨encode example_records, 29, 29⟩)))
      (by decide : kmod_builtin_iter_next ⟨encode example_records, 29, 29⟩ =
        .ok (true, ⟨encode example_records, 29, 45⟩))⟩

/-- C15: on a NUL-terminated buffer, in any state, `kmod_builtin_iter_next` returns,
and when it returns true `next` has grown by at least 2 and is at most the buffer
size; so in any sequence of calls started in any state, the number `k` of advances
that return true satisfies `next + 2 * k <= final next`, hence `k <= size - next`;
the enumeration from `pos = next = 0` returns, with no more groups than records. -/
theorem iter_next_progress (recs : List (List Nat)) (hnf : NulFree recs) :
    (∀ pos next, ∃ b it', kmod_builtin_iter_next ⟨encode recs, pos, next⟩ = .ok (b, it') ∧
      (b = true → next + 2 ≤ it'.next ∧ it'.next ≤ (encode recs).length)) ∧
    (∀ (it it2 : kmod_builtin_iter) (k : Nat), it.file = encode recs → Calls it k it2 →
      it.next + 2 * k ≤ it2.next ∧ (0 < k → it2.next ≤ (encode recs).length) ∧
      k ≤ (encode recs).length - it.next) ∧
    ∃ out fin, enumerate ⟨encode recs, 0, 0⟩ = .ok (out, fin) ∧ out.length ≤ recs.length := by
  refine ⟨?_, ?_, ?_⟩
  · intro pos next
    obtain ⟨b, it', h, _, _, _, hadv⟩ := iter_next_any_state recs hnf pos next
    exact ⟨b, it', h, hadv⟩
  · intro it it2 k hfile hc
    obtain ⟨_, h1, h2⟩ := calls_any_state hnf hc hfile
    refine ⟨h1, h2, ?_⟩
    rcases Nat.eq_zero_or_pos k with h0 | hpos
    · omega
    · have := h2 hpos
      omega
  · exact enumerate_loop_nulFree ((encode recs).length + 1) recs (encode recs) 0 hnf (by simp)
      (by have := length_le_encode recs; omega)

set_option maxRecDepth 100000 in
/-- Witness of C15 on the example file: 3 records, 45 bytes. -/
theorem iter_next_progress_witness :
    (∀ pos next, ∃ b it',
      kmod_builtin_iter_next ⟨encode example_records, pos, next⟩ = .ok (b, it') ∧
      (b = true → next + 2 ≤ it'.next ∧ it'.next ≤ (encode example_records).length)) ∧
    (∀ (it it2 : kmod_builtin_iter) (k : Nat), it.file = encode example_records →
      Calls it k it2 →
      it.next + 2 * k ≤ it2.next ∧ (0 < k → it2.next ≤ (encode example_records).length) ∧
      k ≤ (encode example_records).length - it.next) ∧
    ∃ out fin, enumerate ⟨encode example_records, 0, 0⟩ = .ok (out, fin) ∧
      out.length ≤ example_records.length :=
  iter_next_progress example_records (by decide)

/-! ## Two advances before one extraction -/

/-- C18: on a NUL-terminated buffer, after two calls of `kmod_builtin_iter_next` in
a row that both return true from `pos = next = p`, the range `[pos, next)` is made of
the first group and the second group; `kmod_builtin_iter_get_strings` then returns
the pointer to `p` and the number of records of the first group only, and sets `pos`
to `next`, the end of the second group.  Every extraction in a later state returns
a null pointer or a pointer at or after that end: the records of the second group are
not handed out. -/
theorem extract_after_two_advances (A B : List (List Nat)) (it1 it2 : kmod_builtin_iter)
    (s : Option Nat) (hA : NulFree A) (hB : NulFree B)
    (h1 : kmod_builtin_iter_next ⟨encode (A ++ B), (encode A).length, (encode A).length⟩ =
      .ok (true, it1))
    (h2 : kmod_builtin_iter_next it1 = .ok (true, it2)) :
    1 ≤ (headGroup B).length ∧ 1 ≤ (headGroup (afterGroup B)).length ∧
    it2.next = (encode A).length + (encode (headGroup B)).length +
      (encode (headGroup (afterGroup B))).length ∧
    kmod_builtin_iter_get_strings it2 s =
      .ok (((headGroup B).length : Int), some (encode A).length,
        ⟨encode (A ++ B), it2.next, it2.next⟩) ∧
    ∀ (k : Nat) (it3 it4 : kmod_builtin_iter) (s3 q : Option Nat) (c : Int),
      Calls ⟨encode (A ++ B), it2.next, it2.next⟩ k it3 →
      kmod_builtin_iter_get_strings it3 s3 = .ok (c, q, it4) →
      q = none ∨ ∃ o, q = some o ∧ it2.next ≤ o := by
  obtain ⟨⟨r0, rs, hBe, hdot⟩, hnb1, hit1⟩ :=
    iter_next_true_inv ⟨encode (A ++ B), (encode A).length, (encode A).length⟩ hB
      (drop_encode_append A B) h1
  have hsplit1 : (encode (A ++ B)).drop (encode A).length =
      encode (headGroup B) ++ encode (afterGroup B) := by
    rw [drop_encode_append, ← encode_append, headGroup_append_afterGroup]
  have hdrop1 : it1.file.drop it1.next = encode (afterGroup B) := by
    rw [hit1]
    show List.drop ((encode A).length + (encode (headGroup B)).length) (encode (A ++ B)) = _
    rw [← List.drop_drop, hsplit1, List.drop_left]
  obtain ⟨⟨c0, cs, hCe, hcdot⟩, hnb2, hit2⟩ :=
    iter_next_true_inv it1 hB.afterGroup hdrop1 h2
  have hG1 : headGroup B = r0 :: rs.takeWhile (inGroup (prefixOf r0)) := by
    rw [hBe]; exact (headGroup_of_dot rs hdot).1
  have hC : afterGroup B = rs.dropWhile (inGroup (prefixOf r0)) := by
    rw [hBe]; exact (headGroup_of_dot rs hdot).2
  have hG2 : headGroup (afterGroup B) = c0 :: cs.takeWhile (inGroup (prefixOf c0)) := by
    rw [hCe]; exact (headGroup_of_dot cs hcdot).1
  have hc0 : inGroup (prefixOf r0) c0 = false :=
    dropWhile_head_false (inGroup (prefixOf r0)) rs c0 cs (by rw [← hC, hCe])
  have hin0 : inGroup (prefixOf r0) r0 = true := by simp [inGroup, hdot]
  have hall : ∀ a ∈ r0 :: rs.takeWhile (inGroup (prefixOf r0)), inGroup (prefixOf r0) a = true := by
    intro a ha
    rcases List.mem_cons.mp ha with e | e
    · rw [e]; exact hin0
    · exact List.mem_takeWhile_imp e
  have hhead : headGroup (headGroup B ++ headGroup (afterGroup B)) = headGroup B := by
    rw [hG1, hG2]
    show List.takeWhile (inGroup (prefixOf r0))
      ((r0 :: rs.takeWhile (inGroup (prefixOf r0))) ++ _) = _
    rw [List.takeWhile_append_of_pos hall]
    simp [List.takeWhile_cons, hc0]
  have hafter : afterGroup (headGroup B ++ headGroup (afterGroup B)) =
      headGroup (afterGroup B) := by
    rw [hG1, hG2]
    show List.dropWhile (inGroup (prefixOf r0))
      ((r0 :: rs.takeWhile (inGroup (prefixOf r0))) ++ _) = _
    rw [List.dropWhile_append_of_pos hall]
    simp [List.dropWhile_cons, hc0]
  have hit2e : it2 = ⟨encode (A ++ B), (encode A).length,
      (encode A).length + (encode (headGroup B)).length +
        (encode (headGroup (afterGroup B))).length⟩ := by
    rw [hit2, hit1]
  have hsplit2 : (encode (A ++ B)).drop (encode A).length =
      encode (headGroup B ++ headGroup (afterGroup B)) ++
        encode (afterGroup (afterGroup B)) := by
    have hB2 : B = headGroup B ++ headGroup (afterGroup B) ++ afterGroup (afterGroup B) := by
      rw [List.append_assoc, headGroup_append_afterGroup, headGroup_append_afterGroup]
    rw [drop_encode_append, ← encode_append]
    exact congrArg encode hB2
  have hnfG : NulFree (headGroup B ++ headGroup (afterGroup B)) := by
    intro x hx
    rcases List.mem_append.mp hx with e | e
    · exact hB.headGroup x e
    · exact hB.afterGroup.headGroup x e
  have hspec := get_strings_spec it2 s (headGroup B ++ headGroup (afterGroup B))
    (encode (afterGroup (afterGroup B))) hnfG (by rw [hit2e]; exact hsplit2)
    (by rw [hit2e]; simp only [encode_append, List.length_append]; omega)
  rw [hhead, hafter] at hspec
  have hunb : blocked (headGroup (afterGroup B)) = false := by
    rw [hG2]; simp [blocked, hcdot]
  have hemp : (headGroup B ++ headGroup (afterGroup B)).isEmpty = false := by
    rw [hG1]; rfl
  rw [hunb, hemp] at hspec
  simp only [Bool.false_eq_true, if_false] at hspec
  refine ⟨by rw [hG1]; simp, by rw [hG2]; simp, by rw [hit2e], ?_, ?_⟩
  · rw [hspec, hit2e]
  · intro k it3 it4 s3 q c hcalls hget
    have hp0 : Pending (A ++ B) ⟨encode (A ++ B), it2.next, it2.next⟩ := by
      refine ⟨rfl, A ++ headGroup B ++ headGroup (afterGroup B), [],
        afterGroup (afterGroup B), ?_, ?_, ?_, by simp⟩
      · simp only [List.append_nil, List.append_assoc]
        rw [headGroup_append_afterGroup, headGroup_append_afterGroup]
      · rw [hit2e]; simp only [encode_append, List.length_append]
      · rw [hit2e]; simp only [encode_append, List.length_append, List.append_nil]
    have hnf : NulFree (A ++ B) := by
      intro x hx
      rcases List.mem_append.mp hx with e | e
      · exact hA x e
      · exact hB x e
    obtain ⟨hp3, hpos3, _⟩ := calls_pending hnf hcalls hp0
    obtain ⟨_, _, c2, p2, hget2, _, hp2, _⟩ := pending_extract hnf hp3 s3
    rw [hget2] at hget
    have hq : p2 = q := by
      injection hget with e1
      injection e1 with _ e2
      injection e2
    rcases hp2 with e | e
    · left; rw [← hq, e]
    · right; exact ⟨it3.pos, by rw [← hq, e], hpos3⟩

set_option maxRecDepth 100000 in
/-- Witness of C18 on the example file: after two advances from offset 0 the
extraction returns the pointer to 0 and the count 2 of the group `foo`, and sets
`pos = next = 45`, past the group `bar`. -/
theorem extract_after_two_advances_witness :
    kmod_builtin_iter_get_strings ⟨encode example_records, 0, 45⟩ none =
      .ok (2, some 0, ⟨encode example_records, 45, 45⟩) ∧
    (1 ≤ (headGroup example_records).length ∧
    1 ≤ (headGroup (afterGroup example_records)).length ∧
    (⟨encode example_records, 0, 45⟩ : kmod_builtin_iter).next =
      (encode []).length + (encode (headGroup example_records)).length +
        (encode (headGroup (afterGroup example_records))).length ∧
    kmod_builtin_iter_get_strings ⟨encode example_records, 0, 45⟩ none =
      .ok (((headGroup example_records).length : Int), some (encode []).length,
        ⟨encode ([] ++ example_records),
          (⟨encode example_records, 0, 45⟩ : kmod_builtin_iter).next,
          (⟨encode example_records, 0, 45⟩ : kmod_builtin_iter).next⟩) ∧
    ∀ (k : Nat) (it3 it4 : kmod_builtin_iter) (s3 q : Option Nat) (c : Int),
      Calls ⟨encode ([] ++ example_records),
          (⟨encode example_records, 0, 45⟩ : kmod_builtin_iter).next,
          (⟨encode example_records, 0, 45⟩ : kmod_builtin_iter).next⟩ k it3 →
      kmod_builtin_iter_get_strings it3 s3 = .ok (c, q, it4) →
      q = none ∨ ∃ o, q = some o ∧
        (⟨encode example_records, 0, 45⟩ : kmod_builtin_iter).next ≤ o) :=
  ⟨by decide,
    extract_after_two_advances [] example_records ⟨encode example_records, 0, 29⟩
      ⟨encode example_records, 0, 45⟩ none (by decide) (by decide) (by decide) (by decide)⟩

/-! ## The two passes of kmod_builtin_get_modinfo on any buffer -/

theorem strlen_ok_split : ∀ (s : List Nat) (l : Nat), strlen s = .ok l →
    ∃ v t, s = v ++ 0 :: t ∧ 0 ∉ v ∧ v.length = l := by
  intro s
  induction s with
  | nil => intro l h; simp [strlen] at h
  | cons b s ih =>
    intro l h
    unfold strlen at h
    by_cases hb : b = 0
    · rw [if_pos hb] at h
      have hl : l = 0 := by injection h with e; exact e.symm
      exact ⟨[], s, by simp [hb], by simp, by simp [hl]⟩
    · rw [if_neg hb] at h
      obtain ⟨n, hn, h⟩ := Outcome.bind_eq_ok h
      have hl : l = n + 1 := by injection h with e; exact e.symm
      obtain ⟨v, t, hs, hv, hlen⟩ := ih n hn
      refine ⟨b :: v, t, by simp [hs], ?_, by simp [hlen, hl]⟩
      intro h0
      rcases List.mem_cons.mp h0 with e | e
      · exact hb e.symm
      · exact hv e

theorem matchedRun_nulFree (mm : List Nat) (modlen : Nat) :
    ∀ (vs : List (List Nat)) (m : Nat), MatchedRun mm modlen m vs → NulFree vs := by
  intro vs
  induction vs with
  | nil => intro m _ x hx; simp at hx
  | cons v vs ih =>
    intro m h x hx
    rcases List.mem_cons.mp hx with e | e
    · rw [e]; exact h.1
    · exact ih _ h.2.2 x e

theorem modinfo_scan_run (mm name : List Nat) (modlen : Nat) :
    ∀ (fuel off count size : Nat) (sect : Option Nat) (c2 s2 : Nat) (sect2 : Option Nat),
      count ≠ 0 →
      modinfo_scan_loop mm name modlen fuel off count size sect = .ok (some (c2, s2, sect2)) →
      ∃ vs, MatchedRun mm modlen off vs ∧ c2 = count + vs.length ∧
        s2 = size + (encode vs).length ∧ sect2 = sect := by
  intro fuel
  induction fuel with
  | zero => intro off count size sect c2 s2 sect2 _ h; simp [modinfo_scan_loop] at h
  | succ f ih =>
    intro off count size sect c2 s2 sect2 hcount h
    have hstop : ∀ {x : Outcome (Option (Nat × Nat × Option Nat))},
        x = .ok (some (count, size, sect)) → x = .ok (some (c2, s2, sect2)) →
        ∃ vs, MatchedRun mm modlen off vs ∧ c2 = count + vs.length ∧
          s2 = size + (encode vs).length ∧ sect2 = sect := by
      intro x h1 h2
      rw [h1] at h2
      simp only [Outcome.ok.injEq, Option.some.injEq, Prod.mk.injEq] at h2
      exact ⟨[], trivial, by simp [h2.1], by simp [encode, h2.2.1], h2.2.2.symm⟩
    unfold modinfo_scan_loop at h
    by_cases hlt : off < mm.length
    · rw [if_pos hlt] at h
      obtain ⟨dot, _, h⟩ := Outcome.bind_eq_ok h
      cases dot with
      | none => simp at h
      | some len =>
        simp only at h
        by_cases hlen : modlen ≠ len
        · rw [if_pos hlen, if_pos hcount] at h
          exact hstop rfl h
        · rw [if_neg hlen] at h
          obtain ⟨c, _, h⟩ := Outcome.bind_eq_ok h
          by_cases hc : c ≠ 0
          · rw [if_pos hc, if_pos hcount] at h
            exact hstop rfl h
          · rw [if_neg hc] at h
            obtain ⟨l, hl, h⟩ := Outcome.bind_eq_ok h
            have hlen2 : len = modlen := by
              by_contra hne; exact hlen (fun e => hne e.symm)
            rw [hlen2] at hl
            rw [if_neg hcount] at h
            obtain ⟨vs, hrun, hc2, hs2, hsect⟩ := ih _ _ _ _ _ _ _ (by omega) h
            obtain ⟨v, t, hv, hv0, hvl⟩ := strlen_ok_split _ _ hl
            refine ⟨v :: vs, ⟨hv0, ⟨t, hv⟩, by rw [hvl]; exact hrun⟩, ?_, ?_, hsect⟩
            · rw [hc2]; simp; omega
            · rw [hs2]; simp [encode, hvl]; omega
    · rw [if_neg hlt] at h
      exact hstop rfl h

theorem modinfo_scan_first (mm name : List Nat) (modlen : Nat) :
    ∀ (fuel off size : Nat) (sect : Option Nat) (c2 s2 : Nat) (sect2 : Option Nat),
      modinfo_scan_loop mm name modlen fuel off 0 size sect = .ok (some (c2, s2, sect2)) →
      c2 = 0 ∨ ∃ m vs, MatchedRun mm modlen m vs ∧ c2 = vs.length ∧
        s2 = size + (encode vs).length ∧ sect2 = some m := by
  intro fuel
  induction fuel with
  | zero => intro off size sect c2 s2 sect2 h; simp [modinfo_scan_loop] at h
  | succ f ih =>
    intro off size sect c2 s2 sect2 h
    unfold modinfo_scan_loop at h
    by_cases hlt : off < mm.length
    · rw [if_pos hlt] at h
      obtain ⟨dot, _, h⟩ := Outcome.bind_eq_ok h
      cases dot with
      | none => simp at h
      | some len =>
        simp only at h
        by_cases hlen : modlen ≠ len
        · rw [if_pos hlen, if_neg (by simp)] at h
          obtain ⟨l, _, h⟩ := Outcome.bind_eq_ok h
          exact ih _ _ _ _ _ _ h
        · rw [if_neg hlen] at h
          obtain ⟨c, _, h⟩ := Outcome.bind_eq_ok h
          by_cases hc : c ≠ 0
          · rw [if_pos hc, if_neg (by simp)] at h
            obtain ⟨l, _, h⟩ := Outcome.bind_eq_ok h
            exact ih _ _ _ _ _ _ h
          · rw [if_neg hc] at h
            obtain ⟨l, hl, h⟩ := Outcome.bind_eq_ok h
            have hlen2 : len = modlen := by
              by_contra hne; exact hlen (fun e => hne e.symm)
            rw [hlen2] at hl
            rw [if_pos trivial] at h
            obtain ⟨vs, hrun, hc2, hs2, hsect⟩ :=
              modinfo_scan_run mm name modlen _ _ _ _ _ _ _ _ (by omega) h
            obtain ⟨v, t, hv, hv0, hvl⟩ := strlen_ok_split _ _ hl
            right
            refine ⟨off, v :: vs, ⟨hv0, ⟨t, hv⟩, by rw [hvl]; exact hrun⟩, ?_, ?_, hsect⟩
            · rw [hc2]; simp; omega
            · rw [hs2]; simp [encode, hvl]; omega
    · rw [if_neg hlt] at h
      simp only [Outcome.ok.injEq, Option.some.injEq, Prod.mk.injEq] at h
      left; exact h.1.symm

theorem modinfo_copy_matched (mm : List Nat) (modlen m0 : Nat) :
    ∀ (vs : List (List Nat)) (fuel mmoffset offset n size : Nat)
      (blk : modinfo_block) (done T : List Nat) (k : Nat),
      MatchedRun mm modlen (m0 + mmoffset) vs →
      size = offset + (encode vs).length →
      blk.strings = done.map some ++ List.replicate (encode vs).length none →
      done.length = offset →
      blk.table = T.map some ++ List.replicate (vs.length + k) none → T.length = n →
      vs.length < fuel →
      modinfo_copy_loop (mm.drop m0) modlen size fuel mmoffset offset n blk =
        .ok { alloc := blk.alloc
              table := (T ++ stringOffsets offset vs).map some ++ List.replicate k none
              strings := (done ++ encode vs).map some } := by
  intro vs
  induction vs with
  | nil =>
    intro fuel mmoffset offset n size blk done T k _ hsize hstr _ htab _ hf
    cases fuel with
    | zero => omega
    | succ f =>
      have hge : ¬ offset < size := by simp [encode] at hsize; omega
      cases blk with
      | mk alloc table strings =>
        simp only [encode, List.length_nil, List.replicate_zero,
          List.append_nil, Nat.zero_add] at hstr htab
        simp [modinfo_copy_loop, hge, stringOffsets, encode, hstr, htab]
  | cons v vs ih =>
    intro fuel mmoffset offset n size blk done T k hrun hsize hstr hdone htab hT hf
    cases fuel with
    | zero => omega
    | succ f =>
      obtain ⟨hv0, ⟨t, hv⟩, hrest⟩ := hrun
      have hvb : encode (v :: vs) = (v ++ [0]) ++ encode vs := by simp [encode]
      have hvl : (encode (v :: vs)).length = (v ++ [0]).length + (encode vs).length := by
        rw [hvb, List.length_append]
      have hlt : offset < size := by rw [hsize, hvl]; simp
      have hval : (mm.drop m0).drop (mmoffset + modlen + 1) = v ++ 0 :: t := by
        rw [List.drop_drop, ← hv]; congr 1; omega
      have htake : (v ++ 0 :: t).take (v.length + 1) = v ++ [0] := by
        have e1 : v ++ 0 :: t = (v ++ [0]) ++ t := by simp
        have e2 : v.length + 1 = (v ++ [0]).length := by simp
        rw [e1, e2, List.take_left]
      have hstr2 : blk.strings = done.map some ++
          List.replicate ((v ++ [0]).length + (encode vs).length) none := by
        rw [hstr, hvl]
      have hbound : offset + (v.length + 1) ≤ blk.strings.length ∧ n < blk.table.length := by
        rw [hstr2, htab]; simp; omega
      have hw : write_bytes blk.strings offset (v ++ [0]) =
          (done ++ (v ++ [0])).map some ++ List.replicate (encode vs).length none := by
        rw [hstr2, ← hdone]; exact write_bytes_fresh _ _ _
      have hs : blk.table.set n (some offset) =
          (T ++ [offset]).map some ++ List.replicate (vs.length + k) none := by
        rw [htab, ← hT]
        have e : (v :: vs).length + k = (vs.length + k) + 1 := by simp; omega
        rw [e]; exact table_set_fresh _ _ _
      have hrest2 : MatchedRun mm modlen (m0 + (mmoffset + (modlen + 1 + (v.length + 1)))) vs := by
        have e : m0 + (mmoffset + (modlen + 1 + (v.length + 1))) =
            m0 + mmoffset + (modlen + 1 + (v.length + 1)) := by omega
        rw [e]; exact hrest
      have hnext := ih f (mmoffset + (modlen + 1 + (v.length + 1))) (offset + (v.length + 1))
        (n + 1) size
        { alloc := blk.alloc
          table := blk.table.set n (some offset)
          strings := write_bytes blk.strings offset (v ++ [0]) }
        (done ++ (v ++ [0])) (T ++ [offset]) k hrest2
        (by rw [hsize, hvl]; simp; omega) hw (by simp [hdone]) hs (by simp [hT])
        (by simpa using hf)
      unfold modinfo_copy_loop
      simp only [hlt, if_true]
      rw [hval, strlen_record _ _ hv0]
      simp only [Outcome.bind_ok, hbound, and_self, if_true]
      rw [htake, hnext]
      simp [stringOffsets, hvb]

theorem get_modinfo_success (ctx : kmod_ctx) (name : List Nat) (ret : Int)
    (blk : Option modinfo_block) (h : kmod_builtin_get_modinfo ctx name = .ok (ret, blk))
    (hret : 0 ≤ ret) :
    ∃ (iter : kmod_builtin_iter) (modlen size : Nat) (sect : Option Nat) (vs : List (List Nat)),
      kmod_builtin_iter_new ctx = .ok (.ok iter) ∧ strlen (name ++ [0]) = .ok modlen ∧
      modinfo_scan_loop iter.file name modlen (iter.file.length + 1) 0 0 0 none =
        .ok (some (vs.length, size, sect)) ∧
      ret = (vs.length : Int) ∧ vs ≠ [] ∧ NulFree vs ∧ size = (encode vs).length ∧
      blk = some { alloc := size + sizeof_ptr * (vs.length + 1)
                   table := (stringOffsets 0 vs).map some ++ [none]
                   strings := (encode vs).map some } := by
  unfold kmod_builtin_get_modinfo at h
  obtain ⟨it, hnew, h⟩ := Outcome.bind_eq_ok h
  cases it with
  | error e =>
    simp only [Outcome.ok.injEq, Prod.mk.injEq] at h
    omega
  | ok iter =>
    simp only at h
    obtain ⟨modlen, hmodlen, h⟩ := Outcome.bind_eq_ok h
    obtain ⟨r, hscan, h⟩ := Outcome.bind_eq_ok h
    cases r with
    | none =>
      simp only [Outcome.ok.injEq, Prod.mk.injEq, ENODATA] at h
      omega
    | some v =>
      obtain ⟨count, size, sect⟩ := v
      simp only at h
      by_cases hc : count = 0
      · rw [if_pos hc] at h
        simp only [Outcome.ok.injEq, Prod.mk.injEq, ENOSYS] at h
        omega
      · rw [if_neg hc] at h
        by_cases hm : ctx.malloc_ok (size + sizeof_ptr * (count + 1)) = false
        · rw [if_pos hm] at h
          simp only [Outcome.ok.injEq, Prod.mk.injEq, ENOMEM] at h
          omega
        · rw [if_neg hm] at h
          rcases modinfo_scan_first iter.file name modlen _ _ _ _ _ _ _ hscan with h0 | hrun
          · exact absurd h0 hc
          · obtain ⟨m, vs, hrun, hcount, hsize, hsect⟩ := hrun
            subst hsect hcount
            simp only [Nat.zero_add] at hsize
            have hne : vs ≠ [] := by
              intro e; apply hc; rw [e]; rfl
            simp only at h
            have hcopy := modinfo_copy_matched iter.file modlen m vs (size + 1) 0 0 0 size
              { alloc := size + sizeof_ptr * (vs.length + 1)
                table := List.replicate (vs.length + 1) none
                strings := List.replicate size none }
              [] [] 1 (by simpa using hrun) (by simp [hsize]) (by simp [hsize]) rfl
              (by simp) rfl
              (by have := length_le_encode vs; omega)
            rw [hcopy] at h
            simp only [Outcome.bind_ok, Outcome.ok.injEq, Prod.mk.injEq, List.nil_append,
              List.replicate_one] at h
            exact ⟨iter, modlen, size, some m, vs, hnew, hmodlen, hscan, h.1.symm, hne,
              matchedRun_nulFree _ _ _ _ hrun, hsize, h.2.symm⟩

/-! ## Claims about the block of kmod_builtin_get_modinfo -/

theorem stringOffsets_length (off : Nat) (vs : List (List Nat)) :
    (stringOffsets off vs).length = vs.length := by
  induction vs generalizing off with
  | nil => rfl
  | cons v vs ih => simp [stringOffsets, ih]

theorem encode_split : ∀ (vs : List (List Nat)) (i : Nat) (v : List Nat), vs[i]? = some v →
    encode vs = encode (vs.take i) ++ (v ++ 0 :: encode (vs.drop (i + 1))) := by
  intro vs
  induction vs with
  | nil => intro i v h; simp at h
  | cons a vs ih =>
    intro i v h
    cases i with
    | zero =>
      have : a = v := by simpa using h
      simp [encode, this]
    | succ i =>
      have h2 : vs[i]? = some v := by simpa using h
      have := ih i v h2
      simp only [List.take_succ_cons, List.drop_succ_cons, encode, List.append_assoc,
        List.cons_append]
      rw [← this]

theorem stringOffsets_getElem : ∀ (vs : List (List Nat)) (off i : Nat) (v : List Nat),
    vs[i]? = some v →
    (stringOffsets off vs)[i]? = some (off + (encode (vs.take i)).length) := by
  intro vs
  induction vs with
  | nil => intro off i v h; simp at h
  | cons a vs ih =>
    intro off i v h
    cases i with
    | zero => simp [stringOffsets, encode]
    | succ i =>
      have h2 : vs[i]? = some v := by simpa using h
      have := ih (off + (a.length + 1)) i v h2
      simp only [stringOffsets, List.getElem?_cons_succ, this, List.take_succ_cons, encode,
        List.length_append, List.length_cons]
      congr 1
      omega

theorem getElem_after {α : Type} (X Y : List α) (a : α) : (X ++ a :: Y)[X.length]? = some a := by
  induction X with
  | nil => simp
  | cons b X ih => simpa using ih

theorem table_entry (vs : List (List Nat)) (i : Nat) (v : List Nat) (h : vs[i]? = some v) :
    ((stringOffsets 0 vs).map some ++ [none])[i]? =
      some (some (encode (vs.take i)).length) := by
  have hi : i < vs.length := by
    by_contra hge
    have : vs[i]? = none := List.getElem?_eq_none (by omega)
    rw [this] at h; simp at h
  have hlt : i < ((stringOffsets 0 vs).map some).length := by
    simp [stringOffsets_length, hi]
  rw [List.getElem?_append_left hlt, List.getElem?_map, stringOffsets_getElem vs 0 i v h]
  simp

theorem table_last (vs : List (List Nat)) :
    ((stringOffsets 0 vs).map some ++ [none])[vs.length]? = some none := by
  have hl : ((stringOffsets 0 vs).map some).length = vs.length := by
    simp [stringOffsets_length]
  rw [List.getElem?_append_right (by omega), hl]
  simp

/-- C12: on every successful `kmod_builtin_get_modinfo`, whatever the buffer, the
copy loop writes the pointer slots 0 to `count - 1` and no other (the block has
`count + 1` slots and the last one is left unwritten); slot 0 points at the first
byte of the string region, slot `i + 1` points `len_i` bytes after slot `i`, where
`len_i` is the length of the value `i` with its NUL; each pointed string lies inside
the `size` bytes of the region and ends with a NUL; and the region is filled by
exactly the `size` bytes that the first pass counted. -/
theorem copy_loop_fills_block (ctx : kmod_ctx) (name : List Nat) (ret : Int)
    (blk : modinfo_block) (h : kmod_builtin_get_modinfo ctx name = .ok (ret, some blk)) :
    ∃ (vs : List (List Nat)) (iter : kmod_builtin_iter) (modlen size : Nat)
      (sect : Option Nat),
      kmod_builtin_iter_new ctx = .ok (.ok iter) ∧ strlen (name ++ [0]) = .ok modlen ∧
      modinfo_scan_loop iter.file name modlen (iter.file.length + 1) 0 0 0 none =
        .ok (some (vs.length, size, sect)) ∧
      ret = (vs.length : Int) ∧ 1 ≤ vs.length ∧ NulFree vs ∧
      blk.table.length = vs.length + 1 ∧ blk.table[vs.length]? = some none ∧
      blk.strings = (encode vs).map some ∧ blk.strings.length = size ∧
      blk.table[0]? = some (some 0) ∧
      ∀ i v, vs[i]? = some v →
        ∃ o, blk.table[i]? = some (some o) ∧ o + (v.length + 1) ≤ size ∧
          region_string (blk.strings.drop o) = some v ∧
          blk.strings[o + v.length]? = some (some 0) ∧
          (i + 1 < vs.length → blk.table[i + 1]? = some (some (o + (v.length + 1)))) := by
  have hret : 0 ≤ ret := by
    by_contra hneg
    have := (get_modinfo_nonzero ctx name ret (some blk) h).2.2 (by omega)
    simp at this
  obtain ⟨iter, modlen, size, sect, vs, hnew, hmodlen, hscan, hr, hne, hnf, hsize, hblk⟩ :=
    get_modinfo_success ctx name ret (some blk) h hret
  have hb : blk = { alloc := size + sizeof_ptr * (vs.length + 1)
                    table := (stringOffsets 0 vs).map some ++ [none]
                    strings := (encode vs).map some } := by
    injection hblk
  have hpos : 1 ≤ vs.length := by
    cases vs with
    | nil => exact absurd rfl hne
    | cons v vs => simp
  refine ⟨vs, iter, modlen, size, sect, hnew, hmodlen, hscan, hr, hpos, hnf, ?_, ?_, ?_, ?_,
    ?_, ?_⟩
  · rw [hb]; simp [stringOffsets_length]
  · rw [hb]; exact table_last vs
  · rw [hb]
  · rw [hb]; simp [hsize]
  · rw [hb]
    cases vs with
    | nil => exact absurd rfl hne
    | cons v vs => simp [stringOffsets]
  · intro i v hv
    have hsplit := encode_split vs i v hv
    have hlen : (encode vs).length =
        (encode (vs.take i)).length + (v.length + 1 + (encode (vs.drop (i + 1))).length) := by
      have := congrArg List.length hsplit
      simp only [List.length_append, List.length_cons] at this
      omega
    have hv0 : 0 ∉ v := hnf v (List.mem_iff_getElem?.mpr ⟨i, hv⟩)
    have hdrop : ((encode vs).map some).drop (encode (vs.take i)).length =
        (v ++ 0 :: encode (vs.drop (i + 1))).map some := by
      have e : (encode (vs.take i)).length = ((encode (vs.take i)).map some).length := by simp
      conv_lhs => rw [hsplit, List.map_append, e, List.drop_left]
    refine ⟨(encode (vs.take i)).length, ?_, ?_, ?_, ?_, ?_⟩
    · rw [hb]; exact table_entry vs i v hv
    · rw [hsize, hlen]; omega
    · rw [hb]
      show region_string (((encode vs).map some).drop _) = _
      rw [hdrop]
      exact region_string_value v _ hv0
    · rw [hb]
      show ((encode vs).map some)[(encode (vs.take i)).length + v.length]? = _
      rw [← List.getElem?_drop, hdrop, List.map_append, List.map_cons]
      have := getElem_after (v.map some) ((encode (vs.drop (i + 1))).map some) (some 0)
      rw [List.length_map] at this
      exact this
    · intro hi
      obtain ⟨w, hw⟩ : ∃ w, vs[i + 1]? = some w :=
        ⟨vs[i + 1], List.getElem?_eq_getElem hi⟩
      rw [hb]
      show ((stringOffsets 0 vs).map some ++ [none])[i + 1]? = _
      rw [table_entry vs (i + 1) w hw]
      have hi2 : i < vs.length := by omega
      have htake : vs.take (i + 1) = vs.take i ++ [v] := by
        rw [List.take_succ, hv]; rfl
      rw [htake, encode_append]
      simp [encode]

set_option maxRecDepth 100000 in
/-- Witness of C12: the block returned by the lookup of `foo` in the example file. -/
theorem copy_loop_fills_block_witness :
    ∃ (vs : List (List Nat)) (iter : kmod_builtin_iter) (modlen size : Nat)
      (sect : Option Nat),
      kmod_builtin_iter_new (example_ctx (encode example_records)) = .ok (.ok iter) ∧
      strlen (([102, 111, 111] : List Nat) ++ [0]) = .ok modlen ∧
      modinfo_scan_loop iter.file [102, 111, 111] modlen (iter.file.length + 1) 0 0 0 none =
        .ok (some (vs.length, size, sect)) ∧
      (2 : Int) = (vs.length : Int) ∧ 1 ≤ vs.length ∧ NulFree vs ∧
      (⟨45, [some 0, some 12, none],
          [108, 105, 99, 101, 110, 115, 101, 61, 71, 80, 76, 0,
            97, 117, 116, 104, 111, 114, 61, 88, 0].map some⟩ : modinfo_block).table.length =
        vs.length + 1 ∧
      (⟨45, [some 0, some 12, none],
          [108, 105, 99, 101, 110, 115, 101, 61, 71, 80, 76, 0,
            97, 117, 116, 104, 111, 114, 61, 88, 0].map some⟩ : modinfo_block).table[vs.length]? =
        some none ∧
      (⟨45, [some 0, some 12, none],
          [108, 105, 99, 101, 110, 115, 101, 61, 71, 80, 76, 0,
            97, 117, 116, 104, 111, 114, 61, 88, 0].map some⟩ : modinfo_block).strings =
        (encode vs).map some ∧
      (⟨45, [some 0, some 12, none],
          [108, 105, 99, 101, 110, 115, 101, 61, 71, 80, 76, 0,
            97, 117, 116, 104, 111, 114, 61, 88, 0].map some⟩ : modinfo_block).strings.length =
        size ∧
      (⟨45, [some 0, some 12, none],
          [108, 105, 99, 101, 110, 115, 101, 61, 71, 80, 76, 0,
            97, 117, 116, 104, 111, 114, 61, 88, 0].map some⟩ : modinfo_block).table[0]? =
        some (some 0) ∧
      ∀ i v, vs[i]? = some v →
        ∃ o, (⟨45, [some 0, some 12, none],
              [108, 105, 99, 101, 110, 115, 101, 61, 71, 80, 76, 0,
                97, 117, 116, 104, 111, 114, 61, 88, 0].map some⟩ : modinfo_block).table[i]? =
            some (some o) ∧
          o + (v.length + 1) ≤ size ∧
          region_string ((⟨45, [some 0, some 12, none],
              [108, 105, 99, 101, 110, 115, 101, 61, 71, 80, 76, 0,
                97, 117, 116, 104, 111, 114, 61, 88, 0].map some⟩ :
                modinfo_block).strings.drop o) = some v ∧
          (⟨45, [some 0, some 12, none],
              [108, 105, 99, 101, 110, 115, 101, 61, 71, 80, 76, 0,
                97, 117, 116, 104, 111, 114, 61, 88, 0].map some⟩ :
                modinfo_block).strings[o + v.length]? = some (some 0) ∧
          (i + 1 < vs.length →
            (⟨45, [some 0, some 12, none],
              [108, 105, 99, 101, 110, 115, 101, 61, 71, 80, 76, 0,
                97, 117, 116, 104, 111, 114, 61, 88, 0].map some⟩ :
                modinfo_block).table[i + 1]? = some (some (o + (v.length + 1)))) :=
  copy_loop_fills_block (example_ctx (encode example_records)) [102, 111, 111] 2
    ⟨45, [some 0, some 12, none],
      [108, 105, 99, 101, 110, 115, 101, 61, 71, 80, 76, 0,
        97, 117, 116, 104, 111, 114, 61, 88, 0].map some⟩ (by decide)

set_option maxRecDepth 100000 in
/-- C11, counterexample: the lookup of `bar` in the example file returns the count 1
and 12 value bytes, and its block has 28 bytes and two pointer slots, so that the
value bytes begin 16 bytes into the block: not the 20 bytes, the single slot and the
offset 8 of a block of `size + count * sizeof(pointer)` bytes. -/
theorem modinfo_block_has_spare_slot :
    kmod_builtin_get_modinfo (example_ctx (encode example_records)) [98, 97, 114] =
      .ok (1, some ⟨28, [some 0, none],
        [108, 105, 99, 101, 110, 115, 101, 61, 77, 73, 84, 0].map some⟩) ∧
    (⟨28, [some 0, none],
        [108, 105, 99, 101, 110, 115, 101, 61, 77, 73, 84, 0].map some⟩ :
        modinfo_block).strings.length = 12 ∧
    (⟨28, [some 0, none],
        [108, 105, 99, 101, 110, 115, 101, 61, 77, 73, 84, 0].map some⟩ :
        modinfo_block).alloc ≠ 12 + 1 * sizeof_ptr ∧
    (⟨28, [some 0, none],
        [108, 105, 99, 101, 110, 115, 101, 61, 77, 73, 84, 0].map some⟩ :
        modinfo_block).table.length ≠ 1 ∧
    (⟨28, [some 0, none],
        [108, 105, 99, 101, 110, 115, 101, 61, 77, 73, 84, 0].map some⟩ :
        modinfo_block).strings_start ≠ 1 * sizeof_ptr := by
  decide

/-- C11, amended: on every successful `kmod_builtin_get_modinfo` with result `count`
and total `size` of the first pass, the block has `size + (count + 1) *
sizeof(pointer)` bytes: `count + 1` pointer slots followed at once by the `size` value
bytes, which begin after the slot of index `count`; the slots 0 to `count - 1` hold
pointers and the slot of index `count` is never written, so that it holds no NULL. -/
theorem modinfo_block_layout (ctx : kmod_ctx) (name : List Nat) (ret : Int)
    (blk : modinfo_block) (h : kmod_builtin_get_modinfo ctx name = .ok (ret, some blk)) :
    ∃ (count size : Nat) (iter : kmod_builtin_iter) (modlen : Nat) (sect : Option Nat),
      kmod_builtin_iter_new ctx = .ok (.ok iter) ∧ strlen (name ++ [0]) = .ok modlen ∧
      modinfo_scan_loop iter.file name modlen (iter.file.length + 1) 0 0 0 none =
        .ok (some (count, size, sect)) ∧
      ret = (count : Int) ∧ 1 ≤ count ∧
      blk.alloc = size + sizeof_ptr * (count + 1) ∧
      blk.table.length = count + 1 ∧ blk.strings.length = size ∧
      blk.strings_start = sizeof_ptr * (count + 1) ∧
      blk.alloc = blk.strings_start + blk.strings.length ∧
      (∀ i, i < count → ∃ o, blk.table[i]? = some (some o)) ∧
      blk.table[count]? = some none := by
  have hret : 0 ≤ ret := by
    by_contra hneg
    have := (get_modinfo_nonzero ctx name ret (some blk) h).2.2 (by omega)
    simp at this
  obtain ⟨iter, modlen, size, sect, vs, hnew, hmodlen, hscan, hr, hne, hnf, hsize, hblk⟩ :=
    get_modinfo_success ctx name ret (some blk) h hret
  have hb : blk = { alloc := size + sizeof_ptr * (vs.length + 1)
                    table := (stringOffsets 0 vs).map some ++ [none]
                    strings := (encode vs).map some } := by
    injection hblk
  have hpos : 1 ≤ vs.length := by
    cases vs with
    | nil => exact absurd rfl hne
    | cons v vs => simp
  have htl : blk.table.length = vs.length + 1 := by
    rw [hb]; simp [stringOffsets_length]
  have hsl : blk.strings.length = size := by
    rw [hb]; simp [hsize]
  refine ⟨vs.length, size, iter, modlen, sect, hnew, hmodlen, hscan, hr, hpos, by rw [hb],
    htl, hsl, ?_, ?_, ?_, ?_⟩
  · simp [modinfo_block.strings_start, htl]
  · have ha : blk.alloc = size + sizeof_ptr * (vs.length + 1) := by rw [hb]
    rw [hsl, ha]; simp only [modinfo_block.strings_start, htl]; omega
  · intro i hi
    obtain ⟨v, hv⟩ : ∃ v, vs[i]? = some v := ⟨vs[i], List.getElem?_eq_getElem hi⟩
    exact ⟨_, by rw [hb]; exact table_entry vs i v hv⟩
  · rw [hb]; exact table_last vs

set_option maxRecDepth 100000 in
/-- Witness of the amended C11: the block of the lookup of `bar` in the example
file. -/
theorem modinfo_block_layout_witness :
    ∃ (count size : Nat) (iter : kmod_builtin_iter) (modlen : Nat) (sect : Option Nat),
      kmod_builtin_iter_new (example_ctx (encode example_records)) = .ok (.ok iter) ∧
      strlen (([98, 97, 114] : List Nat) ++ [0]) = .ok modlen ∧
      modinfo_scan_loop iter.file [98, 97, 114] modlen (iter.file.length + 1) 0 0 0 none =
        .ok (some (count, size, sect)) ∧
      (1 : Int) = (count : Int) ∧ 1 ≤ count ∧
      (⟨28, [some 0, none],
          [108, 105, 99, 101, 110, 115, 101, 61, 77, 73, 84, 0].map some⟩ :
          modinfo_block).alloc = size + sizeof_ptr * (count + 1) ∧
      (⟨28, [some 0, none],
          [108, 105, 99, 101, 110, 115, 101, 61, 77, 73, 84, 0].map some⟩ :
          modinfo_block).table.length = count + 1 ∧
      (⟨28, [some 0, none],
          [108, 105, 99, 101, 110, 115, 101, 61, 77, 73, 84, 0].map some⟩ :
          modinfo_block).strings.length = size ∧
      (⟨28, [some 0, none],
          [108, 105, 99, 101, 110, 115, 101, 61, 77, 73, 84, 0].map some⟩ :
          modinfo_block).strings_start = sizeof_ptr * (count + 1) ∧
      (⟨28, [some 0, none],
          [108, 105, 99, 101, 110, 115, 101, 61, 77, 73, 84, 0].map some⟩ :
          modinfo_block).alloc =
        (⟨28, [some 0, none],
          [108, 105, 99, 101, 110, 115, 101, 61, 77, 73, 84, 0].map some⟩ :
          modinfo_block).strings_start +
        (⟨28, [some 0, none],
          [108, 105, 99, 101, 110, 115, 101, 61, 77, 73, 84, 0].map some⟩ :
          modinfo_block).strings.length ∧
      (∀ i, i < count → ∃ o,
        (⟨28, [some 0, none],
          [108, 105, 99, 101, 110, 115, 101, 61, 77, 73, 84, 0].map some⟩ :
          modinfo_block).table[i]? = some (some o)) ∧
      (⟨28, [some 0, none],
          [108, 105, 99, 101, 110, 115, 101, 61, 77, 73, 84, 0].map some⟩ :
          modinfo_block).table[count]? = some none :=
  modinfo_block_layout (example_ctx (encode example_records)) [98, 97, 114] 1
    ⟨28, [some 0, none], [108, 105, 99, 101, 110, 115, 101, 61, 77, 73, 84, 0].map some⟩
    (by decide)

end Kmod
